import Mathlib

/-!
# libcpu: tagger, recompiler block layout and register-file grouping

A shallow embedding of `libcpu/libcpu_main.cpp` (tagging, dispatch and
block lifting, single-step recompilation, the optimizer pipeline and the
start of `cpu_run`) and of `upcl/sema/register_file_builder.cpp`
(register-set grouping, storage-width rounding and the creation of register
definitions), followed by theorems about them.

Conventions of the embedding:

* `addr_t` is an unsigned 64-bit integer (the source prints it with `%llx`);
  addresses are `Nat` and `pc += bytes` is taken modulo `2 ^ 64`. `long` and
  `size_t` are 64 bits wide as well.
* The tag array `cpu->tagging_type` is an `Option (List Nat)`: `none` is the
  `NULL` pointer, `some arr` an allocation of `arr.length` bytes.
* Loops and recursion of the source that have no syntactic bound take a
  fuel argument and return `none` when it is exhausted.
* A unit carries a ghost `trace` of the tag-array cells it touched and of
  the front-end queries it made; no control flow depends on it.
* Objects of the register-file builder live in lists or maps indexed by
  their address; a pointer is that index and `none` is the null pointer.
-/

namespace Libcpu

/-! ## Constants -/

/-- Modulus of `addr_t` arithmetic. The typedef is in the absent `libcpu.h`;
the source passes `addr_t` values to `%llx`, the conversion of a 64-bit
integer, so `addr_t` is taken to be 64 bits wide. -/
def ADDR_MOD : Nat := 2 ^ 64

def TYPE_UNKNOWN : Nat := 0
def TYPE_CODE : Nat := 1
def TYPE_CODE_TARGET : Nat := 2
def TYPE_AFTER_CALL : Nat := 4
def TYPE_AFTER_BRANCH : Nat := 8
def TYPE_ENTRY : Nat := 16
def TYPE_SUBROUTINE : Nat := 32

/-- Modelled from the spec: the reserved sentinel that `tag_instr` stores in
`new_pc` for an indirect jump or call. The header `tag_generic.h` that
defines `NEW_PC_NONE` is absent; the all-ones `addr_t` is used. -/
def NEW_PC_NONE : Nat := ADDR_MOD - 1

/-- Modelled from the spec: the `SINGLESTEP` bit of the debug flag word. The
header `libcpu.h` that defines `CPU_DEBUG_SINGLESTEP` is absent. -/
def CPU_DEBUG_SINGLESTEP : Nat := 1

/-! ## Front-end interface -/

/-- Modelled from the spec: the flow classification returned by the front-end
(`FLOW_TYPE_*` of the absent `tag_generic.h`), one of the six values that the
spec lists and the switch of `tag_recursive` names. -/
inductive flow_type_t
  | ERR
  | RET
  | JUMP
  | CALL
  | BRANCH
  | CONTINUE
  deriving DecidableEq, Repr

/-- Outputs of one `tag_instr` call: the returned `int` length and the two
out-parameters. -/
structure tag_result where
  bytes : Int
  flow_type : flow_type_t
  new_pc : Nat
  deriving DecidableEq, Repr

/-- The callbacks of `cpu->f` that the tagger and the recompiler use. The
guest `RAM` is global and immutable, so each callback is a function of `pc`.
`recompile_instr` is represented by the length it returns. -/
structure arch_func_t where
  tag_instr : Nat → tag_result
  recompile_instr : Nat → Int

/-! ## Translation unit -/

/-- Ghost record of what the tagger touched. -/
inductive event
  | alloc (size : Nat)
  | read (index : Nat)
  | write (index : Nat) (t : Nat)
  | query (pc : Nat)
  deriving DecidableEq, Repr

/-- The fields of `cpu_t` that tagging and recompilation use. -/
structure cpu_t where
  code_start : Nat
  code_end : Nat
  flags_debug : Nat
  tagging_type : Option (List Nat)
  trace : List event
  deriving DecidableEq, Repr

/-- `pc += bytes` on `addr_t`. -/
def addr_add (pc : Nat) (bytes : Int) : Nat :=
  (((pc : Int) + bytes) % (ADDR_MOD : Int)).toNat

/-- Append a ghost event. -/
def log (cpu : cpu_t) (e : event) : cpu_t :=
  { cpu with trace := cpu.trace ++ [e] }

/-- `cpu_set_flags_debug`. -/
def cpu_set_flags_debug (cpu : cpu_t) (f : Nat) : cpu_t :=
  { cpu with flags_debug := f }

/-! ## Tagging -/

/-- `init_tagging`: allocate `code_end - code_start` bytes (an `addr_t`
subtraction) and clear them. -/
def init_tagging (cpu : cpu_t) : cpu_t :=
  let tagging_size := (cpu.code_end + ADDR_MOD - cpu.code_start) % ADDR_MOD
  { cpu with
    tagging_type := some (List.replicate tagging_size TYPE_UNKNOWN)
    trace := cpu.trace ++ [event.alloc tagging_size] }

/-- `get_tagging_type`: `cpu->tagging_type[a - cpu->code_start]`, for
`a >= code_start`, where the subtraction does not wrap. The one call site
that does not ensure `a >= code_start`, the condition of the lifting loop, is
modelled there. A cell of a short array reads as `0`. -/
def get_tagging_type (cpu : cpu_t) (a : Nat) : Nat :=
  match cpu.tagging_type with
  | none => 0
  | some arr => arr.getD (a - cpu.code_start) 0

/-- `or_tagging_type`: under the guard `a >= code_start && a <= code_end`,
`cpu->tagging_type[a - code_start] |= t`. A store outside the allocation
leaves the array as it is and shows in the trace only. -/
def or_tagging_type (cpu : cpu_t) (a : Nat) (t : Nat) : cpu_t :=
  if a ≥ cpu.code_start ∧ a ≤ cpu.code_end then
    { cpu with
      tagging_type := cpu.tagging_type.map fun arr =>
        arr.set (a - cpu.code_start) (arr.getD (a - cpu.code_start) 0 ||| t)
      trace := cpu.trace ++ [event.write (a - cpu.code_start) t] }
  else cpu

/-- The `for(;;)` loop of `tag_recursive`, entered at `pc`. A nested call
`tag_recursive(cpu, new_pc, level+1)` is the loop entered at `new_pc` after
the `TYPE_CODE_TARGET` mark on `new_pc`. -/
def tag_recursive_loop (f : arch_func_t) : Nat → cpu_t → Nat → Option cpu_t
  | 0, _, _ => none
  | fuel + 1, cpu, pc =>
    if pc < cpu.code_start ∨ pc ≥ cpu.code_end then some cpu
    else
      let cpu0 := log cpu (event.read (pc - cpu.code_start))
      if get_tagging_type cpu0 pc &&& TYPE_CODE ≠ 0 then some cpu0
      else
        let cpu1 := log (or_tagging_type cpu0 pc TYPE_CODE) (event.query pc)
        let r := f.tag_instr pc
        let next := addr_add pc r.bytes
        match r.flow_type with
        | flow_type_t.ERR => some cpu1
        | flow_type_t.RET => some cpu1
        | flow_type_t.JUMP =>
          tag_recursive_loop f fuel
            (or_tagging_type cpu1 r.new_pc TYPE_CODE_TARGET) r.new_pc
        | flow_type_t.CALL =>
          let cpu2 := or_tagging_type cpu1 next TYPE_AFTER_CALL
          if r.new_pc ≠ NEW_PC_NONE then
            match tag_recursive_loop f fuel
                (or_tagging_type cpu2 r.new_pc TYPE_CODE_TARGET) r.new_pc with
            | none => none
            | some cpu3 => tag_recursive_loop f fuel cpu3 next
          else tag_recursive_loop f fuel cpu2 next
        | flow_type_t.BRANCH =>
          match tag_recursive_loop f fuel
              (or_tagging_type cpu1 r.new_pc TYPE_CODE_TARGET) r.new_pc with
          | none => none
          | some cpu2 =>
            tag_recursive_loop f fuel
              (or_tagging_type cpu2 next TYPE_AFTER_BRANCH) next
        | flow_type_t.CONTINUE => tag_recursive_loop f fuel cpu1 next

/-- `tag_recursive`: mark `pc` as `TYPE_CODE_TARGET`, then run the loop. -/
def tag_recursive (f : arch_func_t) (fuel : Nat) (cpu : cpu_t) (pc : Nat) :
    Option cpu_t :=
  tag_recursive_loop f fuel (or_tagging_type cpu pc TYPE_CODE_TARGET) pc

/-- `cpu_tag`. -/
def cpu_tag (f : arch_func_t) (fuel : Nat) (cpu : cpu_t) (pc : Nat) :
    Option cpu_t :=
  if cpu.flags_debug &&& CPU_DEBUG_SINGLESTEP ≠ 0 then some cpu
  else
    let cpu1 := if cpu.tagging_type.isNone then init_tagging cpu else cpu
    tag_recursive f fuel (or_tagging_type cpu1 pc TYPE_ENTRY) pc

/-! ## Predicates used in the statements -/

/-- Bitwise inclusion of tag bytes. -/
def tag_le (x y : Nat) : Prop := ∀ i, x.testBit i = true → y.testBit i = true

/-- The test `x & m` of the source. -/
def has_tag (x m : Nat) : Prop := x &&& m ≠ 0

/-- The window `[code_start, code_end)`. -/
def inwin (cpu : cpu_t) (a : Nat) : Prop := cpu.code_start ≤ a ∧ a < cpu.code_end

/-- The tag array is allocated with one byte per address of the window. -/
def alloc_ok (cpu : cpu_t) : Prop :=
  ∃ arr, cpu.tagging_type = some arr ∧
    (cpu.code_start ≤ cpu.code_end → arr.length = cpu.code_end - cpu.code_start)

/-- Data-model invariant of a unit: the window `[code_start, code_end)` is a
range of `addr_t`, and a tag array that has been allocated has length
`code_end - code_start`. -/
def wf (cpu : cpu_t) : Prop :=
  cpu.code_start ≤ cpu.code_end ∧ cpu.code_end < ADDR_MOD ∧
    ∀ arr, cpu.tagging_type = some arr → arr.length = cpu.code_end - cpu.code_start

/-- The unit `c2` has the window, flags and allocation size of `c1`, and
every tag bit of `c1`. -/
structure ext (c1 c2 : cpu_t) : Prop where
  cs : c2.code_start = c1.code_start
  ce : c2.code_end = c1.code_end
  fl : c2.flags_debug = c1.flags_debug
  len : c2.tagging_type.map List.length = c1.tagging_type.map List.length
  le : ∀ a, tag_le (get_tagging_type c1 a) (get_tagging_type c2 a)

/-- The state in which the loop of `tag_recursive` queries the front-end at
`pc`: the tag of `pc` has been read and `TYPE_CODE` has been set on it. -/
def enter (c : cpu_t) (pc : Nat) : cpu_t :=
  log (or_tagging_type (log c (event.read (pc - c.code_start))) pc TYPE_CODE) (event.query pc)

/-- Big-step description of a completed run of the loop of `tag_recursive`:
`walk f c pc c2` holds when the loop entered at `pc` in state `c` returns in
state `c2`. -/
inductive walk (f : arch_func_t) : cpu_t → Nat → cpu_t → Prop
  | outside {c : cpu_t} {pc : Nat} : ¬ inwin c pc → walk f c pc c
  | seen {c : cpu_t} {pc : Nat} : inwin c pc →
      has_tag (get_tagging_type c pc) TYPE_CODE →
      walk f c pc (log c (event.read (pc - c.code_start)))
  | stop {c : cpu_t} {pc : Nat} : inwin c pc →
      ¬ has_tag (get_tagging_type c pc) TYPE_CODE →
      ((f.tag_instr pc).flow_type = flow_type_t.ERR ∨
        (f.tag_instr pc).flow_type = flow_type_t.RET) →
      walk f c pc (enter c pc)
  | jump {c c2 : cpu_t} {pc : Nat} : inwin c pc →
      ¬ has_tag (get_tagging_type c pc) TYPE_CODE →
      (f.tag_instr pc).flow_type = flow_type_t.JUMP →
      walk f (or_tagging_type (enter c pc) (f.tag_instr pc).new_pc TYPE_CODE_TARGET)
        (f.tag_instr pc).new_pc c2 →
      walk f c pc c2
  | call_direct {c c2 c3 : cpu_t} {pc : Nat} : inwin c pc →
      ¬ has_tag (get_tagging_type c pc) TYPE_CODE →
      (f.tag_instr pc).flow_type = flow_type_t.CALL →
      (f.tag_instr pc).new_pc ≠ NEW_PC_NONE →
      walk f (or_tagging_type
          (or_tagging_type (enter c pc) (addr_add pc (f.tag_instr pc).bytes) TYPE_AFTER_CALL)
          (f.tag_instr pc).new_pc TYPE_CODE_TARGET)
        (f.tag_instr pc).new_pc c2 →
      walk f c2 (addr_add pc (f.tag_instr pc).bytes) c3 →
      walk f c pc c3
  | call_indirect {c c2 : cpu_t} {pc : Nat} : inwin c pc →
      ¬ has_tag (get_tagging_type c pc) TYPE_CODE →
      (f.tag_instr pc).flow_type = flow_type_t.CALL →
      (f.tag_instr pc).new_pc = NEW_PC_NONE →
      walk f (or_tagging_type (enter c pc) (addr_add pc (f.tag_instr pc).bytes) TYPE_AFTER_CALL)
        (addr_add pc (f.tag_instr pc).bytes) c2 →
      walk f c pc c2
  | branch {c c2 c3 : cpu_t} {pc : Nat} : inwin c pc →
      ¬ has_tag (get_tagging_type c pc) TYPE_CODE →
      (f.tag_instr pc).flow_type = flow_type_t.BRANCH →
      walk f (or_tagging_type (enter c pc) (f.tag_instr pc).new_pc TYPE_CODE_TARGET)
        (f.tag_instr pc).new_pc c2 →
      walk f (or_tagging_type c2 (addr_add pc (f.tag_instr pc).bytes) TYPE_AFTER_BRANCH)
        (addr_add pc (f.tag_instr pc).bytes) c3 →
      walk f c pc c3
  | fallthrough {c c2 : cpu_t} {pc : Nat} : inwin c pc →
      ¬ has_tag (get_tagging_type c pc) TYPE_CODE →
      (f.tag_instr pc).flow_type = flow_type_t.CONTINUE →
      walk f (enter c pc) (addr_add pc (f.tag_instr pc).bytes) c2 →
      walk f c pc c2

/-- The address `b`, if it lies in the window, carries the mark `t` and
`TYPE_CODE`. -/
def marked (c : cpu_t) (b t : Nat) : Prop :=
  inwin c b → has_tag (get_tagging_type c b) t ∧ has_tag (get_tagging_type c b) TYPE_CODE

/-- What the tagger owes to an explored instruction at `a`: the marks and the
exploration of its static successors. -/
def node_ok (f : arch_func_t) (c : cpu_t) (a : Nat) : Prop :=
  match (f.tag_instr a).flow_type with
  | flow_type_t.ERR => True
  | flow_type_t.RET => True
  | flow_type_t.JUMP => marked c (f.tag_instr a).new_pc TYPE_CODE_TARGET
  | flow_type_t.CALL =>
    marked c (addr_add a (f.tag_instr a).bytes) TYPE_AFTER_CALL ∧
      ((f.tag_instr a).new_pc ≠ NEW_PC_NONE → marked c (f.tag_instr a).new_pc TYPE_CODE_TARGET)
  | flow_type_t.BRANCH =>
    marked c (addr_add a (f.tag_instr a).bytes) TYPE_AFTER_BRANCH ∧
      marked c (f.tag_instr a).new_pc TYPE_CODE_TARGET
  | flow_type_t.CONTINUE => marked c (addr_add a (f.tag_instr a).bytes) TYPE_CODE

/-- Every explored instruction outside the pending set `W` has been served. -/
def served (f : arch_func_t) (W : Nat → Prop) (c : cpu_t) : Prop :=
  ∀ a, inwin c a → has_tag (get_tagging_type c a) TYPE_CODE → ¬ W a → node_ok f c a

/-- The mask `TYPE_CODE_TARGET|TYPE_ENTRY|TYPE_AFTER_CALL|TYPE_AFTER_BRANCH`
that `cpu_recompile` tests to decide whether an address needs a label. -/
def LABEL_MASK : Nat :=
  TYPE_CODE_TARGET ||| TYPE_ENTRY ||| TYPE_AFTER_CALL ||| TYPE_AFTER_BRANCH

/-- Every label-tagged address of the window outside the pending set `W`
carries `TYPE_CODE`. -/
def labels_coded (W : Nat → Prop) (c : cpu_t) : Prop :=
  ∀ a, inwin c a → has_tag (get_tagging_type c a) LABEL_MASK → ¬ W a →
    has_tag (get_tagging_type c a) TYPE_CODE

/-- States a host can reach from a fresh unit (no tag array yet) by calls of
`cpu_tag` and `cpu_set_flags_debug`. -/
inductive tagged (f : arch_func_t) : cpu_t → Prop
  | fresh (cs ce fl : Nat) : cs ≤ ce → ce < ADDR_MOD → tagged f ⟨cs, ce, fl, none, []⟩
  | tag (c c2 : cpu_t) (fuel pc : Nat) : tagged f c → cpu_tag f fuel c pc = some c2 →
      tagged f c2
  | set_flags {c : cpu_t} (fl : Nat) : tagged f c → tagged f (cpu_set_flags_debug c fl)

/-- Number of cells of the tag array without `TYPE_CODE`. -/
def uncoded (c : cpu_t) : Nat :=
  match c.tagging_type with
  | none => 0
  | some arr => arr.countP fun t => t &&& TYPE_CODE == 0

/-- The unit after the on-demand allocation at the start of `cpu_tag`. -/
def base (c : cpu_t) : cpu_t :=
  if c.tagging_type.isNone then init_tagging c else c

/-! ## Recompiler: labels, dispatch and block lifting -/

/-- `LABEL_PREFIX`. -/
def LABEL_PREFIX : Char := 'L'

/-- `LONG_MAX` of a 64-bit `long`, the value `strtol` returns on overflow. -/
def LONG_MAX : Nat := 2 ^ 63 - 1

/-- One lower-case hexadecimal digit, as `%x` prints it. -/
def hex_digit (d : Nat) : Char :=
  if d < 10 then Char.ofNat (48 + d) else Char.ofNat (87 + d)

/-- The hexadecimal digits of `n`, most significant first, without leading
zeros; `k` bounds the number of digits. -/
def hex_digits : Nat → Nat → List Char
  | 0, _ => []
  | k + 1, n =>
    if n < 16 then [hex_digit n] else hex_digits k (n / 16) ++ [hex_digit (n % 16)]

/-- The conversion `%08llx` of an `unsigned long long`: at most 16 digits,
padded with zeros to a width of 8. -/
def format_08llx (n : Nat) : List Char :=
  let ds := hex_digits 16 (n % ADDR_MOD)
  List.replicate (8 - ds.length) '0' ++ ds

/-- The name `create_basicblock` gives the block of `addr`:
`snprintf(label, sizeof(label), "%c%08llx", LABEL_PREFIX, addr)` into
`char label[17]`, which keeps at most 16 characters. -/
def create_label (addr : Nat) : List Char :=
  (LABEL_PREFIX :: format_08llx addr).take 16

/-- Value of a hexadecimal digit, if the character is one. -/
def hex_value (ch : Char) : Option Nat :=
  if 48 ≤ ch.toNat ∧ ch.toNat ≤ 57 then some (ch.toNat - 48)
  else if 97 ≤ ch.toNat ∧ ch.toNat ≤ 102 then some (ch.toNat - 87)
  else if 65 ≤ ch.toNat ∧ ch.toNat ≤ 70 then some (ch.toNat - 55)
  else none

/-- Accumulate the longest prefix of hexadecimal digits. -/
def strtol16_digits : List Char → Nat → Nat
  | [], acc => acc
  | ch :: rest, acc =>
    match hex_value ch with
    | none => acc
    | some d => strtol16_digits rest (acc * 16 + d)

/-- `strtol(s, NULL, 16)` on a string that starts with hexadecimal digits (no
blanks, sign or `0x`, which no label has), converted to `addr_t`: the value of
the longest prefix of digits, or `LONG_MAX` when it does not fit a `long`. -/
def strtol16 (s : List Char) : Nat :=
  min (strtol16_digits s 0) LONG_MAX

/-- The part of `func_jitmain` that `cpu_recompile` builds: the names of the
basic blocks in list order, the dispatch switch, the guest addresses lifted
into each block and the fallthrough branches. `lookups` is a ghost record of
the addresses passed to `lookup_basicblock`. A block is identified by its
name; `BasicBlock::Create` appends to the block list. -/
structure jit_t where
  blocks : List (List Char)
  switch_default : Option (List Char)
  cases : List (Nat × List Char)
  lifted : List (List Char × List Nat)
  links : List (List Char × List Char)
  lookups : List Nat
  deriving DecidableEq, Repr

/-- The function as `cpu_recompile_function` hands it to `cpu_recompile`:
the blocks `entry` and `ret` exist. -/
def jit_shell : jit_t :=
  { blocks := ["entry".toList, "ret".toList]
    switch_default := none
    cases := []
    lifted := []
    links := []
    lookups := [] }

/-- `lookup_basicblock`: the first block whose name starts with `LABEL_PREFIX`
and whose remaining characters parse to `pc`; `none` is the `NULL` result. -/
def lookup_basicblock : List (List Char) → Nat → Option (List Char)
  | [], _ => none
  | name :: rest, pc =>
    if name.head? = some LABEL_PREFIX ∧ pc = strtol16 name.tail then some name
    else lookup_basicblock rest pc

/-- How a run of `cpu_recompile` ends: normally, in one of its two
`exit(1)` paths, by a read outside the tag array, or with the fuel of the
lifting loop exhausted. Each carries what had been built. -/
inductive recompile_result
  | done (jit : jit_t)
  | unknown_rts_target (pc : Nat) (jit : jit_t)
  | unknown_continue (pc : Nat) (jit : jit_t)
  | fault (jit : jit_t)
  | out_of_fuel (jit : jit_t)
  deriving DecidableEq, Repr

/-- The function state carried by a result. -/
def recompile_result.jit : recompile_result → jit_t
  | recompile_result.done jit => jit
  | recompile_result.unknown_rts_target _ jit => jit
  | recompile_result.unknown_continue _ jit => jit
  | recompile_result.fault jit => jit
  | recompile_result.out_of_fuel jit => jit

/-- First loop of `cpu_recompile`: a block for every address of the window
that has one of the label tags. -/
def create_blocks (cpu : cpu_t) : List Nat → jit_t → jit_t
  | [], jit => jit
  | pc :: rest, jit =>
    if get_tagging_type cpu pc &&& LABEL_MASK ≠ 0 then
      create_blocks cpu rest { jit with blocks := jit.blocks ++ [create_label pc] }
    else create_blocks cpu rest jit

/-- Second loop of `cpu_recompile`: a switch case for every address of the
window tagged `TYPE_ENTRY` or `TYPE_AFTER_CALL`. -/
def add_cases (cpu : cpu_t) : List Nat → jit_t → recompile_result
  | [], jit => recompile_result.done jit
  | pc :: rest, jit =>
    if get_tagging_type cpu pc &&& (TYPE_ENTRY ||| TYPE_AFTER_CALL) ≠ 0 then
      let jit1 := { jit with lookups := jit.lookups ++ [pc] }
      match lookup_basicblock jit1.blocks pc with
      | none => recompile_result.unknown_rts_target pc jit1
      | some target => add_cases cpu rest { jit1 with cases := jit1.cases ++ [(pc, target)] }
    else add_cases cpu rest jit

/-- Outcome of the `do ... while` loop that lifts one block. -/
inductive lift_result
  | ok (pcs : List Nat) (last_pc pc : Nat)
  | fault
  | out_of_fuel
  deriving DecidableEq, Repr

/-- The `do ... while` loop of `cpu_recompile`: lift the instruction at `pc`,
advance, and go on while the next address is below `code_end`, is `TYPE_CODE`
and has no label tag. The loop condition reads the tag of `pc` without
checking `pc >= code_start`; below `code_start` the index wraps and the read
is a fault. -/
def lift_loop (f : arch_func_t) (cpu : cpu_t) : Nat → Nat → List Nat → lift_result
  | 0, _, _ => lift_result.out_of_fuel
  | fuel + 1, pc, pcs =>
    let bytes := f.recompile_instr pc
    let last_pc := pc
    let pc2 := addr_add pc bytes
    if pc2 < cpu.code_end then
      if pc2 < cpu.code_start then lift_result.fault
      else if get_tagging_type cpu pc2 &&& TYPE_CODE ≠ 0 ∧
          ¬ (get_tagging_type cpu pc2 &&& LABEL_MASK ≠ 0) then
        lift_loop f cpu fuel pc2 (pcs ++ [pc])
      else lift_result.ok (pcs ++ [pc]) last_pc pc2
    else lift_result.ok (pcs ++ [pc]) last_pc pc2

/-- Third loop of `cpu_recompile`: lift every block whose name starts with
`LABEL_PREFIX`, and link it to the block of the next pc when its last
instruction has flow `CONTINUE`. The front-end is taken not to add blocks to
the function while it lifts. -/
def lift_blocks (f : arch_func_t) (cpu : cpu_t) (fuel : Nat) :
    List (List Char) → jit_t → recompile_result
  | [], jit => recompile_result.done jit
  | name :: rest, jit =>
    if name.head? ≠ some LABEL_PREFIX then lift_blocks f cpu fuel rest jit
    else
      match lift_loop f cpu fuel (strtol16 name.tail) [] with
      | lift_result.out_of_fuel => recompile_result.out_of_fuel jit
      | lift_result.fault => recompile_result.fault jit
      | lift_result.ok pcs last_pc pc =>
        let jit1 := { jit with lifted := jit.lifted ++ [(name, pcs)] }
        if (f.tag_instr last_pc).flow_type = flow_type_t.CONTINUE then
          let jit2 := { jit1 with lookups := jit1.lookups ++ [pc] }
          match lookup_basicblock jit2.blocks pc with
          | none => recompile_result.unknown_continue pc jit2
          | some target =>
            lift_blocks f cpu fuel rest { jit2 with links := jit2.links ++ [(name, target)] }
        else lift_blocks f cpu fuel rest jit1

/-- `cpu_recompile(cpu, bb_ret)` on the function state `jit`. With a `NULL`
tag array the first read of a non-empty window is a fault. -/
def cpu_recompile (f : arch_func_t) (fuel : Nat) (cpu : cpu_t) (bb_ret : List Char)
    (jit : jit_t) : recompile_result :=
  let window := List.range' cpu.code_start (cpu.code_end - cpu.code_start)
  if cpu.tagging_type.isNone ∧ cpu.code_start < cpu.code_end then recompile_result.fault jit
  else
    let jit1 := create_blocks cpu window jit
    let jit2 := { jit1 with
      blocks := jit1.blocks ++ ["dispatch".toList]
      switch_default := some bb_ret }
    match add_cases cpu window jit2 with
    | recompile_result.done jit3 => lift_blocks f cpu fuel jit3.blocks jit3
    | r => r

/-- Every `L`-named block is the block of an address below `2 ^ 60`. -/
def labels_below (blocks : List (List Char)) : Prop :=
  ∀ name ∈ blocks, name.head? = some LABEL_PREFIX → ∃ a, a < 2 ^ 60 ∧ name = create_label a

/-- Every `L`-named block is the block of a label-tagged address of the
window. -/
def blocks_sound (c : cpu_t) (blocks : List (List Char)) : Prop :=
  ∀ name ∈ blocks, name.head? = some LABEL_PREFIX →
    ∃ a, inwin c a ∧ has_tag (get_tagging_type c a) LABEL_MASK ∧ name = create_label a

/-- Every label-tagged address of the window has its block. -/
def blocks_complete (c : cpu_t) (blocks : List (List Char)) : Prop :=
  ∀ a, inwin c a → has_tag (get_tagging_type c a) LABEL_MASK → create_label a ∈ blocks

/-- What the amended label-completeness claim says of a result `r`: an address
passed to `lookup_basicblock` is a label-tagged address of the window, or it
lies outside the window and is the one on which the run ends with
"unknown continue". -/
def lookups_accounted (c : cpu_t) (r : recompile_result) : Prop :=
  ∀ a ∈ r.jit.lookups,
    (inwin c a ∧ has_tag (get_tagging_type c a) LABEL_MASK) ∨
    (¬ inwin c a ∧ ∃ jit, r = recompile_result.unknown_continue a jit)

/-! ## Register-file builder: storage width and register sets -/

/-- Modulus of `size_t` arithmetic (64-bit). -/
def SIZE_MOD : Nat := 2 ^ 64

/-- The storage widths the spec allows: 8, 16, 32, 64, and the multiples of 64
above 64. -/
def storage_width (w : Nat) : Prop :=
  w = 8 ∨ w = 16 ∨ w = 32 ∨ w = 64 ∨ (64 < w ∧ w % 64 = 0)

/-- The fields of `register_info` that the builder uses. `type` is the `type`
pointer (`none` is null) with the string `type->get_value()`. A pointer to
another `register_info` (`binding`, the members of `subs`) is the address of
that object, and `hwexpr`, `bind_copy` and `special_eval` are pointers that
the builder only tests or hands on; `none` is null. A register without
sub-structure has the defaults. -/
structure register_info where
  name : List Char
  type : Option (List Char)
  hwexpr : Option Nat := none
  flags : Nat := 0
  bind_copy : Option Nat := none
  binding : Option Nat := none
  subs : List Nat := []
  bit_start : Nat := 0
  special_eval : Option Nat := none
  deriving DecidableEq, Repr

/-- The struct `regset`. -/
structure regset where
  name : List Char
  type : List Char
  regs : List register_info
  deriving DecidableEq, Repr

/-- `isdigit`. -/
def isdigit (ch : Char) : Bool := 48 ≤ ch.toNat && ch.toNat ≤ 57

/-- The loop `while (isdigit(x[--n]));` of `drop_digits`, entered with `n`:
the value of `n` when it stops. When `n` is 0 the decrement wraps and
`x[n]` is read outside the string: `none`. -/
def drop_digits_scan (x : List Char) : Nat → Option Nat
  | 0 => none
  | n + 1 => if isdigit (x.getD n 'a') then drop_digits_scan x n else some n

/-- `drop_digits`. -/
def drop_digits (x : List Char) : Option (List Char) :=
  if x.length = 0 then some []
  else (drop_digits_scan x x.length).map fun n => x.take (n + 1)

/-- Value of the longest prefix of decimal digits. -/
def atol_digits : List Char → Nat → Nat
  | [], acc => acc
  | ch :: rest, acc =>
    if isdigit ch then atol_digits rest (acc * 10 + (ch.toNat - 48)) else acc

/-- `atol` on a string of decimal digits, with the `strtol` behaviour on
overflow: `LONG_MAX`. -/
def atol (s : List Char) : Nat := min (atol_digits s 0) LONG_MAX

/-- The decimal digits of `n`, most significant first; `k` bounds their
number. -/
def dec_digits : Nat → Nat → List Char
  | 0, _ => []
  | k + 1, n =>
    if n < 10 then [Char.ofNat (48 + n)]
    else dec_digits k (n / 10) ++ [Char.ofNat (48 + n % 10)]

/-- The text `ss << index` writes for a `long`. -/
def print_long (index : Int) : List Char :=
  if index < 0 then '-' :: dec_digits 20 index.natAbs else dec_digits 20 index.natAbs

/-- The `long` that holds `v` after wrap-around. -/
def wrap_long (v : Int) : Int := (v + 2 ^ 63) % 2 ^ 64 - 2 ^ 63

/-- `inc_name`. -/
def inc_name (name : List Char) : Option (List Char) :=
  match drop_digits name with
  | none => none
  | some base_name =>
    let index : Int :=
      if base_name.length < name.length then
        wrap_long ((atol (name.drop base_name.length) : Int) + 1)
      else 1
    some (name ++ print_long index)

/-- `is_pseudo_reg`. On an empty name `name[length - 1]` is read outside the
string: `none`. -/
def is_pseudo_reg (reg : register_info) : Option Bool :=
  match reg.name.getLast? with
  | none => none
  | some last_char =>
    some (reg.name.head? = some '%' || reg.name.head? = some '$' || last_char = '?')

/-- The locals of `make_regsets` and its output vector. -/
structure regsets_state where
  regset_id : List (List Char)
  last : List Char
  last_type : List Char
  regs_in_set : List register_info
  regsets : List regset
  deriving DecidableEq, Repr

/-- The loop `while (regset_id.find(last) != regset_id.end()) last =
inc_name(last);`. -/
def unique_name (regset_id : List (List Char)) : Nat → List Char → Option (List Char)
  | 0, _ => none
  | fuel + 1, last =>
    if last ∈ regset_id then
      match inc_name last with
      | none => none
      | some next => unique_name regset_id fuel next
    else some last

/-- The block that closes the current set: rename, push, record the name. -/
def push_regset (fuel : Nat) (st : regsets_state) : Option regsets_state :=
  match unique_name st.regset_id fuel st.last with
  | none => none
  | some last =>
    some { st with
      last := last
      regsets := st.regsets ++ [⟨last, st.last_type, st.regs_in_set⟩]
      regset_id := last :: st.regset_id }

/-- The `for` loop of `make_regsets`. The type of a register is dereferenced
in the third operand of `||` only; a null type there is `none`. -/
def make_regsets_loop (fuel : Nat) : List register_info → regsets_state → Option regsets_state
  | [], st => some st
  | r :: rest, st =>
    match is_pseudo_reg r with
    | none => none
    | some true => make_regsets_loop fuel rest st
    | some false =>
      match drop_digits r.name with
      | none => none
      | some x =>
        let start (st1 : regsets_state) : Option regsets_state :=
          make_regsets_loop fuel rest
            { st1 with last := x, last_type := r.type.getD [], regs_in_set := [r] }
        let fresh_set : Option regsets_state :=
          if st.last ≠ [] then
            match push_regset fuel st with
            | none => none
            | some st1 => start st1
          else start st
        if st.last = [] ∨ x ≠ st.last then fresh_set
        else
          match r.type with
          | none => none
          | some t =>
            if t ≠ st.last_type then fresh_set
            else make_regsets_loop fuel rest { st with regs_in_set := st.regs_in_set ++ [r] }

/-- `make_regsets` on an empty output vector; `fuel` bounds each renaming
loop. -/
def make_regsets (fuel : Nat) (regs : List register_info) : Option (List regset) :=
  match make_regsets_loop fuel regs ⟨[], [], [], [], []⟩ with
  | none => none
  | some st =>
    if st.regs_in_set ≠ [] then (push_regset fuel st).map (·.regsets)
    else some st.regsets

/-- A register with a name and a declared type. -/
def mk_reg (name type : String) : register_info :=
  { name := name.toList, type := some type.toList }

/-- The name has a character that is not a decimal digit. -/
def has_nondigit (x : List Char) : Prop := ∃ ch ∈ x, isdigit ch = false

instance (x : List Char) : Decidable (has_nondigit x) := by
  unfold has_nondigit; infer_instance

/-- What `make_regsets` relies on for a register: its name is not made of
digits only, and if it is not a pseudo register it has a type. -/
def reg_ok (r : register_info) : Prop :=
  has_nondigit r.name ∧ (is_pseudo_reg r = some false → r.type ≠ none)

instance (r : register_info) : Decidable (reg_ok r) := by
  unfold reg_ok; infer_instance

/-- The grouping key of a register: its stripped-digit prefix and its declared
type. -/
def regset_key (r : register_info) : Option (List Char) × Option (List Char) :=
  (drop_digits r.name, r.type)

/-- The registers that `make_regsets` does not ignore. -/
def non_pseudo (regs : List register_info) : List register_info :=
  regs.filter fun r => is_pseudo_reg r = some false

/-- Spec of the grouping: `gs` cuts `l` into consecutive runs, each non-empty
and of one key, and no member of a run has the key of a member of the next
run. -/
def is_runs {α κ : Type} (key : α → κ) (l : List α) (gs : List (List α)) : Prop :=
  gs.flatten = l ∧
  (∀ g ∈ gs, g ≠ [] ∧ ∀ a ∈ g, ∀ b ∈ g, key a = key b) ∧
  gs.Chain' (fun g1 g2 => ∀ a ∈ g1, ∀ b ∈ g2, key a ≠ key b)

/-- Left-to-right grouping with an open run `cur` of key `k`. -/
def group_from {α κ : Type} [DecidableEq κ] (key : α → κ) : List α → κ → List α → List (List α)
  | cur, _, [] => [cur]
  | cur, k, a :: rest =>
    if key a = k then group_from key (cur ++ [a]) k rest
    else cur :: group_from key [a] (key a) rest

/-- A set is open in the state: `last` and `last_type` are the key of every
register collected so far. -/
def open_run (st : regsets_state) : Prop :=
  has_nondigit st.last ∧ st.regs_in_set ≠ [] ∧
    ∀ r ∈ st.regs_in_set, drop_digits r.name = some st.last ∧ r.type = some st.last_type

/-- Every closed set carries the declared type of its members. -/
def sets_typed (sets : List regset) : Prop :=
  ∀ s ∈ sets, ∀ r ∈ s.regs, r.type = some s.type

/-- The address `b` is a static successor of the instruction at `a`:
`pc+len` for `CONTINUE`, the target and `pc+len` for `BRANCH`, the target for
`JUMP`, the static target (when there is one) and `pc+len` for `CALL`. -/
def static_succ (f : arch_func_t) (a b : Nat) : Prop :=
  match (f.tag_instr a).flow_type with
  | flow_type_t.ERR => False
  | flow_type_t.RET => False
  | flow_type_t.JUMP => b = (f.tag_instr a).new_pc
  | flow_type_t.CALL =>
    (b = (f.tag_instr a).new_pc ∧ (f.tag_instr a).new_pc ≠ NEW_PC_NONE) ∨
      b = addr_add a (f.tag_instr a).bytes
  | flow_type_t.BRANCH =>
    b = (f.tag_instr a).new_pc ∨ b = addr_add a (f.tag_instr a).bytes
  | flow_type_t.CONTINUE => b = addr_add a (f.tag_instr a).bytes

/-- Addresses reachable from `entry` by static successors along a path that
stays inside the window. -/
inductive reach (f : arch_func_t) (c : cpu_t) (entry : Nat) : Nat → Prop
  | base : inwin c entry → reach f c entry entry
  | step {a b : Nat} : reach f c entry a → static_succ f a b → inwin c b →
      reach f c entry b

instance (c : cpu_t) (a : Nat) : Decidable (inwin c a) := by
  unfold inwin; infer_instance

instance (x m : Nat) : Decidable (has_tag x m) := by
  unfold has_tag; infer_instance

instance (f : arch_func_t) (a b : Nat) : Decidable (static_succ f a b) := by
  unfold static_succ; split <;> infer_instance

/-! ## Sample front-ends and units -/

/-- A front-end whose every instruction is a one-byte `RET`. -/
def arch_ret : arch_func_t :=
  { tag_instr := fun _ => ⟨1, flow_type_t.RET, 0⟩
    recompile_instr := fun _ => 1 }

/-- A front-end for `LDA #$01; STA $0200; BRK` at address 0: lengths 2 and 3
with flow `CONTINUE`, then a one-byte `RET` everywhere else. -/
def arch_linear : arch_func_t :=
  { tag_instr := fun pc =>
      if pc = 0 then ⟨2, flow_type_t.CONTINUE, 0⟩
      else if pc = 2 then ⟨3, flow_type_t.CONTINUE, 0⟩
      else ⟨1, flow_type_t.RET, 0⟩
    recompile_instr := fun pc => if pc = 0 then 2 else if pc = 2 then 3 else 1 }

/-- A front-end for `BEQ +2; NOP; NOP; RTS` at address 0: a two-byte `BRANCH`
to 4 at 0, one-byte `CONTINUE` at 2 and 3, `RET` elsewhere. -/
def arch_branch : arch_func_t :=
  { tag_instr := fun pc =>
      if pc = 0 then ⟨2, flow_type_t.BRANCH, 4⟩
      else if pc = 2 ∨ pc = 3 then ⟨1, flow_type_t.CONTINUE, 0⟩
      else ⟨1, flow_type_t.RET, 0⟩
    recompile_instr := fun pc => if pc = 0 then 2 else 1 }

/-- A front-end whose every instruction is a two-byte `CONTINUE`. -/
def arch_cont : arch_func_t :=
  { tag_instr := fun _ => ⟨2, flow_type_t.CONTINUE, 0⟩
    recompile_instr := fun _ => 2 }

/-- A front-end with a one-byte `JUMP` from 0 to 10 and a one-byte `JUMP` from
10 to 2; a one-byte `RET` elsewhere. -/
def arch_detour : arch_func_t :=
  { tag_instr := fun pc =>
      if pc = 0 then ⟨1, flow_type_t.JUMP, 10⟩
      else if pc = 10 then ⟨1, flow_type_t.JUMP, 2⟩
      else ⟨1, flow_type_t.RET, 0⟩
    recompile_instr := fun _ => 1 }

/-- A fresh unit with window `[cs, ce)` in whole-region mode. -/
def fresh_unit (cs ce : Nat) : cpu_t := ⟨cs, ce, 0, none, []⟩

/-- The unit `fresh_unit 0 6` after `cpu_tag(unit, 0)` under `arch_linear`. -/
def unit_linear : cpu_t :=
  ⟨0, 6, 0, some [19, 0, 1, 0, 0, 1],
    [event.alloc 6, event.write 0 16, event.write 0 2, event.read 0, event.write 0 1,
      event.query 0, event.read 2, event.write 2 1, event.query 2, event.read 5,
      event.write 5 1, event.query 5]⟩

/-- The unit `fresh_unit 0 2` after `cpu_tag(unit, 0)` under `arch_ret`. -/
def unit_ret : cpu_t :=
  ⟨0, 2, 0, some [19, 0],
    [event.alloc 2, event.write 0 16, event.write 0 2, event.read 0, event.write 0 1,
      event.query 0]⟩

/-- The unit `fresh_unit 0 5` after `cpu_tag(unit, 0)` under `arch_branch`. -/
def unit_branch : cpu_t :=
  ⟨0, 5, 0, some [19, 0, 9, 1, 3],
    [event.alloc 5, event.write 0 16, event.write 0 2, event.read 0, event.write 0 1,
      event.query 0, event.write 4 2, event.read 4, event.write 4 1, event.query 4,
      event.write 2 8, event.read 2, event.write 2 1, event.query 2, event.read 3,
      event.write 3 1, event.query 3, event.read 4]⟩

/-- The unit `fresh_unit 0 4` after `cpu_tag(unit, 0)` under `arch_cont`. -/
def unit_cont : cpu_t :=
  ⟨0, 4, 0, some [19, 0, 1, 0],
    [event.alloc 4, event.write 0 16, event.write 0 2, event.read 0, event.write 0 1,
      event.query 0, event.read 2, event.write 2 1, event.query 2]⟩

/-- The unit with the one-byte window at `2 ^ 60` after `cpu_tag(unit, 2 ^ 60)`
under `arch_ret`. -/
def unit_high : cpu_t :=
  ⟨2 ^ 60, 2 ^ 60 + 1, 0, some [19],
    [event.alloc 1, event.write 0 16, event.write 0 2, event.read 0, event.write 0 1,
      event.query (2 ^ 60)]⟩

/-- The address `b` is the static target of the instruction at `a`: the
`new_pc` of a `JUMP`, `CALL` or `BRANCH`, and not the sentinel. -/
def direct_target (f : arch_func_t) (a b : Nat) : Prop :=
  (f.tag_instr a).new_pc = b ∧ b ≠ NEW_PC_NONE ∧
    ((f.tag_instr a).flow_type = flow_type_t.JUMP ∨
      (f.tag_instr a).flow_type = flow_type_t.CALL ∨
      (f.tag_instr a).flow_type = flow_type_t.BRANCH)

/-- The address `b` is `pc+len` of the instruction at `a`, whose flow goes on
there: `CONTINUE`, `CALL` or `BRANCH`. -/
def falls_to (f : arch_func_t) (a b : Nat) : Prop :=
  addr_add a (f.tag_instr a).bytes = b ∧
    ((f.tag_instr a).flow_type = flow_type_t.CONTINUE ∨
      (f.tag_instr a).flow_type = flow_type_t.CALL ∨
      (f.tag_instr a).flow_type = flow_type_t.BRANCH)

/-- Every `TYPE_CODE_TARGET` mark of the window is on an entry or on the
static target of an explored instruction. -/
def targets_explained (f : arch_func_t) (c : cpu_t) : Prop :=
  ∀ b, inwin c b → has_tag (get_tagging_type c b) TYPE_CODE_TARGET →
    has_tag (get_tagging_type c b) TYPE_ENTRY ∨
    ∃ a, inwin c a ∧ has_tag (get_tagging_type c a) TYPE_CODE ∧ direct_target f a b

/-- Every `TYPE_CODE` mark of the window is on a `TYPE_CODE_TARGET` address or
on the `pc+len` of an explored instruction. -/
def code_explained (f : arch_func_t) (c : cpu_t) : Prop :=
  ∀ b, inwin c b → has_tag (get_tagging_type c b) TYPE_CODE →
    has_tag (get_tagging_type c b) TYPE_CODE_TARGET ∨
    ∃ a, inwin c a ∧ has_tag (get_tagging_type c a) TYPE_CODE ∧ falls_to f a b

/-- The state in which the loop is entered at `pc` accounts for `pc`: it is a
marked target or the `pc+len` of an explored instruction. -/
def entry_explained (f : arch_func_t) (c : cpu_t) (pc : Nat) : Prop :=
  inwin c pc → has_tag (get_tagging_type c pc) TYPE_CODE_TARGET ∨
    ∃ a, inwin c a ∧ has_tag (get_tagging_type c a) TYPE_CODE ∧ falls_to f a pc

/-- A front-end for `JSR sub; BRK; sub: RTS` at address 0: a three-byte
`CALL` to 4 at 0, a one-byte `RET` elsewhere. -/
def arch_call : arch_func_t :=
  { tag_instr := fun pc =>
      if pc = 0 then ⟨3, flow_type_t.CALL, 4⟩ else ⟨1, flow_type_t.RET, 0⟩
    recompile_instr := fun pc => if pc = 0 then 3 else 1 }

/-- A front-end with a one-byte indirect `JUMP` at 0 and a two-byte indirect
`CALL` at 1; a one-byte `RET` elsewhere. -/
def arch_indirect : arch_func_t :=
  { tag_instr := fun pc =>
      if pc = 0 then ⟨1, flow_type_t.JUMP, NEW_PC_NONE⟩
      else if pc = 1 then ⟨2, flow_type_t.CALL, NEW_PC_NONE⟩
      else ⟨1, flow_type_t.RET, 0⟩
    recompile_instr := fun pc => if pc = 1 then 2 else 1 }

/-- The unit `fresh_unit 0 5` after `cpu_tag(unit, 0)` under `arch_call`. -/
def unit_call : cpu_t :=
  ⟨0, 5, 0, some [19, 0, 0, 5, 3],
    [event.alloc 5, event.write 0 16, event.write 0 2, event.read 0, event.write 0 1,
      event.query 0, event.write 3 4, event.write 4 2, event.read 4, event.write 4 1,
      event.query 4, event.read 3, event.write 3 1, event.query 3]⟩

/-- The instructions met from `pc` in the window `[cs, ce)` are `CONTINUE`
instructions followed by one `RET` or `ERR` instruction, all inside the
window; `path` lists their addresses in order. -/
def straight_line (f : arch_func_t) (cs ce : Nat) : Nat → List Nat → Prop
  | _, [] => False
  | pc, a :: rest =>
    a = pc ∧ cs ≤ pc ∧ pc < ce ∧
      ((rest = [] ∧ ((f.tag_instr pc).flow_type = flow_type_t.RET ∨
          (f.tag_instr pc).flow_type = flow_type_t.ERR)) ∨
        ((f.tag_instr pc).flow_type = flow_type_t.CONTINUE ∧
          straight_line f cs ce (addr_add pc (f.tag_instr pc).bytes) rest))

instance straight_line_decidable (f : arch_func_t) (cs ce : Nat) :
    ∀ (path : List Nat) (pc : Nat), Decidable (straight_line f cs ce pc path)
  | [], _ => isFalse (fun h => h)
  | a :: rest, pc => by
    unfold straight_line
    have := straight_line_decidable f cs ce rest (addr_add pc (f.tag_instr pc).bytes)
    infer_instance

/-! ## Optimizer pipeline -/

/-- Modelled from the spec: the passes that `optimize` hands to the pass
manager, named after the `create...Pass` factories of the absent LLVM
headers it calls. -/
inductive pass_t
  | TargetData
  | GlobalDCE
  | RaiseAllocations
  | CFGSimplification
  | PromoteMemoryToRegister
  | GlobalOptimizer
  | IPConstantPropagation
  | DeadArgElimination
  | InstructionCombining
  | PruneEH
  | FunctionInlining
  | ArgumentPromotion
  | TailDuplication
  | ScalarReplAggregates
  | CondPropagation
  | TailCallElimination
  | Reassociate
  | LoopRotate
  | LICM
  | LoopUnswitch
  | IndVarSimplify
  | LoopUnroll
  | GVN
  | SCCP
  | DeadStoreElimination
  | AggressiveDCE
  | SimplifyLibCalls
  | DeadTypeElimination
  | ConstantMerge
  deriving DecidableEq, Repr

/-- One statement `if (flags & (1ULL<<k)) pm.add(p);` of `optimize`. -/
def add_if (flags k : Nat) (p : pass_t) (pm : List pass_t) : List pass_t :=
  if flags &&& (1 <<< k) ≠ 0 then pm ++ [p] else pm

/-- `optimize`: the passes added to the pass manager for the flag word
`cpu->flags_optimize`, in the order of the `pm.add` calls. -/
def optimize (flags : Nat) : List pass_t :=
  let pm := [pass_t.TargetData]
  let pm := add_if flags 0 pass_t.GlobalDCE pm
  let pm := add_if flags 1 pass_t.RaiseAllocations pm
  let pm := add_if flags 2 pass_t.CFGSimplification pm
  let pm := add_if flags 3 pass_t.PromoteMemoryToRegister pm
  let pm := add_if flags 4 pass_t.GlobalOptimizer pm
  let pm := add_if flags 5 pass_t.GlobalDCE pm
  let pm := add_if flags 6 pass_t.IPConstantPropagation pm
  let pm := add_if flags 7 pass_t.DeadArgElimination pm
  let pm := add_if flags 8 pass_t.InstructionCombining pm
  let pm := add_if flags 9 pass_t.CFGSimplification pm
  let pm := add_if flags 10 pass_t.PruneEH pm
  let pm := add_if flags 11 pass_t.FunctionInlining pm
  let pm := add_if flags 12 pass_t.ArgumentPromotion pm
  let pm := add_if flags 13 pass_t.TailDuplication pm
  let pm := add_if flags 14 pass_t.InstructionCombining pm
  let pm := add_if flags 15 pass_t.CFGSimplification pm
  let pm := add_if flags 16 pass_t.ScalarReplAggregates pm
  let pm := add_if flags 17 pass_t.InstructionCombining pm
  let pm := add_if flags 18 pass_t.CondPropagation pm
  let pm := add_if flags 19 pass_t.TailCallElimination pm
  let pm := add_if flags 20 pass_t.CFGSimplification pm
  let pm := add_if flags 21 pass_t.Reassociate pm
  let pm := add_if flags 22 pass_t.LoopRotate pm
  let pm := add_if flags 23 pass_t.LICM pm
  let pm := add_if flags 24 pass_t.LoopUnswitch pm
  let pm := add_if flags 25 pass_t.InstructionCombining pm
  let pm := add_if flags 26 pass_t.IndVarSimplify pm
  let pm := add_if flags 27 pass_t.LoopUnroll pm
  let pm := add_if flags 28 pass_t.InstructionCombining pm
  let pm := add_if flags 29 pass_t.GVN pm
  let pm := add_if flags 30 pass_t.SCCP pm
  let pm := add_if flags 31 pass_t.InstructionCombining pm
  let pm := add_if flags 32 pass_t.CondPropagation pm
  let pm := add_if flags 33 pass_t.DeadStoreElimination pm
  let pm := add_if flags 34 pass_t.AggressiveDCE pm
  let pm := add_if flags 35 pass_t.CFGSimplification pm
  let pm := add_if flags 36 pass_t.SimplifyLibCalls pm
  let pm := add_if flags 37 pass_t.DeadTypeElimination pm
  let pm := add_if flags 38 pass_t.ConstantMerge pm
  pm

/-- Spec: the enumerated pass list of the optimizer pipeline, bit 0 first. -/
def spec_pass_list : List pass_t :=
  [pass_t.GlobalDCE, pass_t.RaiseAllocations, pass_t.CFGSimplification,
    pass_t.PromoteMemoryToRegister, pass_t.GlobalOptimizer, pass_t.GlobalDCE,
    pass_t.IPConstantPropagation, pass_t.DeadArgElimination, pass_t.InstructionCombining,
    pass_t.CFGSimplification, pass_t.PruneEH, pass_t.FunctionInlining,
    pass_t.ArgumentPromotion, pass_t.TailDuplication, pass_t.InstructionCombining,
    pass_t.CFGSimplification, pass_t.ScalarReplAggregates, pass_t.InstructionCombining,
    pass_t.CondPropagation, pass_t.TailCallElimination, pass_t.CFGSimplification,
    pass_t.Reassociate, pass_t.LoopRotate, pass_t.LICM, pass_t.LoopUnswitch,
    pass_t.InstructionCombining, pass_t.IndVarSimplify, pass_t.LoopUnroll,
    pass_t.InstructionCombining, pass_t.GVN, pass_t.SCCP, pass_t.InstructionCombining,
    pass_t.CondPropagation, pass_t.DeadStoreElimination, pass_t.AggressiveDCE,
    pass_t.CFGSimplification, pass_t.SimplifyLibCalls, pass_t.DeadTypeElimination,
    pass_t.ConstantMerge]

/-- Spec: the passes of the enumerated list whose bit, numbered from 0 in list
order, is set in `flags`. -/
def spec_selected (flags : Nat) : List pass_t :=
  (spec_pass_list.enum.filter fun p => flags.testBit p.1).map Prod.snd

/-! ## Single-step recompilation and the JIT driver -/

/-- What the core appends to a basic block in single-step mode. `lifted pc`
stands for the IR the front-end emits in `recompile_instr` for the guest
instruction at `pc`. `store_pc v` is the `StoreInst` of `emit_store_pc` to the
PC slot; its constant is built from the `addr_t` value `v` with the integer
type of `cpu->pc_width`. `br target` is `BranchInst::Create(target, bb)`. -/
inductive ir_t
  | lifted (pc : Nat)
  | store_pc (v : Nat)
  | br (target : List Char)
  deriving DecidableEq, Repr

/-- A basic block: its name and its instructions in order. -/
structure block_t where
  name : List Char
  body : List ir_t
  deriving DecidableEq, Repr

/-- `emit_store_pc`. -/
def emit_store_pc (bb_branch : block_t) (new_pc : Nat) : block_t :=
  { bb_branch with body := bb_branch.body ++ [ir_t.store_pc new_pc] }

/-- `emit_store_pc_return`. -/
def emit_store_pc_return (bb_branch : block_t) (new_pc : Nat) (bb_ret : List Char) : block_t :=
  let bb := emit_store_pc bb_branch new_pc
  { bb with body := bb.body ++ [ir_t.br bb_ret] }

/-- `create_singlestep_return_basicblock`: a block made by `create_basicblock`
for `new_pc`, appended to the function, with the store of `new_pc` and the
branch to `bb_ret`. -/
def create_singlestep_return_basicblock (func : List block_t) (new_pc : Nat)
    (bb_ret : List Char) : List block_t :=
  func ++ [emit_store_pc_return ⟨create_label new_pc, []⟩ new_pc bb_ret]

/-- `cpu_recompile_singlestep` for the guest pc that `get_pc` returns: the
blocks it adds to the function, in the order of their creation. The block
`instruction` is created first and filled after the exit blocks exist. -/
def cpu_recompile_singlestep (f : arch_func_t) (pc : Nat) (bb_ret : List Char) :
    List block_t :=
  let cur_bb : block_t := ⟨"instruction".toList, []⟩
  let r := f.tag_instr pc
  let exits : List block_t := []
  let exits :=
    if r.flow_type = flow_type_t.BRANCH then
      create_singlestep_return_basicblock
        (create_singlestep_return_basicblock exits r.new_pc bb_ret)
        (addr_add pc r.bytes) bb_ret
    else exits
  let exits :=
    if r.flow_type = flow_type_t.JUMP ∨ r.flow_type = flow_type_t.CALL then
      create_singlestep_return_basicblock exits r.new_pc bb_ret
    else exits
  let bytes := f.recompile_instr pc
  let cur_bb := { cur_bb with body := cur_bb.body ++ [ir_t.lifted pc] }
  let cur_bb :=
    if r.flow_type = flow_type_t.CONTINUE then
      emit_store_pc_return cur_bb (addr_add pc bytes) bb_ret
    else cur_bb
  cur_bb :: exits

/-- The exit block of single-step mode for the address `a`. -/
def exit_block (a : Nat) (bb_ret : List Char) : block_t :=
  ⟨create_label a, [ir_t.store_pc a, ir_t.br bb_ret]⟩

/-- Modelled from the spec: `CPU_OPTIMIZE_NONE`, the optimizer flag word that
selects no pass. The header `libcpu.h` that defines it is absent. -/
def CPU_OPTIMIZE_NONE : Nat := 0

/-- The body of the function `cpu_recompile_function` builds: the dispatch
function of `cpu_recompile`, or the blocks of `cpu_recompile_singlestep` after
`entry` and `ret`. -/
inductive func_body
  | whole_region (jit : jit_t)
  | singlestep (blocks : List block_t)
  deriving DecidableEq, Repr

/-- The compiled function behind `cpu->fp`: its body and the passes the
optimizer ran on it. -/
structure compiled_t where
  body : func_body
  passes : List pass_t
  deriving DecidableEq, Repr

/-- The unit as the JIT driver sees it: the tagging fields `cpu` and the
fields `code_entry`, `flags_optimize`, `reg` and `fp` of the same `cpu_t`.
`reg` is the register state, represented by the guest pc that `get_pc` reads
from it; `none` is `NULL` for both pointers. -/
structure driver_t where
  cpu : cpu_t
  code_entry : Nat
  flags_optimize : Nat
  reg : Option Nat
  fp : Option compiled_t
  deriving DecidableEq, Repr

/-- How far `cpu_run` gets: it calls the compiled function `cpu->fp` of the
unit, or the process ends inside `cpu_recompile`. -/
inductive run_result
  | entered (u : driver_t)
  | stopped (u : driver_t) (r : recompile_result)
  deriving DecidableEq, Repr

/-- The unit carried by a result. -/
def run_result.unit : run_result → driver_t
  | run_result.entered u => u
  | run_result.stopped u _ => u

/-- `cpu_init`: the front-end callback `init` sets up the register state;
`init_pc` is the guest pc it starts with. -/
def cpu_init (init_pc : Nat) (u : driver_t) : driver_t :=
  { u with reg := some init_pc }

/-- `cpu_recompile_function`: the blocks `entry` and `ret`, then
`cpu_recompile_singlestep` or `cpu_recompile`, then `optimize` unless the flag
word is `CPU_OPTIMIZE_NONE`. In single-step mode `get_pc` on a `NULL` register
state is a fault. -/
def cpu_recompile_function (f : arch_func_t) (fuel : Nat) (u : driver_t) : run_result :=
  let passes :=
    if u.flags_optimize ≠ CPU_OPTIMIZE_NONE then optimize u.flags_optimize else []
  if u.cpu.flags_debug &&& CPU_DEBUG_SINGLESTEP ≠ 0 then
    match u.reg with
    | none => run_result.stopped u (recompile_result.fault jit_shell)
    | some pc =>
      run_result.entered { u with
        fp := some ⟨func_body.singlestep
          (⟨"entry".toList, []⟩ :: ⟨"ret".toList, []⟩ ::
            cpu_recompile_singlestep f pc "ret".toList), passes⟩ }
  else
    match cpu_recompile f fuel u.cpu "ret".toList jit_shell with
    | recompile_result.done jit =>
      run_result.entered { u with fp := some ⟨func_body.whole_region jit, passes⟩ }
    | r => run_result.stopped u r

/-- `cpu_run` up to the call of the compiled function. -/
def cpu_run (f : arch_func_t) (fuel : Nat) (init_pc : Nat) (u : driver_t) : run_result :=
  let u1 := if u.reg.isNone then cpu_init init_pc u else u
  if u1.fp.isNone then cpu_recompile_function f fuel u1 else run_result.entered u1

/-- The name ends in a decimal digit. -/
def ends_digit (x : List Char) : Prop := ∃ ch, x.getLast? = some ch ∧ isdigit ch = true

/-- The name ends in a character that is not a decimal digit. -/
def ends_nondigit (x : List Char) : Prop := ∃ ch, x.getLast? = some ch ∧ isdigit ch = false

/-- The stripped-digit prefix of a register set: that of its first member. -/
def prefix_of_set (s : regset) : Option (List Char) :=
  s.regs.head?.bind fun r => drop_digits r.name

/-- Every set has a prefix that ends in a non-digit, and is named by it or by
a name that ends in a digit. -/
def sets_named (sets : List regset) : Prop :=
  ∀ s ∈ sets, ∃ p, prefix_of_set s = some p ∧ ends_nondigit p ∧ (s.name = p ∨ ends_digit s.name)

/-- The first set with a given prefix keeps the bare prefix as its name. -/
def first_keeps (sets : List regset) : Prop :=
  ∀ pre s post, sets = pre ++ s :: post → (∀ t ∈ pre, prefix_of_set t ≠ prefix_of_set s) →
    some s.name = prefix_of_set s

/-- What the renaming maintains: `regset_id` holds the names of the sets, the
names are pairwise distinct, and the first set of a prefix is named by it. -/
def names_inv (ids : List (List Char)) (sets : List regset) : Prop :=
  (∀ n, n ∈ ids ↔ n ∈ sets.map (·.name)) ∧ (sets.map (·.name)).Nodup ∧
    sets_named sets ∧ first_keeps sets

/-! ## Register-file builder: register definitions -/

/-- Modelled from the spec: `register_info::BIDIBIND_FLAG`, the flag of a
bidirectional binding. The header `sema/register_info.h` is absent. -/
def BIDIBIND_FLAG : Nat := 1

/-- Modelled from the spec: a type of the `c` layer, as `convert_type` returns
it (the header `c/type.h` is absent): its width `get_bits()` and what else
`is_equal` compares, which is taken to be equality. -/
structure c_type where
  bits : Nat
  kind : Nat
  deriving DecidableEq, Repr

/-- Modelled from the spec: the condition flags `c::SPECIAL_REGISTER_C`, `_N`,
`_P`, `_V`, `_Z`. -/
inductive special_register
  | C
  | N
  | P
  | V
  | Z
  deriving DecidableEq, Repr

/-- The class of a definition and the constructor argument that is its own:
`c::register_def`, `c::sub_register_def`, `c::hardwired_sub_register_def` with
its expression, `c::bound_sub_register_def` with its special register. -/
inductive def_kind
  | top
  | sub
  | hardwired (expr : Nat)
  | bound (preg : special_register)
  deriving DecidableEq, Repr

/-- Modelled from the spec: an object of the `c::register_def` family (the
headers under `c/` are absent), holding the arguments of its constructor, the
range given to `set_aliasing_range` and the definitions given to `add_uow`.
`parent` is the pointer to the definition it was created under. -/
structure register_def where
  parent : Option Nat
  name : List Char
  type : c_type
  kind : def_kind
  bit_start : Nat
  bits : Nat
  aliasing_range : Option (Nat × Nat)
  uow : List Nat
  deriving DecidableEq, Repr

/-- The definitions created so far, a pointer being the position in `heap`,
and the global vector `g_rdefs`. -/
structure builder_state where
  heap : List register_def
  g_rdefs : List Nat
  deriving DecidableEq, Repr

/-- How a builder function ends: it returns `v` in state `st`, the process
aborts (a failed `assert`, or an access through a null or dangling pointer),
or the fuel of the recursion is exhausted. -/
inductive outcome (α : Type)
  | ret (st : builder_state) (v : α)
  | abort
  | out_of_fuel
  deriving DecidableEq, Repr

/-- What the builder takes from the absent parts of the `sema` layer: the
`register_info` objects by address, and the functions `convert_type` and
`convert_expression` of `sema/convert.h`, each returning `none` for 0. -/
structure builder_env where
  mem : Nat → Option register_info
  convert_type : Option (List Char) → Option c_type
  convert_expression : Nat → Option Nat

/-- A `new` expression: the object is appended and its position returned. -/
def new_def (st : builder_state) (d : register_def) : builder_state × Nat :=
  ({ st with heap := st.heap ++ [d] }, st.heap.length)

/-- Modelled from the spec: `get_sub_register`, the first definition created
under `parent` with the given name. -/
def get_sub_register (st : builder_state) (parent : Nat) (name : List Char) : Option Nat :=
  let i := st.heap.findIdx fun d => d.parent = some parent ∧ d.name = name
  if i < st.heap.length then some i else none

/-- Modelled from the spec: `set_aliasing_range` records the range in the
definition. -/
def set_aliasing_range (st : builder_state) (rdef bit_start bits : Nat) : builder_state :=
  match st.heap[rdef]? with
  | none => st
  | some d =>
    { st with heap := st.heap.set rdef { d with aliasing_range := some (bit_start, bits) } }

/-- Modelled from the spec: `add_uow` records `rdef` as updated on a write of
`bound`; it refuses (`none`) a definition bound to itself. -/
def add_uow (st : builder_state) (bound rdef : Nat) : Option builder_state :=
  if bound = rdef then none
  else
    match st.heap[bound]? with
    | none => some st
    | some d => some { st with heap := st.heap.set bound { d with uow := d.uow ++ [rdef] } }

/-- The `switch (pseudo_name[0])` of `create_pseudo_aliased_sub`; without a
matching case `preg` stays uninitialised. -/
def special_of (ch : Option Char) : Option special_register :=
  if ch = some 'C' then some special_register.C
  else if ch = some 'N' then some special_register.N
  else if ch = some 'P' then some special_register.P
  else if ch = some 'V' then some special_register.V
  else if ch = some 'Z' then some special_register.Z
  else none

/-- `create_pseudo_aliased_sub`. -/
def create_pseudo_aliased_sub (env : builder_env) (st : builder_state) (top_rdef : Nat)
    (type : c_type) (sub_ri : register_info) : outcome (Option Nat) :=
  match sub_ri.binding.bind env.mem with
  | none => outcome.abort
  | some binding_ri =>
    let pseudo_name := binding_ri.name.drop 1
    if pseudo_name ≠ "C".toList ∧ pseudo_name ≠ "N".toList ∧ pseudo_name ≠ "P".toList ∧
        pseudo_name ≠ "V".toList ∧ pseudo_name ≠ "Z".toList then
      outcome.ret st none
    else if type.bits ≠ 1 then outcome.ret st none
    else
      match special_of pseudo_name.head? with
      | none => outcome.abort
      | some preg =>
        let r := new_def st
          ⟨some top_rdef, sub_ri.name, type, def_kind.bound preg, sub_ri.bit_start, type.bits,
            none, []⟩
        outcome.ret r.1 (some r.2)

/-- The loop `for (i = subs.begin(); ...) if (create_sub(ri, rdef, *i) == 0)
return ...` that `create_sub` and `analyze_top` share; `create` is
`create_sub`. The result is `true` when every sub-register was created. -/
def create_subs (create : builder_state → register_info → Nat → Nat → outcome (Option Nat))
    (ri : register_info) (rdef : Nat) : List Nat → builder_state → outcome Bool
  | [], st => outcome.ret st true
  | s :: rest, st =>
    match create st ri rdef s with
    | outcome.ret st1 (some _) => create_subs create ri rdef rest st1
    | outcome.ret st1 none => outcome.ret st1 false
    | outcome.abort => outcome.abort
    | outcome.out_of_fuel => outcome.out_of_fuel

/-- `create_aliased_sub`; `create` is `create_sub`, `sub` and `alias_to` (the
parameter `alias`) are the two pointers and `sub_ri` is `*sub`. -/
def create_aliased_sub
    (create : builder_state → register_info → Nat → Nat → outcome (Option Nat))
    (st : builder_state) (top_ri : register_info) (top_rdef : Nat) (type : c_type)
    (sub : Nat) (sub_ri : register_info) (alias_to : Nat) : outcome (Option Nat) :=
  if alias_to = sub then outcome.ret st none
  else
    match create st top_ri top_rdef alias_to with
    | outcome.ret st1 (some rdef) =>
      outcome.ret (set_aliasing_range st1 rdef sub_ri.bit_start type.bits) (some rdef)
    | r => r

/-- The `if ... else if ...` chain of `create_sub` that classifies the
sub-register `*sub = sub_ri` of converted type `type` and creates its
definition `rdef`; `create` is `create_sub`. The result `none` is a null
`rdef`, by an early `return 0` or by a branch that creates nothing. -/
def create_rdef (env : builder_env)
    (create : builder_state → register_info → Nat → Nat → outcome (Option Nat))
    (st : builder_state) (top_ri : register_info) (top_rdef : Nat) (sub : Nat)
    (sub_ri : register_info) (type : c_type) : outcome (Option Nat) :=
  if sub_ri.hwexpr.isSome then
    match sub_ri.hwexpr.bind env.convert_expression with
    | none => outcome.ret st none
    | some expr =>
      let r := new_def st
        ⟨some top_rdef, sub_ri.name, type, def_kind.hardwired expr, sub_ri.bit_start,
          type.bits, none, []⟩
      outcome.ret r.1 (some r.2)
  else if sub_ri.flags &&& BIDIBIND_FLAG ≠ 0 then
    if sub_ri.bind_copy.isSome then outcome.ret st none
    else
      match sub_ri.binding with
      | none => outcome.abort
      | some alias_to =>
        match env.mem alias_to with
        | none => outcome.abort
        | some binding_ri =>
          match env.convert_type binding_ri.type with
          | none => outcome.ret st none
          | some bind_type =>
            if bind_type ≠ type then outcome.ret st none
            else create_aliased_sub create st top_ri top_rdef type sub sub_ri alias_to
  else if sub_ri.binding.isSome then
    match sub_ri.binding.bind env.mem with
    | none => outcome.abort
    | some binding_ri =>
      if binding_ri.name.head? = some '%' then
        create_pseudo_aliased_sub env st top_rdef type sub_ri
      else
        let r := new_def st
          ⟨some top_rdef, sub_ri.name, type, def_kind.sub, sub_ri.bit_start, type.bits,
            none, []⟩
        match get_sub_register r.1 top_rdef binding_ri.name with
        | some bound =>
          match add_uow r.1 bound r.2 with
          | none => outcome.ret r.1 none
          | some st2 => outcome.ret st2 (some r.2)
        | none => outcome.abort
  else if sub_ri.special_eval.isSome then outcome.ret st none
  else
    let r := new_def st
      ⟨some top_rdef, sub_ri.name, type, def_kind.sub, sub_ri.bit_start, type.bits,
        none, []⟩
    outcome.ret r.1 (some r.2)

/-- `create_sub(top_ri, top_rdef, sub_ri)` for the pointer `sub`: the type
conversion, the creation of `rdef` (`create_rdef`), and for a non-null `rdef`
the loop over the sub-registers of `sub_ri`. The result `none` is the null
pointer. -/
def create_sub (env : builder_env) :
    Nat → builder_state → register_info → Nat → Nat → outcome (Option Nat)
  | 0, _, _, _, _ => outcome.out_of_fuel
  | fuel + 1, st, top_ri, top_rdef, sub =>
    match env.mem sub with
    | none => outcome.abort
    | some sub_ri =>
      match env.convert_type sub_ri.type with
      | none => outcome.ret st none
      | some type =>
        match create_rdef env (create_sub env fuel) st top_ri top_rdef sub sub_ri type with
        | outcome.ret st1 (some rdef) =>
          match create_subs (create_sub env fuel) sub_ri rdef sub_ri.subs st1 with
          | outcome.ret st2 true => outcome.ret st2 (some rdef)
          | outcome.ret st2 false => outcome.ret st2 none
          | outcome.abort => outcome.abort
          | outcome.out_of_fuel => outcome.out_of_fuel
        | r => r

/-- `analyze_top`. The `printf` at its start reads through `ri->type`. -/
def analyze_top (env : builder_env) (fuel : Nat) (st : builder_state) (ri : register_info) :
    outcome Bool :=
  if ri.type.isNone then outcome.abort
  else
    match env.convert_type ri.type with
    | none => outcome.ret st false
    | some rtype =>
      let r := new_def st ⟨none, ri.name, rtype, def_kind.top, 0, rtype.bits, none, []⟩
      match create_subs (create_sub env fuel) ri r.2 ri.subs r.1 with
      | outcome.ret st2 true => outcome.ret { st2 with g_rdefs := st2.g_rdefs ++ [r.2] } true
      | o => o

/-- The loop of `analyze` over the register sets: a set of one register goes
to `analyze_top`, a larger set is printed. -/
def analyze_sets (env : builder_env) (fuel : Nat) : List regset → builder_state → outcome Bool
  | [], st => outcome.ret st true
  | s :: rest, st =>
    if s.regs.length = 1 then
      match s.regs.head? with
      | none => outcome.abort
      | some ri =>
        match analyze_top env fuel st ri with
        | outcome.ret st1 true => analyze_sets env fuel rest st1
        | o => o
    else analyze_sets env fuel rest st

/-- `analyze` on the registers that `get_indep_regs` returns (the dependency
tracker is absent); `nat_sort` is the `std::sort` with `strnatcmp`, absent as
well. An access outside a name or through a null type in `make_regsets` is an
abort. -/
def analyze (env : builder_env) (fuel : Nat)
    (nat_sort : List register_info → List register_info) (st : builder_state)
    (indep_regs : List register_info) : outcome Bool :=
  match make_regsets fuel (nat_sort indep_regs) with
  | none => outcome.abort
  | some regsets => analyze_sets env fuel regsets st

/-- A sample `convert_type`: the type `i<n>` is the integer type of `n`
bits, anything else fails. -/
def sample_convert_type (t : Option (List Char)) : Option c_type :=
  match t with
  | some ('i' :: ds) => if ds ≠ [] ∧ ds.all isdigit then some ⟨atol_digits ds 0, 0⟩ else none
  | _ => none

/-- Sample sub-registers by address: 10 is the 1-bit field `CF` bound to `%C`
(20), 11 the 1-bit field `XF` bound to `%X` (21), 12 the 2-bit field `WF`
bound to `%C`; 30 is the 16-bit field `AX` at bit 0 bound bidirectionally to
the register `AX` (31), 32 the field `LOW` with the same binding, 33 the 8-bit
field `AL` with the same binding, 34 a field bound bidirectionally to itself;
40 is a field with a special evaluator. -/
def sample_mem (p : Nat) : Option register_info :=
  if p = 10 then
    some { name := "CF".toList, type := some "i1".toList, binding := some 20, bit_start := 3 }
  else if p = 11 then
    some { name := "XF".toList, type := some "i1".toList, binding := some 21, bit_start := 4 }
  else if p = 12 then
    some { name := "WF".toList, type := some "i2".toList, binding := some 20, bit_start := 5 }
  else if p = 20 then some { name := "%C".toList, type := some "i1".toList }
  else if p = 21 then some { name := "%X".toList, type := some "i1".toList }
  else if p = 30 then
    some { name := "AX".toList, type := some "i16".toList, flags := BIDIBIND_FLAG,
           binding := some 31, bit_start := 0 }
  else if p = 31 then some { name := "AX".toList, type := some "i16".toList }
  else if p = 32 then
    some { name := "LOW".toList, type := some "i16".toList, flags := BIDIBIND_FLAG,
           binding := some 31, bit_start := 0 }
  else if p = 33 then
    some { name := "AL".toList, type := some "i8".toList, flags := BIDIBIND_FLAG,
           binding := some 31, bit_start := 0 }
  else if p = 34 then
    some { name := "SELF".toList, type := some "i16".toList, flags := BIDIBIND_FLAG,
           binding := some 34, bit_start := 0 }
  else if p = 40 then
    some { name := "SPECIAL".toList, type := some "i8".toList, special_eval := some 1 }
  else none

/-- The sample environment. -/
def sample_env : builder_env :=
  { mem := sample_mem
    convert_type := sample_convert_type
    convert_expression := fun e => some e }

/-- The empty builder state. -/
def builder_init : builder_state := ⟨[], []⟩

/-- Spec: a legal binding of a sub-register to a pseudo condition flag: the
name after `%` is one of `C`, `N`, `P`, `V`, `Z` and the type of the
sub-register is 1 bit wide. -/
def flag_binding_ok (binding_ri : register_info) (type : c_type) : Prop :=
  binding_ri.name.drop 1 ∈ ["C".toList, "N".toList, "P".toList, "V".toList, "Z".toList] ∧
    type.bits = 1

instance (binding_ri : register_info) (type : c_type) :
    Decidable (flag_binding_ok binding_ri type) := by
  unfold flag_binding_ok; infer_instance

/-- Spec: the special register that matches a flag letter. -/
def flag_register (name : List Char) : Option special_register :=
  if name = "C".toList then some special_register.C
  else if name = "N".toList then some special_register.N
  else if name = "P".toList then some special_register.P
  else if name = "V".toList then some special_register.V
  else if name = "Z".toList then some special_register.Z
  else none

/-- The state `st2` extends `st`: `g_rdefs` is the same, and every definition
of `st` is in `st2` at its position, unchanged apart from its `uow` list. -/
def keeps (st st2 : builder_state) : Prop :=
  st2.g_rdefs = st.g_rdefs ∧ st.heap.length ≤ st2.heap.length ∧
    ∀ (i : Nat) (d : register_def), st.heap[i]? = some d → ∃ d2, st2.heap[i]? = some d2 ∧ d2 = ({ d with uow := d2.uow } : register_def)

/-- A returned pointer is a definition created between `st` and `st2`. -/
def fresh_ptr (st st2 : builder_state) (v : Option Nat) : Prop :=
  ∀ r, v = some r → st.heap.length ≤ r ∧ r < st2.heap.length

/-- What the recursion guarantees of `create_sub`: the state is extended and
the pointer returned is new. -/
def create_ok
    (create : builder_state → register_info → Nat → Nat → outcome (Option Nat)) : Prop :=
  ∀ st ri rdef s st2 v, create st ri rdef s = outcome.ret st2 v →
    keeps st st2 ∧ fresh_ptr st st2 v

/-- A register without hardwired expression, `BIDIBIND` flag, binding, special
evaluator or sub-registers. -/
def plain_reg (r : register_info) : Prop :=
  r.hwexpr = none ∧ r.flags &&& BIDIBIND_FLAG = 0 ∧ r.binding = none ∧
    r.special_eval = none ∧ r.subs = []

instance (r : register_info) : Decidable (plain_reg r) := by
  unfold plain_reg; infer_instance

/-- The builder's output `g_rdefs` holds a top-level definition with the given
name. -/
def recorded (st : builder_state) (name : List Char) : Prop :=
  ∃ d ∈ st.g_rdefs,
    st.heap[d]?.map (fun rd => (rd.name, rd.kind)) = some (name, def_kind.top)

instance (st : builder_state) (name : List Char) : Decidable (recorded st name) := by
  unfold recorded; infer_instance

/-- The ghost event is a front-end query. -/
def is_query : event → Bool
  | event.query _ => true
  | _ => false

/-- Number of front-end queries the unit has made. -/
def queries (c : cpu_t) : Nat := c.trace.countP is_query

/-- Number of addresses of the window whose tag has no `TYPE_CODE`. -/
def window_uncoded (c : cpu_t) : Nat :=
  (List.range' c.code_start (c.code_end - c.code_start)).countP
    fun a => get_tagging_type c a &&& TYPE_CODE == 0

/-- A front-end whose every instruction is a `CONTINUE` of length 0. -/
def arch_zero : arch_func_t :=
  { tag_instr := fun _ => ⟨0, flow_type_t.CONTINUE, 0⟩
    recompile_instr := fun _ => 0 }

/-! ## Lifting coverage -/

/-- The address `a` is met from the label-tagged address `l` by instructions of
flow `CONTINUE`, each followed at `pc+len` by an explored address of the window
without a label tag: `l` is the nearest label-tagged address before `a` on a
walk of the tagger. -/
inductive run_from (f : arch_func_t) (c : cpu_t) (l : Nat) : Nat → Prop
  | head : inwin c l → has_tag (get_tagging_type c l) LABEL_MASK →
      has_tag (get_tagging_type c l) TYPE_CODE → run_from f c l l
  | next {a b : Nat} : run_from f c l a →
      (f.tag_instr a).flow_type = flow_type_t.CONTINUE →
      addr_add a (f.tag_instr a).bytes = b → inwin c b →
      has_tag (get_tagging_type c b) TYPE_CODE →
      ¬ has_tag (get_tagging_type c b) LABEL_MASK → run_from f c l b

/-- Every explored address of the window is met from a label-tagged one. -/
def covered (f : arch_func_t) (c : cpu_t) : Prop :=
  ∀ a, inwin c a → has_tag (get_tagging_type c a) TYPE_CODE → ∃ l, run_from f c l a

/-- The state in which the loop of `tag_recursive` is entered at `pc` accounts
for `pc`: it has a label tag, or it is the `pc+len` of a `CONTINUE`
instruction that is met from a label-tagged address. -/
def run_entry (f : arch_func_t) (c : cpu_t) (pc : Nat) : Prop :=
  inwin c pc → has_tag (get_tagging_type c pc) LABEL_MASK ∨
    ∃ p l, run_from f c l p ∧ (f.tag_instr p).flow_type = flow_type_t.CONTINUE ∧
      addr_add p (f.tag_instr p).bytes = pc

/-- The block `name` with the addresses `pcs` passed to `recompile_instr`
holds every address met from the label-tagged address it is named after. -/
def block_covers (f : arch_func_t) (c : cpu_t) (e : List Char × List Nat) : Prop :=
  ∀ l a, e.1 = create_label l → run_from f c l a → a ∈ e.2

/-- A front-end with a three-byte `CONTINUE` at 0 whose last byte, at 2, is a
one-byte `RET` (as the operand of a 6502 `BIT abs` that hides an `RTS`); a
one-byte `RET` elsewhere. -/
def arch_overlap : arch_func_t :=
  { tag_instr := fun pc =>
      if pc = 0 then ⟨3, flow_type_t.CONTINUE, 0⟩ else ⟨1, flow_type_t.RET, 0⟩
    recompile_instr := fun pc => if pc = 0 then 3 else 1 }

/-- The unit `fresh_unit 0 3` after `cpu_tag(unit, 0)` and `cpu_tag(unit, 2)`
under `arch_overlap`. -/
def unit_overlap : cpu_t :=
  ⟨0, 3, 0, some [19, 0, 19],
    [event.alloc 3, event.write 0 16, event.write 0 2, event.read 0, event.write 0 1,
      event.query 0, event.write 2 16, event.write 2 2, event.read 2, event.write 2 1,
      event.query 2]⟩

/-! ## Register-file builder: storage width -/

/-- Modelled from the spec: `register_def::is_sub_register()` (the headers
under `c/` are absent). In the register layout of the spec the root nodes are
the independent registers and every other node is a sub-register: the test
holds of the definitions of the `c::sub_register_def` family, the kinds other
than `top`. -/
def is_sub_register (d : register_def) : Bool :=
  match d.kind with
  | def_kind.top => false
  | def_kind.sub => true
  | def_kind.hardwired _ => true
  | def_kind.bound _ => true

/-- Modelled from the spec: `sub_register_def::get_master_register()` (the
headers under `c/` are absent): the definition that the constructor of the
sub-register was given, its parent in the register layout. -/
def get_master_register (d : register_def) : Option Nat := d.parent

/-- The storage width that `cg_dump(def)` computes, the value of its local
`nbits` (a `size_t`) when it is passed to `cg_print_typed_var` as `data_size`:
the width of the type of the master register when `def` is a sub-register,
the width of the type of `def` otherwise, rounded by the `if` chain. The
result `none` is an access through a null or dangling pointer. -/
def cg_dump_nbits (st : builder_state) (d : Nat) : Option Nat :=
  match st.heap[d]? with
  | none => none
  | some rd =>
    let selected : Option Nat :=
      if is_sub_register rd then
        ((get_master_register rd).bind fun m => st.heap[m]?).map fun md => md.type.bits
      else some rd.type.bits
    selected.map fun nbits =>
      if nbits ≤ 8 then 8
      else if nbits ≤ 16 then 16
      else if nbits ≤ 32 then 32
      else if nbits ≤ 64 then 64
      else ((nbits + 63) % SIZE_MOD / 64 * 64) % SIZE_MOD

/-- The width that `cg_dump(def)` rounds is `n`: the declared width of `def`
when it is not a sub-register, the declared width of its master register when
it is. -/
def rounds_width (st : builder_state) (rd : register_def) (n : Nat) : Prop :=
  (is_sub_register rd = false ∧ rd.type.bits = n) ∨
    (is_sub_register rd = true ∧
      ∃ m md, get_master_register rd = some m ∧ st.heap[m]? = some md ∧ md.type.bits = n)

/-- The builder state after `analyze_top` of the 32-bit register `EAX` with
the plain 16-bit sub-register `AX`. -/
def state_eax : builder_state :=
  ⟨[⟨none, "EAX".toList, ⟨32, 0⟩, def_kind.top, 0, 32, none, []⟩,
    ⟨some 0, "AX".toList, ⟨16, 0⟩, def_kind.sub, 0, 16, none, []⟩], [0]⟩

/-! # Theorems -/

theorem tag_le_refl (x : Nat) : tag_le x x := fun _ h => h

theorem tag_le_trans {x y z : Nat} (h1 : tag_le x y) (h2 : tag_le y z) : tag_le x z :=
  fun i h => h2 i (h1 i h)

theorem tag_le_or (x t : Nat) : tag_le x (x ||| t) := by
  intro i h; simp [h]

theorem tag_le_zero (x : Nat) : tag_le 0 x := by
  intro i h; simp at h

theorem has_tag_mono {x y m : Nat} (h : tag_le x y) (hx : has_tag x m) : has_tag y m := by
  unfold has_tag at *
  obtain ⟨i, hi⟩ := Nat.ne_zero_implies_bit_true hx
  intro h0
  have : (y &&& m).testBit i = true := by
    simp only [Nat.testBit_and, Bool.and_eq_true] at hi ⊢
    exact ⟨h i hi.1, hi.2⟩
  rw [h0] at this; simp at this

theorem or_absorb {x y t : Nat} (h : tag_le (x ||| t) y) : y ||| t = y := by
  apply Nat.eq_of_testBit_eq
  intro i
  rw [Nat.testBit_or]
  cases ht : t.testBit i
  · simp
  · have := h i (by simp [ht])
    simp [this]

theorem has_tag_or (x : Nat) {t : Nat} (ht : t ≠ 0) : has_tag (x ||| t) t := by
  unfold has_tag
  obtain ⟨i, hi⟩ := Nat.ne_zero_implies_bit_true ht
  intro h0
  have : ((x ||| t) &&& t).testBit i = true := by simp [hi]
  rw [h0] at this; simp at this

theorem set_getD_self (arr : List Nat) (i : Nat) : arr.set i (arr.getD i 0) = arr := by
  induction arr generalizing i with
  | nil => simp
  | cons x xs ih =>
    cases i with
    | zero => simp
    | succ j => simpa using ih j

theorem getD_set (arr : List Nat) (i j v : Nat) :
    (arr.set i v).getD j 0 = if i = j ∧ i < arr.length then v else arr.getD j 0 := by
  simp only [List.getD_eq_getElem?_getD, List.getElem?_set]
  by_cases h : i = j
  · subst h
    by_cases h2 : i < arr.length
    · simp [h2]
    · simp [h2, List.getElem?_eq_none (Nat.le_of_not_lt h2)]
  · simp [h]

/-! ### `ext` is a preorder -/

theorem ext_refl (c : cpu_t) : ext c c :=
  ⟨rfl, rfl, rfl, rfl, fun _ => tag_le_refl _⟩

theorem ext_trans {c1 c2 c3 : cpu_t} (h1 : ext c1 c2) (h2 : ext c2 c3) : ext c1 c3 :=
  ⟨h2.cs.trans h1.cs, h2.ce.trans h1.ce, h2.fl.trans h1.fl, h2.len.trans h1.len,
    fun a => tag_le_trans (h1.le a) (h2.le a)⟩

@[simp] theorem get_log (c : cpu_t) (e : event) (a : Nat) :
    get_tagging_type (log c e) a = get_tagging_type c a := rfl

@[simp] theorem log_code_start (c : cpu_t) (e : event) : (log c e).code_start = c.code_start := rfl
@[simp] theorem log_code_end (c : cpu_t) (e : event) : (log c e).code_end = c.code_end := rfl
@[simp] theorem log_tagging_type (c : cpu_t) (e : event) :
    (log c e).tagging_type = c.tagging_type := rfl

theorem ext_log (c : cpu_t) (e : event) : ext c (log c e) :=
  ⟨rfl, rfl, rfl, rfl, fun _ => tag_le_refl _⟩

@[simp] theorem or_code_start (c : cpu_t) (a t : Nat) :
    (or_tagging_type c a t).code_start = c.code_start := by
  unfold or_tagging_type; split <;> rfl

@[simp] theorem or_code_end (c : cpu_t) (a t : Nat) :
    (or_tagging_type c a t).code_end = c.code_end := by
  unfold or_tagging_type; split <;> rfl

@[simp] theorem or_flags_debug (c : cpu_t) (a t : Nat) :
    (or_tagging_type c a t).flags_debug = c.flags_debug := by
  unfold or_tagging_type; split <;> rfl

/-- What a cell holds after `or_tagging_type`. -/
theorem get_or (c : cpu_t) (a t b : Nat) :
    get_tagging_type (or_tagging_type c a t) b =
      if (c.code_start ≤ a ∧ a ≤ c.code_end) ∧ a - c.code_start = b - c.code_start ∧
          ∃ arr, c.tagging_type = some arr ∧ a - c.code_start < arr.length
      then get_tagging_type c b ||| t else get_tagging_type c b := by
  unfold or_tagging_type get_tagging_type
  by_cases hg : a ≥ c.code_start ∧ a ≤ c.code_end
  · rw [if_pos hg]
    cases htt : c.tagging_type with
    | none => simp
    | some arr =>
      simp only [Option.map_some', getD_set]
      by_cases h1 : a - c.code_start = b - c.code_start ∧ a - c.code_start < arr.length
      · rw [if_pos h1, if_pos ⟨hg, h1.1, arr, rfl, h1.2⟩, h1.1]
      · rw [if_neg h1, if_neg]
        rintro ⟨-, h2, arr2, h3, h4⟩
        cases h3
        exact h1 ⟨h2, h4⟩
  · rw [if_neg hg, if_neg]
    rintro ⟨h2, -⟩
    exact hg h2

theorem ext_or (c : cpu_t) (a t : Nat) : ext c (or_tagging_type c a t) := by
  refine ⟨by simp, by simp, by simp, ?_, ?_⟩
  · unfold or_tagging_type
    split
    · cases c.tagging_type <;> simp
    · rfl
  · intro b
    rw [get_or]
    split
    · exact tag_le_or _ _
    · exact tag_le_refl _

theorem alloc_ok_ext {c1 c2 : cpu_t} (h : ext c1 c2) (ha : alloc_ok c1) : alloc_ok c2 := by
  obtain ⟨arr, h1, h2⟩ := ha
  have hl := h.len
  rw [h1] at hl
  cases h3 : c2.tagging_type with
  | none => rw [h3] at hl; simp at hl
  | some arr2 =>
    rw [h3] at hl
    simp at hl
    refine ⟨arr2, h3, ?_⟩
    rw [h.cs, h.ce, hl]
    exact h2

theorem wf_ext {c1 c2 : cpu_t} (h : ext c1 c2) (ha : wf c1) : wf c2 := by
  obtain ⟨hle, h0, h2⟩ := ha
  refine ⟨by rw [h.cs, h.ce]; exact hle, by rw [h.ce]; exact h0, ?_⟩
  intro arr2 h3
  have hl := h.len
  rw [h3] at hl
  cases h1 : c1.tagging_type with
  | none => rw [h1] at hl; simp at hl
  | some arr =>
    rw [h1] at hl
    simp at hl
    rw [h.cs, h.ce, hl]
    exact h2 arr h1

theorem inwin_ext {c1 c2 : cpu_t} (h : ext c1 c2) (a : Nat) : inwin c2 a ↔ inwin c1 a := by
  unfold inwin; rw [h.cs, h.ce]

/-- Inside the window `or_tagging_type` sets the bits. -/
theorem get_or_self {c : cpu_t} (ha : alloc_ok c) {a : Nat} (hw : inwin c a) (t : Nat) :
    get_tagging_type (or_tagging_type c a t) a = get_tagging_type c a ||| t := by
  rw [get_or]
  obtain ⟨arr, h1, h2⟩ := ha
  have h3 := h2 (by unfold inwin at hw; omega)
  rw [if_pos]
  refine ⟨⟨hw.1, Nat.le_of_lt hw.2⟩, rfl, arr, h1, ?_⟩
  unfold inwin at hw; omega

/-- A mark on a cell that holds it already, or on the cell one past the end of
the window, leaves the array as it is. -/
theorem or_tagging_type_same {c : cpu_t} (ha : alloc_ok c) (a t : Nat)
    (h : inwin c a → get_tagging_type c a ||| t = get_tagging_type c a) :
    (or_tagging_type c a t).tagging_type = c.tagging_type := by
  obtain ⟨arr, h1, h2⟩ := ha
  unfold or_tagging_type
  split
  · rename_i hg
    simp only [h1, Option.map_some', Option.some.injEq]
    by_cases hlt : a < c.code_end
    · have := h ⟨hg.1, hlt⟩
      unfold get_tagging_type at this
      rw [h1] at this
      simp only at this
      rw [this]
      exact set_getD_self _ _
    · apply List.set_eq_of_length_le
      have := h2 (by omega)
      omega
  · rfl

/-- Every completed run of the loop is a `walk`. -/
theorem loop_walk (f : arch_func_t) (n : Nat) : ∀ (c : cpu_t) (pc : Nat) (c2 : cpu_t),
    tag_recursive_loop f n c pc = some c2 → walk f c pc c2 := by
  induction n with
  | zero => intro c pc c2 h; simp [tag_recursive_loop] at h
  | succ n ih =>
    intro c pc c2 h
    unfold tag_recursive_loop at h
    by_cases hw : pc < c.code_start ∨ pc ≥ c.code_end
    · rw [if_pos hw] at h
      cases h
      apply walk.outside
      unfold inwin; omega
    · rw [if_neg hw] at h
      have hin : inwin c pc := by unfold inwin; omega
      simp only [get_log] at h
      by_cases hc : get_tagging_type c pc &&& TYPE_CODE ≠ 0
      · rw [if_pos hc] at h
        cases h
        exact walk.seen hin hc
      · rw [if_neg hc] at h
        have hc2 : ¬ has_tag (get_tagging_type c pc) TYPE_CODE := hc
        change (match (f.tag_instr pc).flow_type with
          | flow_type_t.ERR => some (enter c pc)
          | flow_type_t.RET => some (enter c pc)
          | flow_type_t.JUMP => _
          | flow_type_t.CALL => _
          | flow_type_t.BRANCH => _
          | flow_type_t.CONTINUE => _) = some c2 at h
        cases hf : (f.tag_instr pc).flow_type <;> rw [hf] at h <;> simp only at h
        · cases h; exact walk.stop hin hc2 (Or.inl hf)
        · cases h; exact walk.stop hin hc2 (Or.inr hf)
        · exact walk.jump hin hc2 hf (ih _ _ _ h)
        · by_cases hn : (f.tag_instr pc).new_pc ≠ NEW_PC_NONE
          · rw [if_pos hn] at h
            split at h
            · cases h
            · rename_i c3 h3
              exact walk.call_direct hin hc2 hf hn (ih _ _ _ h3) (ih _ _ _ h)
          · rw [if_neg hn] at h
            exact walk.call_indirect hin hc2 hf (not_not.mp hn) (ih _ _ _ h)
        · split at h
          · cases h
          · rename_i c3 h3
            exact walk.branch hin hc2 hf (ih _ _ _ h3) (ih _ _ _ h)
        · exact walk.fallthrough hin hc2 hf (ih _ _ _ h)

theorem ext_enter (c : cpu_t) (pc : Nat) : ext c (enter c pc) :=
  ext_trans (ext_log _ _) (ext_trans (ext_or _ _ _) (ext_log _ _))

/-- Tag monotonicity of the loop: a walk only adds bits. -/
theorem walk_ext {f : arch_func_t} {c c2 : cpu_t} {pc : Nat} (h : walk f c pc c2) :
    ext c c2 := by
  induction h with
  | outside _ => exact ext_refl _
  | seen _ _ => exact ext_log _ _
  | stop _ _ _ => exact ext_enter _ _
  | jump _ _ _ _ ih => exact ext_trans (ext_trans (ext_enter _ _) (ext_or _ _ _)) ih
  | call_direct _ _ _ _ _ _ ih1 ih2 =>
    exact ext_trans (ext_trans (ext_trans (ext_trans (ext_enter _ _) (ext_or _ _ _))
      (ext_or _ _ _)) ih1) ih2
  | call_indirect _ _ _ _ _ ih => exact ext_trans (ext_trans (ext_enter _ _) (ext_or _ _ _)) ih
  | branch _ _ _ _ _ ih1 ih2 =>
    exact ext_trans (ext_trans (ext_trans (ext_trans (ext_enter _ _) (ext_or _ _ _)) ih1)
      (ext_or _ _ _)) ih2
  | fallthrough _ _ _ _ ih => exact ext_trans (ext_enter _ _) ih

theorem type_code_ne_zero : TYPE_CODE ≠ 0 := by decide

/-- After `enter`, `pc` carries `TYPE_CODE`. -/
theorem enter_code {c : cpu_t} (ha : alloc_ok c) {pc : Nat} (hw : inwin c pc) :
    has_tag (get_tagging_type (enter c pc) pc) TYPE_CODE := by
  unfold enter
  rw [get_log, get_or_self (alloc_ok_ext (ext_log _ _) ha) ((inwin_ext (ext_log _ _) _).2 hw)]
  exact has_tag_or _ type_code_ne_zero

/-- A walk entered at an address of the window leaves `TYPE_CODE` on it. -/
theorem walk_code {f : arch_func_t} {c c2 : cpu_t} {pc : Nat} (h : walk f c pc c2)
    (ha : alloc_ok c) (hw : inwin c pc) : has_tag (get_tagging_type c2 pc) TYPE_CODE := by
  cases h with
  | outside h1 => exact absurd hw h1
  | seen _ h2 => exact h2
  | stop _ _ _ => exact enter_code ha hw
  | jump _ _ _ h4 =>
    exact has_tag_mono ((walk_ext h4).le pc)
      (has_tag_mono ((ext_or _ _ _).le pc) (enter_code ha hw))
  | call_direct _ _ _ _ h5 h6 =>
    exact has_tag_mono ((walk_ext h6).le pc) (has_tag_mono ((walk_ext h5).le pc)
      (has_tag_mono ((ext_or _ _ _).le pc) (has_tag_mono ((ext_or _ _ _).le pc)
        (enter_code ha hw))))
  | call_indirect _ _ _ _ h5 =>
    exact has_tag_mono ((walk_ext h5).le pc)
      (has_tag_mono ((ext_or _ _ _).le pc) (enter_code ha hw))
  | branch _ _ _ h4 h5 =>
    exact has_tag_mono ((walk_ext h5).le pc) (has_tag_mono ((ext_or _ _ _).le pc)
      (has_tag_mono ((walk_ext h4).le pc) (has_tag_mono ((ext_or _ _ _).le pc)
        (enter_code ha hw))))
  | fallthrough _ _ _ h4 =>
    exact has_tag_mono ((walk_ext h4).le pc) (enter_code ha hw)

theorem has_tag_of_or {x t m : Nat} (h : has_tag (x ||| t) m) (ht : t &&& m = 0) :
    has_tag x m := by
  unfold has_tag at *
  obtain ⟨i, hi⟩ := Nat.ne_zero_implies_bit_true h
  intro h0
  have h1 : (t &&& m).testBit i = false := by rw [ht]; simp
  have h2 : (x &&& m).testBit i = false := by rw [h0]; simp
  simp only [Nat.testBit_and, Nat.testBit_or] at hi h1 h2
  cases hx : x.testBit i <;> cases hm : m.testBit i <;> cases htt : t.testBit i <;>
    simp [hx, hm, htt] at hi h1 h2

theorem get_or_other (c : cpu_t) {a b : Nat} (t : Nat) (hb : c.code_start ≤ b) (hab : a ≠ b) :
    get_tagging_type (or_tagging_type c a t) b = get_tagging_type c b := by
  rw [get_or, if_neg]
  rintro ⟨⟨h1, -⟩, h2, -⟩
  omega

/-- A mark other than `TYPE_CODE` does not create `TYPE_CODE`. -/
theorem code_of_or {c : cpu_t} {a b t : Nat} (ht : t &&& TYPE_CODE = 0)
    (h : has_tag (get_tagging_type (or_tagging_type c a t) b) TYPE_CODE) :
    has_tag (get_tagging_type c b) TYPE_CODE := by
  rw [get_or] at h
  split at h
  · exact has_tag_of_or h ht
  · exact h

theorem code_of_enter {c : cpu_t} {pc b : Nat} (hb : inwin c b)
    (h : has_tag (get_tagging_type (enter c pc) b) TYPE_CODE) :
    b = pc ∨ has_tag (get_tagging_type c b) TYPE_CODE := by
  by_cases hbp : b = pc
  · exact Or.inl hbp
  · right
    unfold enter at h
    rw [get_log, get_or_other (log c _) _ (by exact hb.1) (fun h => hbp h.symm), get_log] at h
    exact h

theorem marked_mono {c c2 : cpu_t} (h : ext c c2) {b t : Nat} (hm : marked c b t) :
    marked c2 b t := by
  intro hw
  obtain ⟨h1, h2⟩ := hm ((inwin_ext h b).1 hw)
  exact ⟨has_tag_mono (h.le b) h1, has_tag_mono (h.le b) h2⟩

theorem node_ok_mono {f : arch_func_t} {c c2 : cpu_t} (h : ext c c2) {a : Nat}
    (hn : node_ok f c a) : node_ok f c2 a := by
  unfold node_ok at *
  split
  · trivial
  · trivial
  · rename_i hf; rw [hf] at hn; exact marked_mono h hn
  · rename_i hf; rw [hf] at hn
    exact ⟨marked_mono h hn.1, fun hne => marked_mono h (hn.2 hne)⟩
  · rename_i hf; rw [hf] at hn; exact ⟨marked_mono h hn.1, marked_mono h hn.2⟩
  · rename_i hf; rw [hf] at hn; exact marked_mono h hn

theorem served_log {f : arch_func_t} {W : Nat → Prop} {c : cpu_t} (e : event)
    (h : served f W c) : served f W (log c e) := by
  intro a ha hc hW
  exact node_ok_mono (ext_log c e) (h a ha hc hW)

theorem served_or {f : arch_func_t} {W : Nat → Prop} {c : cpu_t} (b : Nat) {t : Nat}
    (ht : t &&& TYPE_CODE = 0) (h : served f W c) : served f W (or_tagging_type c b t) := by
  intro a ha hc hW
  exact node_ok_mono (ext_or c b t)
    (h a ((inwin_ext (ext_or c b t) a).1 ha) (code_of_or ht hc) hW)

theorem served_enter {f : arch_func_t} {W : Nat → Prop} {c : cpu_t} (pc : Nat)
    (h : served f W c) : served f (fun a => W a ∨ a = pc) (enter c pc) := by
  intro a ha hc hW
  have ha2 := (inwin_ext (ext_enter c pc) a).1 ha
  rcases code_of_enter ha2 hc with h1 | h1
  · exact absurd (Or.inr h1) hW
  · exact node_ok_mono (ext_enter c pc) (h a ha2 h1 (fun hw => hW (Or.inl hw)))

theorem served_close {f : arch_func_t} {W : Nat → Prop} {c : cpu_t} {pc : Nat}
    (h : served f (fun a => W a ∨ a = pc) c) (hn : node_ok f c pc) : served f W c := by
  intro a ha hc hW
  by_cases hap : a = pc
  · subst hap; exact hn
  · exact h a ha hc (fun hw => hw.elim hW hap)

/-- A recursive call `tag_recursive(cpu, b, ..)` leaves `b` marked. -/
theorem marked_target {f : arch_func_t} {c c2 : cpu_t} {b : Nat} (ha : alloc_ok c)
    (h : walk f (or_tagging_type c b TYPE_CODE_TARGET) b c2) :
    marked c2 b TYPE_CODE_TARGET := by
  intro hw
  have hw0 : inwin c b := (inwin_ext (ext_trans (ext_or _ _ _) (walk_ext h)) b).1 hw
  have ha1 := alloc_ok_ext (ext_or c b TYPE_CODE_TARGET) ha
  refine ⟨has_tag_mono ((walk_ext h).le b) ?_,
    walk_code h ha1 ((inwin_ext (ext_or _ _ _) b).2 hw0)⟩
  rw [get_or_self ha hw0]
  exact has_tag_or _ (by decide)

/-- The loop continued at `b` after a mark `t` on `b` leaves `b` marked. -/
theorem marked_next {f : arch_func_t} {c c1 c2 : cpu_t} {b t : Nat} (ht : t ≠ 0)
    (ha : alloc_ok c) (h1 : ext (or_tagging_type c b t) c1) (h : walk f c1 b c2) :
    marked c2 b t := by
  intro hw
  have he := ext_trans (ext_trans (ext_or c b t) h1) (walk_ext h)
  have hw0 : inwin c b := (inwin_ext he b).1 hw
  have ha1 := alloc_ok_ext (ext_trans (ext_or c b t) h1) ha
  refine ⟨has_tag_mono ((ext_trans h1 (walk_ext h)).le b) ?_,
    walk_code h ha1 ((inwin_ext (ext_trans (ext_or c b t) h1) b).2 hw0)⟩
  rw [get_or_self ha hw0]
  exact has_tag_or _ ht

/-- A completed walk serves every instruction it explores. -/
theorem walk_served {f : arch_func_t} {c c2 : cpu_t} {pc : Nat} (h : walk f c pc c2) :
    alloc_ok c → ∀ W : Nat → Prop, served f W c → served f W c2 := by
  induction h with
  | outside _ => intro _ W hs; exact hs
  | seen _ _ => intro _ W hs; exact served_log _ hs
  | @stop c pc _ _ h3 =>
    intro _ W hs
    apply served_close (served_enter pc hs)
    unfold node_ok
    rcases h3 with h3 | h3 <;> rw [h3] <;> trivial
  | @jump c c2 pc _ _ h3 h4 ih =>
    intro ha W hs
    have ha1 := alloc_ok_ext (ext_enter c pc) ha
    have := ih (alloc_ok_ext (ext_or _ _ _) ha1) _
      (served_or (f.tag_instr pc).new_pc (by decide) (served_enter pc hs))
    apply served_close this
    unfold node_ok
    rw [h3]
    exact marked_target ha1 h4
  | @call_direct c c2 c3 pc _ _ h3 hne h5 h6 ih1 ih2 =>
    intro ha W hs
    have ha1 := alloc_ok_ext (ext_enter c pc) ha
    have ha2 := alloc_ok_ext (ext_or _ (addr_add pc (f.tag_instr pc).bytes) TYPE_AFTER_CALL) ha1
    have ha3 := alloc_ok_ext (ext_or _ (f.tag_instr pc).new_pc TYPE_CODE_TARGET) ha2
    have ha4 := alloc_ok_ext (walk_ext h5) ha3
    have s1 := ih1 ha3 _ (served_or (f.tag_instr pc).new_pc (by decide)
      (served_or (addr_add pc (f.tag_instr pc).bytes) (by decide) (served_enter pc hs)))
    have s2 := ih2 ha4 _ s1
    apply served_close s2
    unfold node_ok
    rw [h3]
    refine ⟨marked_next (by decide) ha1 (ext_trans (ext_or _ _ _) (walk_ext h5)) h6, fun _ => ?_⟩
    exact marked_mono (walk_ext h6) (marked_target ha2 h5)
  | @call_indirect c c2 pc _ _ h3 hne h5 ih =>
    intro ha W hs
    have ha1 := alloc_ok_ext (ext_enter c pc) ha
    have ha2 := alloc_ok_ext (ext_or _ (addr_add pc (f.tag_instr pc).bytes) TYPE_AFTER_CALL) ha1
    have s1 := ih ha2 _
      (served_or (addr_add pc (f.tag_instr pc).bytes) (by decide) (served_enter pc hs))
    apply served_close s1
    unfold node_ok
    rw [h3]
    exact ⟨marked_next (by decide) ha1 (ext_refl _) h5, fun h => absurd hne h⟩
  | @branch c c2 c3 pc _ _ h3 h4 h5 ih1 ih2 =>
    intro ha W hs
    have ha1 := alloc_ok_ext (ext_enter c pc) ha
    have ha2 := alloc_ok_ext (ext_or _ (f.tag_instr pc).new_pc TYPE_CODE_TARGET) ha1
    have ha3 := alloc_ok_ext (walk_ext h4) ha2
    have ha4 := alloc_ok_ext (ext_or _ (addr_add pc (f.tag_instr pc).bytes) TYPE_AFTER_BRANCH) ha3
    have s1 := ih1 ha2 _ (served_or (f.tag_instr pc).new_pc (by decide) (served_enter pc hs))
    have s2 := ih2 ha4 _ (served_or (addr_add pc (f.tag_instr pc).bytes) (by decide) s1)
    apply served_close s2
    unfold node_ok
    rw [h3]
    exact ⟨marked_next (by decide) ha3 (ext_refl _) h5,
      marked_mono (ext_trans (ext_or _ _ _) (walk_ext h5)) (marked_target ha1 h4)⟩
  | @fallthrough c c2 pc _ _ h3 h4 ih =>
    intro ha W hs
    have ha1 := alloc_ok_ext (ext_enter c pc) ha
    have s1 := ih ha1 _ (served_enter pc hs)
    apply served_close s1
    unfold node_ok
    rw [h3]
    intro hw
    have := walk_code h4 ha1 ((inwin_ext (walk_ext h4) _).1 hw)
    exact ⟨this, this⟩

theorem labels_coded_weaken {W W2 : Nat → Prop} {c : cpu_t} (hW : ∀ a, W a → W2 a)
    (h : labels_coded W c) : labels_coded W2 c :=
  fun a ha hl hn => h a ha hl (fun hw => hn (hW a hw))

theorem labels_coded_log {W : Nat → Prop} {c : cpu_t} (e : event) (h : labels_coded W c) :
    labels_coded W (log c e) := h

theorem labels_coded_or {W : Nat → Prop} {c : cpu_t} (b t : Nat) (h : labels_coded W c) :
    labels_coded (fun a => W a ∨ a = b) (or_tagging_type c b t) := by
  intro a ha hl hn
  have ha0 := (inwin_ext (ext_or c b t) a).1 ha
  have hab : b ≠ a := fun h => hn (Or.inr h.symm)
  rw [get_or_other c t ha0.1 hab] at hl ⊢
  exact h a ha0 hl (fun hw => hn (Or.inl hw))

theorem labels_coded_enter {W : Nat → Prop} {c : cpu_t} {pc : Nat} (ha : alloc_ok c)
    (hw : inwin c pc) (h : labels_coded (fun a => W a ∨ a = pc) c) :
    labels_coded W (enter c pc) := by
  intro a hin hl hn
  have hin0 := (inwin_ext (ext_enter c pc) a).1 hin
  by_cases hap : a = pc
  · subst hap; exact enter_code ha hw
  · refine has_tag_mono ((ext_enter c pc).le a) (h a hin0 ?_ (fun hw => hw.elim hn hap))
    unfold enter at hl
    rw [get_log, get_or_other (log c _) _ (by exact hin0.1) (fun h => hap h.symm), get_log] at hl
    exact hl

/-- A completed walk entered at `pc` leaves `TYPE_CODE` on every label-tagged
address of the window, `pc` included. -/
theorem walk_labels_coded {f : arch_func_t} {c c2 : cpu_t} {pc : Nat} (h : walk f c pc c2) :
    alloc_ok c → ∀ W : Nat → Prop, labels_coded (fun a => W a ∨ a = pc) c →
      labels_coded W c2 := by
  induction h with
  | @outside c pc h1 =>
    intro _ W hs a ha hl hn
    exact hs a ha hl (fun hw => hw.elim hn (fun h => h1 (h ▸ ha)))
  | @seen c pc _ h2 =>
    intro _ W hs a ha hl hn
    by_cases hap : a = pc
    · subst hap; exact h2
    · exact hs a ha hl (fun hw => hw.elim hn hap)
  | @stop c pc h1 _ _ => intro ha W hs; exact labels_coded_enter ha h1 hs
  | @jump c c2 pc h1 _ _ _ ih =>
    intro ha W hs
    have ha1 := alloc_ok_ext (ext_enter c pc) ha
    exact ih (alloc_ok_ext (ext_or _ _ _) ha1) W
      (labels_coded_or _ _ (labels_coded_enter ha h1 hs))
  | @call_direct c c2 c3 pc h1 _ _ _ h5 _ ih1 ih2 =>
    intro ha W hs
    have ha1 := alloc_ok_ext (ext_enter c pc) ha
    have ha2 := alloc_ok_ext (ext_or _ (addr_add pc (f.tag_instr pc).bytes) TYPE_AFTER_CALL) ha1
    have ha3 := alloc_ok_ext (ext_or _ (f.tag_instr pc).new_pc TYPE_CODE_TARGET) ha2
    exact ih2 (alloc_ok_ext (walk_ext h5) ha3) W
      (ih1 ha3 _ (labels_coded_or _ _ (labels_coded_or _ _ (labels_coded_enter ha h1 hs))))
  | @call_indirect c c2 pc h1 _ _ _ _ ih =>
    intro ha W hs
    have ha1 := alloc_ok_ext (ext_enter c pc) ha
    exact ih (alloc_ok_ext (ext_or _ _ _) ha1) W
      (labels_coded_or _ _ (labels_coded_enter ha h1 hs))
  | @branch c c2 c3 pc h1 _ _ h4 _ ih1 ih2 =>
    intro ha W hs
    have ha1 := alloc_ok_ext (ext_enter c pc) ha
    have ha2 := alloc_ok_ext (ext_or _ (f.tag_instr pc).new_pc TYPE_CODE_TARGET) ha1
    have ha3 := alloc_ok_ext (walk_ext h4) ha2
    exact ih2 (alloc_ok_ext (ext_or _ _ _) ha3) W
      (labels_coded_or _ _ (ih1 ha2 W (labels_coded_or _ _ (labels_coded_enter ha h1 hs))))
  | @fallthrough c c2 pc h1 _ _ _ ih =>
    intro ha W hs
    exact ih (alloc_ok_ext (ext_enter c pc) ha) W
      (labels_coded_weaken (fun a h => Or.inl h) (labels_coded_enter ha h1 hs))

theorem get_base (c : cpu_t) (a : Nat) :
    get_tagging_type (base c) a = get_tagging_type c a := by
  unfold base
  cases h : c.tagging_type with
  | none =>
    simp only [Option.isNone_none, if_true]
    unfold get_tagging_type init_tagging
    simp only [h, List.getD_eq_getElem?_getD]
    rw [List.getElem?_replicate]
    split <;> rfl
  | some arr => simp

@[simp] theorem base_code_start (c : cpu_t) : (base c).code_start = c.code_start := by
  unfold base init_tagging; split <;> rfl

@[simp] theorem base_code_end (c : cpu_t) : (base c).code_end = c.code_end := by
  unfold base init_tagging; split <;> rfl

@[simp] theorem base_flags_debug (c : cpu_t) : (base c).flags_debug = c.flags_debug := by
  unfold base init_tagging; split <;> rfl

theorem inwin_base (c : cpu_t) (a : Nat) : inwin (base c) a ↔ inwin c a := by
  unfold inwin; simp

theorem base_of_some {c : cpu_t} {arr : List Nat} (h : c.tagging_type = some arr) :
    base c = c := by
  unfold base; simp [h]

/-- After the on-demand allocation the array covers the window. -/
theorem alloc_ok_base {c : cpu_t} (h : wf c) : alloc_ok (base c) := by
  unfold base
  cases h2 : c.tagging_type with
  | none =>
    simp only [Option.isNone_none, if_true]
    refine ⟨_, rfl, ?_⟩
    intro hle
    have h0 := h.2.1
    simp only [init_tagging, List.length_replicate] at hle ⊢
    have h3 : c.code_end + ADDR_MOD - c.code_start = (c.code_end - c.code_start) + ADDR_MOD := by
      omega
    rw [h3, Nat.add_mod_right, Nat.mod_eq_of_lt (by omega)]
  | some arr =>
    simp only [Option.isNone_some]
    exact ⟨arr, h2, fun _ => h.2.2 arr h2⟩

theorem wf_base {c : cpu_t} (h : wf c) : wf (base c) := by
  obtain ⟨arr, h1, h2⟩ := alloc_ok_base h
  refine ⟨by simpa using h.1, by simpa using h.2.1, ?_⟩
  intro arr2 h3
  rw [h1] at h3
  cases h3
  exact h2 (by simpa using h.1)

/-- The two ways `cpu_tag` returns: at once in single-step mode, or after a
completed walk from the marked entry. -/
theorem cpu_tag_cases {f : arch_func_t} {fuel : Nat} {c c2 : cpu_t} {pc : Nat}
    (h : cpu_tag f fuel c pc = some c2) :
    (c.flags_debug &&& CPU_DEBUG_SINGLESTEP ≠ 0 ∧ c2 = c) ∨
    (c.flags_debug &&& CPU_DEBUG_SINGLESTEP = 0 ∧
      walk f (or_tagging_type (or_tagging_type (base c) pc TYPE_ENTRY) pc TYPE_CODE_TARGET)
        pc c2) := by
  unfold cpu_tag at h
  by_cases hs : c.flags_debug &&& CPU_DEBUG_SINGLESTEP ≠ 0
  · rw [if_pos hs] at h
    cases h
    exact Or.inl ⟨hs, rfl⟩
  · rw [if_neg hs] at h
    exact Or.inr ⟨not_not.mp hs, loop_walk f fuel _ _ _ h⟩

theorem ext_of_cpu_tag_walk {f : arch_func_t} {c c2 : cpu_t} {pc : Nat}
    (h : walk f (or_tagging_type (or_tagging_type (base c) pc TYPE_ENTRY) pc TYPE_CODE_TARGET)
      pc c2) : ext (base c) c2 :=
  ext_trans (ext_trans (ext_or _ _ _) (ext_or _ _ _)) (walk_ext h)

/-- The monotonicity of `cpu_tag` in terms of tag bytes. -/
theorem cpu_tag_le {f : arch_func_t} {fuel : Nat} {c c2 : cpu_t} {pc : Nat}
    (h : cpu_tag f fuel c pc = some c2) (a : Nat) :
    tag_le (get_tagging_type c a) (get_tagging_type c2 a) := by
  rcases cpu_tag_cases h with ⟨-, h1⟩ | ⟨-, h1⟩
  · rw [h1]; exact tag_le_refl _
  · have := (ext_of_cpu_tag_walk h1).le a
    rwa [get_base] at this

theorem cpu_tag_frame {f : arch_func_t} {fuel : Nat} {c c2 : cpu_t} {pc : Nat}
    (h : cpu_tag f fuel c pc = some c2) :
    c2.code_start = c.code_start ∧ c2.code_end = c.code_end ∧
      c2.flags_debug = c.flags_debug := by
  rcases cpu_tag_cases h with ⟨-, h1⟩ | ⟨-, h1⟩
  · rw [h1]; exact ⟨rfl, rfl, rfl⟩
  · have := ext_of_cpu_tag_walk h1
    exact ⟨by simpa using this.cs, by simpa using this.ce, by simpa using this.fl⟩

theorem inwin_cpu_tag {f : arch_func_t} {fuel : Nat} {c c2 : cpu_t} {pc : Nat}
    (h : cpu_tag f fuel c pc = some c2) (a : Nat) : inwin c2 a ↔ inwin c a := by
  obtain ⟨h1, h2, -⟩ := cpu_tag_frame h
  unfold inwin; rw [h1, h2]

theorem cpu_tag_wf {f : arch_func_t} {fuel : Nat} {c c2 : cpu_t} {pc : Nat}
    (h : cpu_tag f fuel c pc = some c2) (hw : wf c) : wf c2 := by
  rcases cpu_tag_cases h with ⟨-, h1⟩ | ⟨-, h1⟩
  · rw [h1]; exact hw
  · exact wf_ext (ext_of_cpu_tag_walk h1) (wf_base hw)

theorem served_base {f : arch_func_t} {W : Nat → Prop} {c : cpu_t} (h : served f W c) :
    served f W (base c) := by
  intro a ha hc hW
  have h1 := h a ((inwin_base c a).1 ha) (by rwa [get_base] at hc) hW
  unfold node_ok marked at *
  simp only [get_base, inwin_base]
  exact h1

theorem labels_coded_base {W : Nat → Prop} {c : cpu_t} (h : labels_coded W c) :
    labels_coded W (base c) := by
  intro a ha hl hW
  rw [get_base] at hl ⊢
  exact h a ((inwin_base c a).1 ha) hl hW

theorem cpu_tag_served {f : arch_func_t} {fuel : Nat} {c c2 : cpu_t} {pc : Nat}
    (h : cpu_tag f fuel c pc = some c2) (hw : wf c) (hs : served f (fun _ => False) c) :
    served f (fun _ => False) c2 := by
  rcases cpu_tag_cases h with ⟨-, h1⟩ | ⟨-, h1⟩
  · rw [h1]; exact hs
  · have ha := alloc_ok_base hw
    exact walk_served h1
      (alloc_ok_ext (ext_trans (ext_or _ _ _) (ext_or _ _ _)) ha) _
      (served_or pc (by decide) (served_or pc (by decide) (served_base hs)))

theorem cpu_tag_labels_coded {f : arch_func_t} {fuel : Nat} {c c2 : cpu_t} {pc : Nat}
    (h : cpu_tag f fuel c pc = some c2) (hw : wf c) (hs : labels_coded (fun _ => False) c) :
    labels_coded (fun _ => False) c2 := by
  rcases cpu_tag_cases h with ⟨-, h1⟩ | ⟨-, h1⟩
  · rw [h1]; exact hs
  · have ha := alloc_ok_base hw
    refine walk_labels_coded h1
      (alloc_ok_ext (ext_trans (ext_or _ _ _) (ext_or _ _ _)) ha) _ ?_
    exact labels_coded_weaken (fun a h => h.elim id Or.inr)
      (labels_coded_or pc TYPE_CODE_TARGET
        (labels_coded_or pc TYPE_ENTRY (labels_coded_base hs)))

/-- What holds of every unit reached from a fresh one. -/
theorem tagged_inv {f : arch_func_t} {c : cpu_t} (h : tagged f c) :
    wf c ∧ served f (fun _ => False) c ∧ labels_coded (fun _ => False) c := by
  induction h with
  | fresh cs ce fl hle hce =>
    refine ⟨⟨hle, hce, fun arr h => by cases h⟩, ?_, ?_⟩
    · intro a _ hc; exact (hc (Nat.zero_and _)).elim
    · intro a _ hc; exact (hc (Nat.zero_and _)).elim
  | tag c c2 fuel pc _ h2 ih => exact ⟨cpu_tag_wf h2 ih.1, cpu_tag_served h2 ih.1 ih.2.1,
      cpu_tag_labels_coded h2 ih.1 ih.2.2⟩
  | set_flags fl _ ih => exact ih

theorem countP_le_of_pointwise (p : Nat → Bool) : ∀ (l1 l2 : List Nat),
    l1.length = l2.length →
    (∀ i, p (l2.getD i 0) = true → p (l1.getD i 0) = true) →
    l2.countP p ≤ l1.countP p := by
  intro l1
  induction l1 with
  | nil => intro l2 hl _; cases l2 with
    | nil => simp
    | cons _ _ => simp at hl
  | cons x xs ih =>
    intro l2 hl hp
    cases l2 with
    | nil => simp at hl
    | cons y ys =>
      have h0 := hp 0
      simp only [List.getD_cons_zero] at h0
      have h1 := ih ys (by simpa using hl) (fun i => by simpa using hp (i + 1))
      simp only [List.countP_cons]
      by_cases hy : p y = true
      · simp [hy, h0 hy, h1]
      · simp only [hy, Bool.false_eq_true, if_false, Nat.add_zero]
        split <;> omega

theorem countP_set_lt (p : Nat → Bool) : ∀ (l : List Nat) (i v : Nat),
    i < l.length → p (l.getD i 0) = true → p v = false →
    (l.set i v).countP p < l.countP p := by
  intro l
  induction l with
  | nil => intro i v hi; simp at hi
  | cons x xs ih =>
    intro i v hi hp hv
    cases i with
    | zero =>
      simp only [List.getD_cons_zero] at hp
      simp [List.countP_cons, hp, hv]
    | succ j =>
      have := ih j v (by simpa using hi) (by simpa using hp) hv
      simp only [List.set_cons_succ, List.countP_cons]
      omega

theorem get_at_index {c : cpu_t} {arr : List Nat} (h : c.tagging_type = some arr) (i : Nat) :
    get_tagging_type c (c.code_start + i) = arr.getD i 0 := by
  unfold get_tagging_type
  rw [h]
  simp

theorem not_has_tag_iff (x m : Nat) : ¬ has_tag x m ↔ (x &&& m == 0) = true := by
  unfold has_tag; simp

/-- Tags only grow, so the number of unexplored cells only shrinks. -/
theorem uncoded_le_of_ext {c c2 : cpu_t} (h : ext c c2) : uncoded c2 ≤ uncoded c := by
  have hl := h.len
  unfold uncoded
  cases h1 : c.tagging_type with
  | none =>
    rw [h1] at hl
    cases h2 : c2.tagging_type with
    | none => simp
    | some arr2 => rw [h2] at hl; simp at hl
  | some arr =>
    rw [h1] at hl
    cases h2 : c2.tagging_type with
    | none => rw [h2] at hl; simp at hl
    | some arr2 =>
      rw [h2] at hl
      simp only [Option.map_some', Option.some.injEq] at hl
      apply countP_le_of_pointwise _ arr arr2 hl.symm
      intro i hi
      have hle := h.le (c.code_start + i)
      rw [get_at_index h1, ← h.cs, get_at_index h2] at hle
      rw [← not_has_tag_iff] at hi ⊢
      exact fun hc => hi (has_tag_mono hle hc)

/-- Exploring a new address uses up one unexplored cell. -/
theorem uncoded_enter_lt {c : cpu_t} (ha : alloc_ok c) {pc : Nat} (hw : inwin c pc)
    (hc : ¬ has_tag (get_tagging_type c pc) TYPE_CODE) : uncoded (enter c pc) < uncoded c := by
  obtain ⟨arr, h1, h2⟩ := ha
  have hlen := h2 (by unfold inwin at hw; omega)
  have hi : pc - c.code_start < arr.length := by unfold inwin at hw; omega
  have h3 : (enter c pc).tagging_type =
      some (arr.set (pc - c.code_start) (arr.getD (pc - c.code_start) 0 ||| TYPE_CODE)) := by
    unfold enter or_tagging_type
    simp only [log_code_start, log_code_end, log_tagging_type]
    rw [if_pos ⟨hw.1, Nat.le_of_lt hw.2⟩]
    simp [log, h1]
  unfold uncoded
  rw [h3, h1]
  simp only
  apply countP_set_lt _ _ _ _ hi
  · rw [← not_has_tag_iff]
    unfold get_tagging_type at hc
    rw [h1] at hc
    exact hc
  · have := has_tag_or (arr.getD (pc - c.code_start) 0) type_code_ne_zero
    unfold has_tag at this
    simpa using this

/-- Termination of the tagger: the loop returns as soon as the fuel exceeds
the number of cells without `TYPE_CODE`. -/
theorem loop_returns (f : arch_func_t) (n : Nat) : ∀ (c : cpu_t) (pc : Nat),
    alloc_ok c → uncoded c < n → ∃ c2, tag_recursive_loop f n c pc = some c2 := by
  induction n with
  | zero => intro c pc _ h; omega
  | succ n ih =>
    intro c pc ha hn
    unfold tag_recursive_loop
    by_cases hw : pc < c.code_start ∨ pc ≥ c.code_end
    · rw [if_pos hw]; exact ⟨_, rfl⟩
    · rw [if_neg hw]
      have hin : inwin c pc := by unfold inwin; omega
      simp only [get_log]
      by_cases hc : get_tagging_type c pc &&& TYPE_CODE ≠ 0
      · rw [if_pos hc]; exact ⟨_, rfl⟩
      · rw [if_neg hc]
        have hlt := uncoded_enter_lt ha hin hc
        have ha1 := alloc_ok_ext (ext_enter c pc) ha
        have hu : uncoded (enter c pc) < n := by omega
        change ∃ c2, (match (f.tag_instr pc).flow_type with
          | flow_type_t.ERR => some (enter c pc)
          | flow_type_t.RET => some (enter c pc)
          | flow_type_t.JUMP => _
          | flow_type_t.CALL => _
          | flow_type_t.BRANCH => _
          | flow_type_t.CONTINUE => _) = some c2
        cases hf : (f.tag_instr pc).flow_type <;> simp only
        · exact ⟨_, rfl⟩
        · exact ⟨_, rfl⟩
        · exact ih _ _ (alloc_ok_ext (ext_or _ _ _) ha1)
            (Nat.lt_of_le_of_lt (uncoded_le_of_ext (ext_or _ _ _)) hu)
        · have ha2 := alloc_ok_ext
            (ext_or (enter c pc) (addr_add pc (f.tag_instr pc).bytes) TYPE_AFTER_CALL) ha1
          have hu2 := Nat.lt_of_le_of_lt (uncoded_le_of_ext
            (ext_or (enter c pc) (addr_add pc (f.tag_instr pc).bytes) TYPE_AFTER_CALL)) hu
          by_cases hne : (f.tag_instr pc).new_pc ≠ NEW_PC_NONE
          · rw [if_pos hne]
            obtain ⟨c3, h3⟩ := ih _ (f.tag_instr pc).new_pc
              (alloc_ok_ext (ext_or _ (f.tag_instr pc).new_pc TYPE_CODE_TARGET) ha2)
              (Nat.lt_of_le_of_lt (uncoded_le_of_ext (ext_or _ _ _)) hu2)
            have h3b := h3
            unfold enter at h3b
            rw [h3b]
            have he := ext_trans (ext_or _ _ _) (walk_ext (loop_walk f n _ _ _ h3))
            exact ih _ _ (alloc_ok_ext he ha2)
              (Nat.lt_of_le_of_lt (uncoded_le_of_ext he) hu2)
          · rw [if_neg hne]
            exact ih _ _ ha2 hu2
        · obtain ⟨c3, h3⟩ := ih _ (f.tag_instr pc).new_pc
            (alloc_ok_ext (ext_or _ (f.tag_instr pc).new_pc TYPE_CODE_TARGET) ha1)
            (Nat.lt_of_le_of_lt (uncoded_le_of_ext (ext_or _ _ _)) hu)
          have h3b := h3
          unfold enter at h3b
          rw [h3b]
          have he := ext_trans (ext_trans (ext_or _ _ _) (walk_ext (loop_walk f n _ _ _ h3)))
            (ext_or c3 (addr_add pc (f.tag_instr pc).bytes) TYPE_AFTER_BRANCH)
          exact ih _ _ (alloc_ok_ext he ha1) (Nat.lt_of_le_of_lt (uncoded_le_of_ext he) hu)
        · exact ih _ _ ha1 hu

/-- The tagger terminates: `cpu_tag` returns on every well-formed unit once the
fuel exceeds the number of cells without `TYPE_CODE`. -/
theorem cpu_tag_returns (f : arch_func_t) (c : cpu_t) (pc : Nat) (hw : wf c) :
    ∃ c2, cpu_tag f (uncoded (base c) + 1) c pc = some c2 := by
  unfold cpu_tag
  split
  · exact ⟨_, rfl⟩
  · have ha := alloc_ok_base hw
    have he : ext (base c)
        (or_tagging_type (or_tagging_type (base c) pc TYPE_ENTRY) pc TYPE_CODE_TARGET) :=
      ext_trans (ext_or _ _ _) (ext_or _ _ _)
    exact loop_returns f _ _ pc (alloc_ok_ext he ha)
      (Nat.lt_succ_of_le (uncoded_le_of_ext he))

/-! ## The claims about the tagger -/

theorem code_of_served {f : arch_func_t} {c : cpu_t} (hs : served f (fun _ => False) c)
    {a b : Nat} (ha : inwin c a) (hc : has_tag (get_tagging_type c a) TYPE_CODE)
    (hsucc : static_succ f a b) (hb : inwin c b) :
    has_tag (get_tagging_type c b) TYPE_CODE := by
  have hn := hs a ha hc (fun h => h)
  unfold node_ok at hn
  unfold static_succ at hsucc
  cases hf : (f.tag_instr a).flow_type <;> rw [hf] at hn hsucc <;> simp only at hn hsucc
  · subst hsucc; exact (hn hb).2
  · rcases hsucc with ⟨h1, h2⟩ | h1
    · subst h1; exact (hn.2 h2 hb).2
    · subst h1; exact (hn.1 hb).2
  · rcases hsucc with h1 | h1
    · subst h1; exact (hn.2 hb).2
    · subst h1; exact (hn.1 hb).2
  · subst hsucc; exact (hn hb).2

/-- In whole-region mode `cpu_tag` leaves `TYPE_CODE` on an entry inside the
window. -/
theorem cpu_tag_entry_code {f : arch_func_t} {fuel : Nat} {c c2 : cpu_t} {pc : Nat}
    (h : cpu_tag f fuel c pc = some c2) (hw : wf c)
    (hss : c.flags_debug &&& CPU_DEBUG_SINGLESTEP = 0) (hin : inwin c pc) :
    has_tag (get_tagging_type c2 pc) TYPE_CODE := by
  rcases cpu_tag_cases h with ⟨h1, -⟩ | ⟨-, h1⟩
  · exact absurd hss h1
  · have he : ext (base c)
        (or_tagging_type (or_tagging_type (base c) pc TYPE_ENTRY) pc TYPE_CODE_TARGET) :=
      ext_trans (ext_or _ _ _) (ext_or _ _ _)
    exact walk_code h1 (alloc_ok_ext he (alloc_ok_base hw))
      ((inwin_ext he pc).2 ((inwin_base c pc).2 hin))

/-- A path of static successors that leaves the window is not followed: in the
window `[0, 4)` with a jump from 0 to 10 and a jump from 10 to 2, the address 2
stays without `TYPE_CODE` after `cpu_tag(unit, 0)`. -/
theorem detour_outside_window_not_followed :
    cpu_tag arch_detour 2 (fresh_unit 0 4) 0 =
        some ⟨0, 4, 0, some [19, 0, 0, 0],
          [event.alloc 4, event.write 0 16, event.write 0 2, event.read 0, event.write 0 1,
            event.query 0]⟩ ∧
      static_succ arch_detour 0 10 ∧ static_succ arch_detour 10 2 ∧
      inwin (fresh_unit 0 4) 2 ∧ ¬ inwin (fresh_unit 0 4) 10 := by
  decide

/-- A repeated mark `t` on `pc` finds the bits in place: it leaves the array
of any later state as it is. -/
theorem or_again {c0 c1 : cpu_t} {pc t : Nat} (ha : alloc_ok c0)
    (he : ext (or_tagging_type c0 pc t) c1) :
    (or_tagging_type c1 pc t).tagging_type = c1.tagging_type := by
  have ha1 := alloc_ok_ext (ext_trans (ext_or c0 pc t) he) ha
  apply or_tagging_type_same ha1
  intro hin
  have hin0 : inwin c0 pc := (inwin_ext (ext_trans (ext_or c0 pc t) he) pc).1 hin
  have := he.le pc
  rw [get_or_self ha hin0] at this
  exact or_absorb this

theorem get_congr {c1 c2 : cpu_t} (h1 : c2.tagging_type = c1.tagging_type)
    (h2 : c2.code_start = c1.code_start) (a : Nat) :
    get_tagging_type c2 a = get_tagging_type c1 a := by
  unfold get_tagging_type; rw [h1, h2]

/-- C4 (failing input): window `[0, 4)`, `cpu_tag(unit, 4)`. The guard
`a <= code_end` of `or_tagging_type` admits `pc = code_end`, and the `ENTRY`
and `CODE_TARGET` marks are stored at index 4 of the 4-byte array. -/
theorem tag_writes_past_end :
    cpu_tag arch_ret 1 (fresh_unit 0 4) 4 =
      some ⟨0, 4, 0, some [0, 0, 0, 0],
        [event.alloc 4, event.write 4 TYPE_ENTRY, event.write 4 TYPE_CODE_TARGET]⟩ := by
  decide

/-- C5 (failing input): window `[0, 2)` already tagged from 0. `cpu_tag(unit, 2)`
with `2 = code_end` makes no front-end query and changes no cell of the
array, but it stores `ENTRY` and `CODE_TARGET` for that pc at index 2, one
past the 2-byte array. -/
theorem tag_at_code_end_records_marks :
    unit_ret.tagging_type = some [19, 0] ∧
    cpu_tag arch_ret 1 unit_ret 2 =
      some { unit_ret with
        trace := unit_ret.trace ++
          [event.write 2 TYPE_ENTRY, event.write 2 TYPE_CODE_TARGET] } := by
  decide

/-- Below `code_start` or above `code_end`, `cpu_tag` makes no mark, no read and
no front-end query: apart from the on-demand allocation the unit is as
before. -/
theorem cpu_tag_outside (f : arch_func_t) (fuel : Nat) (c : cpu_t) (pc : Nat)
    (h : pc < c.code_start ∨ c.code_end < pc) :
    cpu_tag f (fuel + 1) c pc =
      some (if c.flags_debug &&& CPU_DEBUG_SINGLESTEP ≠ 0 then c else base c) := by
  unfold cpu_tag
  split
  · rfl
  · have h1 : ∀ (d : cpu_t) (t : Nat), d.code_start = c.code_start → d.code_end = c.code_end →
        or_tagging_type d pc t = d := by
      intro d t hs he
      unfold or_tagging_type
      rw [if_neg]
      rw [hs, he]
      omega
    show tag_recursive f (fuel + 1) (or_tagging_type (base c) pc TYPE_ENTRY) pc = some (base c)
    unfold tag_recursive
    rw [h1 (base c) _ (by simp) (by simp), h1 (base c) _ (by simp) (by simp)]
    unfold tag_recursive_loop
    rw [if_pos]
    simp only [base_code_start, base_code_end]
    omega

/-- At `pc = code_end` in whole-region mode `cpu_tag` makes no read and no
front-end query and leaves the array as it is, but it stores `TYPE_ENTRY` and
`TYPE_CODE_TARGET` at index `code_end - code_start`, the length of the
array. -/
theorem cpu_tag_at_code_end (f : arch_func_t) (fuel : Nat) (c : cpu_t) (hw : wf c)
    (hss : c.flags_debug &&& CPU_DEBUG_SINGLESTEP = 0) :
    ∃ c2 arr, cpu_tag f (fuel + 1) c c.code_end = some c2 ∧
      (base c).tagging_type = some arr ∧ arr.length = c.code_end - c.code_start ∧
      c2.tagging_type = some arr ∧
      c2.trace = (base c).trace ++
        [event.write arr.length TYPE_ENTRY, event.write arr.length TYPE_CODE_TARGET] := by
  have hle : c.code_start ≤ c.code_end := hw.1
  obtain ⟨arr, harr, hlen⟩ := alloc_ok_base hw
  simp only [base_code_start, base_code_end] at hlen
  have hl := hlen hle
  refine ⟨or_tagging_type (or_tagging_type (base c) c.code_end TYPE_ENTRY) c.code_end
    TYPE_CODE_TARGET, arr, ?_, harr, hl, ?_, ?_⟩
  · unfold cpu_tag
    rw [if_neg (by rw [hss]; simp)]
    show tag_recursive f (fuel + 1) (or_tagging_type (base c) c.code_end TYPE_ENTRY) c.code_end = _
    unfold tag_recursive tag_recursive_loop
    rw [if_pos (by simp)]
  · have ha := alloc_ok_base hw
    have e1 := or_tagging_type_same ha c.code_end TYPE_ENTRY
      (fun h => absurd h.2 (by simp))
    have e2 := or_tagging_type_same (alloc_ok_ext (ext_or _ c.code_end TYPE_ENTRY) ha)
      c.code_end TYPE_CODE_TARGET (fun h => absurd h.2 (by simp))
    rw [e2, e1, harr]
  · unfold or_tagging_type
    simp only [base_code_start, base_code_end, ge_iff_le, hle, le_refl, and_self, if_true,
      List.append_assoc, List.singleton_append, hl]

/-- C10: BRANCH marking. In every unit reached from a fresh one, an explored
`BRANCH` instruction at `a` has `TYPE_AFTER_BRANCH` on `a+len` and
`TYPE_CODE_TARGET` and `TYPE_CODE` on its target, each when inside the
window. -/
theorem branch_marking (f : arch_func_t) (c : cpu_t) (a : Nat) (ht : tagged f c)
    (ha : inwin c a) (hc : has_tag (get_tagging_type c a) TYPE_CODE)
    (hf : (f.tag_instr a).flow_type = flow_type_t.BRANCH) :
    (inwin c (addr_add a (f.tag_instr a).bytes) →
      has_tag (get_tagging_type c (addr_add a (f.tag_instr a).bytes)) TYPE_AFTER_BRANCH) ∧
    (inwin c (f.tag_instr a).new_pc →
      has_tag (get_tagging_type c (f.tag_instr a).new_pc) TYPE_CODE_TARGET ∧
      has_tag (get_tagging_type c (f.tag_instr a).new_pc) TYPE_CODE) := by
  have hn := (tagged_inv ht).2.1 a ha hc (fun h => h)
  unfold node_ok at hn
  rw [hf] at hn
  exact ⟨fun h => (hn.1 h).1, fun h => hn.2 h⟩

/-! ## Labels: formatting and parsing -/

theorem hex_value_hex_digit (d : Nat) (h : d < 16) : hex_value (hex_digit d) = some d := by
  interval_cases d <;> decide

theorem strtol16_digits_hex_digits (k : Nat) : ∀ (n acc : Nat) (rest : List Char),
    n < 16 ^ k → ∃ v, strtol16_digits (hex_digits k n ++ rest) acc = strtol16_digits rest v ∧
      (acc = 0 → v = n) := by
  induction k with
  | zero =>
    intro n acc rest h
    simp at h
    exact ⟨acc, by simp [hex_digits], fun h0 => by omega⟩
  | succ k ih =>
    intro n acc rest h
    unfold hex_digits
    by_cases h16 : n < 16
    · rw [if_pos h16]
      refine ⟨acc * 16 + n, ?_, fun h0 => by simp [h0]⟩
      simp [strtol16_digits, hex_value_hex_digit n h16]
    · rw [if_neg h16]
      have hdiv : n / 16 < 16 ^ k := by
        rw [Nat.div_lt_iff_lt_mul (by decide)]
        rwa [Nat.pow_succ] at h
      obtain ⟨v, hv, hv0⟩ := ih (n / 16) acc (hex_digit (n % 16) :: rest) hdiv
      refine ⟨v * 16 + n % 16, ?_, fun h0 => ?_⟩
      · rw [List.append_assoc, List.singleton_append, hv]
        simp [strtol16_digits, hex_value_hex_digit (n % 16) (Nat.mod_lt _ (by decide))]
      · rw [hv0 h0]; omega

theorem hex_digits_length (k : Nat) : ∀ (n m : Nat), n < 16 ^ m → 1 ≤ m →
    (hex_digits k n).length ≤ m := by
  induction k with
  | zero => intro n m _ _; simp [hex_digits]
  | succ k ih =>
    intro n m h hm
    unfold hex_digits
    by_cases h16 : n < 16
    · rw [if_pos h16]; simpa using hm
    · rw [if_neg h16]
      obtain ⟨m2, rfl⟩ : ∃ m2, m = m2 + 1 := ⟨m - 1, by omega⟩
      have hm2 : 1 ≤ m2 := by
        rcases Nat.eq_zero_or_pos m2 with h0 | h0
        · subst h0; simp at h; omega
        · exact h0
      have hdiv : n / 16 < 16 ^ m2 := by
        rw [Nat.div_lt_iff_lt_mul (by decide)]
        rwa [Nat.pow_succ] at h
      have := ih (n / 16) m2 hdiv hm2
      simp only [List.length_append, List.length_singleton]
      omega

theorem strtol16_digits_zeros (m : Nat) (s : List Char) :
    strtol16_digits (List.replicate m '0' ++ s) 0 = strtol16_digits s 0 := by
  induction m with
  | zero => simp
  | succ m ih =>
    have h0 : hex_value '0' = some 0 := by decide
    rw [List.replicate_succ, List.cons_append]
    simp only [strtol16_digits, h0]
    simpa using ih

theorem create_label_head (a : Nat) : (create_label a).head? = some LABEL_PREFIX := by
  unfold create_label
  simp

/-- Below `2 ^ 60` the label of an address parses back to the address. -/
theorem strtol16_create_label {a : Nat} (h : a < 2 ^ 60) :
    strtol16 (create_label a).tail = a := by
  have hmod : a % ADDR_MOD = a := Nat.mod_eq_of_lt (by unfold ADDR_MOD; omega)
  have hlen : (hex_digits 16 a).length ≤ 15 := hex_digits_length 16 a 15 (by norm_num; omega) (by decide)
  have hfl : (format_08llx a).length ≤ 15 := by
    unfold format_08llx
    simp only [hmod, List.length_append, List.length_replicate]
    omega
  have htake : create_label a = LABEL_PREFIX :: format_08llx a := by
    unfold create_label
    apply List.take_of_length_le
    simp only [List.length_cons]
    omega
  rw [htake, List.tail_cons]
  unfold strtol16 format_08llx
  simp only [hmod]
  rw [strtol16_digits_zeros]
  obtain ⟨v, hv, hv0⟩ := strtol16_digits_hex_digits 16 a 0 [] (by norm_num; omega)
  rw [List.append_nil] at hv
  rw [hv, hv0 rfl]
  simp only [strtol16_digits]
  unfold LONG_MAX
  omega

theorem lookup_found : ∀ (blocks : List (List Char)) (pc : Nat), labels_below blocks →
    pc < 2 ^ 60 → create_label pc ∈ blocks →
    lookup_basicblock blocks pc = some (create_label pc) := by
  intro blocks
  induction blocks with
  | nil => intro pc _ _ h; simp at h
  | cons name rest ih =>
    intro pc hl hpc hmem
    unfold lookup_basicblock
    by_cases hc : name.head? = some LABEL_PREFIX ∧ pc = strtol16 name.tail
    · rw [if_pos hc]
      obtain ⟨a, ha, hn⟩ := hl name (List.mem_cons_self _ _) hc.1
      have := hc.2
      rw [hn, strtol16_create_label ha] at this
      rw [hn, this]
    · rw [if_neg hc]
      have hne : create_label pc ≠ name := by
        intro h
        apply hc
        rw [← h]
        exact ⟨create_label_head pc, (strtol16_create_label hpc).symm⟩
      apply ih pc (fun n hn => hl n (List.mem_cons_of_mem _ hn)) hpc
      rcases List.mem_cons.1 hmem with h | h
      · exact absurd h hne
      · exact h

theorem lookup_missing : ∀ (blocks : List (List Char)) (pc : Nat),
    (∀ name ∈ blocks, name.head? = some LABEL_PREFIX → strtol16 name.tail ≠ pc) →
    lookup_basicblock blocks pc = none := by
  intro blocks
  induction blocks with
  | nil => intro pc _; rfl
  | cons name rest ih =>
    intro pc h
    unfold lookup_basicblock
    rw [if_neg]
    · exact ih pc (fun n hn => h n (List.mem_cons_of_mem _ hn))
    · rintro ⟨h1, h2⟩
      exact h name (List.mem_cons_self _ _) h1 h2.symm

theorem has_tag_mask {x m m2 : Nat} (h : has_tag x m) (hm : m ||| m2 = m2) : has_tag x m2 := by
  unfold has_tag at *
  obtain ⟨i, hi⟩ := Nat.ne_zero_implies_bit_true h
  intro h0
  have h1 : (x &&& m2).testBit i = false := by rw [h0]; simp
  have h2 : (m ||| m2).testBit i = m2.testBit i := by rw [hm]
  simp only [Nat.testBit_and, Nat.testBit_or] at hi h1 h2
  cases hx : x.testBit i <;> cases hmm : m.testBit i <;> cases hm2 : m2.testBit i <;>
    simp [hx, hmm, hm2] at hi h1 h2

/-! ## The three loops of `cpu_recompile` -/

theorem create_blocks_spec (c : cpu_t) : ∀ (l : List Nat) (jit : jit_t),
    create_blocks c l jit =
      { jit with
        blocks := jit.blocks ++
          (l.filter (fun pc => decide (get_tagging_type c pc &&& LABEL_MASK ≠ 0))).map
            create_label } := by
  intro l
  induction l with
  | nil => intro jit; simp [create_blocks]
  | cons pc rest ih =>
    intro jit
    unfold create_blocks
    by_cases h : get_tagging_type c pc &&& LABEL_MASK ≠ 0
    · rw [if_pos h, ih]
      simp [List.filter_cons, h]
    · rw [if_neg h, ih]
      simp [List.filter_cons, h]

theorem mem_window (c : cpu_t) (a : Nat) :
    a ∈ List.range' c.code_start (c.code_end - c.code_start) ↔ inwin c a := by
  rw [List.mem_range'_1]
  unfold inwin
  omega

/-- The blocks after the first loop and the creation of `dispatch`. -/
theorem blocks_after_create (c : cpu_t) (jit : jit_t)
    (hj : ∀ name ∈ jit.blocks, name.head? ≠ some LABEL_PREFIX) :
    blocks_sound c ((create_blocks c (List.range' c.code_start (c.code_end - c.code_start))
        jit).blocks ++ ["dispatch".toList]) ∧
    blocks_complete c ((create_blocks c (List.range' c.code_start (c.code_end - c.code_start))
        jit).blocks ++ ["dispatch".toList]) := by
  rw [create_blocks_spec]
  constructor
  · intro name hn hh
    simp only [List.mem_append, List.mem_map, List.mem_filter, decide_eq_true_eq,
      List.mem_singleton] at hn
    rcases hn with (hn | ⟨a, ⟨ha1, ha2⟩, ha3⟩) | hn
    · exact absurd hh (hj name hn)
    · exact ⟨a, (mem_window c a).1 ha1, ha2, ha3.symm⟩
    · rw [hn] at hh; exact absurd hh (by decide)
  · intro a ha hl
    simp only [List.mem_append, List.mem_map, List.mem_filter, decide_eq_true_eq]
    exact Or.inl (Or.inr ⟨a, ⟨(mem_window c a).2 ha, hl⟩, rfl⟩)

theorem labels_below_of_sound {c : cpu_t} {blocks : List (List Char)}
    (h60 : c.code_end ≤ 2 ^ 60) (h : blocks_sound c blocks) : labels_below blocks := by
  intro name hn hh
  obtain ⟨a, ha, -, he⟩ := h name hn hh
  exact ⟨a, Nat.lt_of_lt_of_le ha.2 h60, he⟩

theorem lookup_inwin {c : cpu_t} {blocks : List (List Char)} (h60 : c.code_end ≤ 2 ^ 60)
    (hs : blocks_sound c blocks) (hc : blocks_complete c blocks) {a : Nat} (ha : inwin c a)
    (hl : has_tag (get_tagging_type c a) LABEL_MASK) :
    lookup_basicblock blocks a = some (create_label a) :=
  lookup_found blocks a (labels_below_of_sound h60 hs) (Nat.lt_of_lt_of_le ha.2 h60)
    (hc a ha hl)

theorem lookup_outside {c : cpu_t} {blocks : List (List Char)} (h60 : c.code_end ≤ 2 ^ 60)
    (hs : blocks_sound c blocks) {a : Nat} (ha : ¬ inwin c a) :
    lookup_basicblock blocks a = none := by
  apply lookup_missing
  intro name hn hh
  obtain ⟨b, hb, -, he⟩ := hs name hn hh
  rw [he, strtol16_create_label (Nat.lt_of_lt_of_le hb.2 h60)]
  rintro rfl
  exact ha hb

/-- The dispatch loop on a list of window addresses: it ends normally, keeps the
blocks, looks up label-tagged window addresses only, and adds for each address
tagged `ENTRY` or `AFTER_CALL`, in order, the case routed to its own block. -/
theorem add_cases_spec (c : cpu_t) (h60 : c.code_end ≤ 2 ^ 60) : ∀ (l : List Nat) (jit : jit_t),
    (∀ a ∈ l, inwin c a) → blocks_sound c jit.blocks → blocks_complete c jit.blocks →
    add_cases c l jit = recompile_result.done
      { jit with
        lookups := jit.lookups ++
          l.filter (fun pc =>
            decide (get_tagging_type c pc &&& (TYPE_ENTRY ||| TYPE_AFTER_CALL) ≠ 0))
        cases := jit.cases ++
          (l.filter (fun pc =>
            decide (get_tagging_type c pc &&& (TYPE_ENTRY ||| TYPE_AFTER_CALL) ≠ 0))).map
            (fun pc => (pc, create_label pc)) } := by
  intro l
  induction l with
  | nil => intro jit _ _ _; simp [add_cases]
  | cons pc rest ih =>
    intro jit hl hs hc
    have hrest : ∀ a ∈ rest, inwin c a := fun a ha => hl a (List.mem_cons_of_mem _ ha)
    unfold add_cases
    by_cases h : get_tagging_type c pc &&& (TYPE_ENTRY ||| TYPE_AFTER_CALL) ≠ 0
    · rw [if_pos h]
      have hlab : has_tag (get_tagging_type c pc) LABEL_MASK :=
        has_tag_mask (m := TYPE_ENTRY ||| TYPE_AFTER_CALL) h (by decide)
      simp only
      rw [lookup_inwin h60 hs hc (hl pc (List.mem_cons_self _ _)) hlab]
      simp only
      exact (ih ⟨jit.blocks, jit.switch_default, jit.cases ++ [(pc, create_label pc)],
        jit.lifted, jit.links, jit.lookups ++ [pc]⟩ hrest hs hc).trans
        (by simp [List.filter_cons, h])
    · rw [if_neg h, ih _ hrest hs hc]
      simp [List.filter_cons, h]

/-- The lifting loop started on an explored address of the window ends on an
explored address of the window; the address it stops at, if it is an explored
address of the window, has a label tag. -/
theorem lift_loop_spec (f : arch_func_t) (c : cpu_t) : ∀ (fuel pc : Nat) (pcs pcs2 : List Nat)
    (last pc2 : Nat), inwin c pc → has_tag (get_tagging_type c pc) TYPE_CODE →
    lift_loop f c fuel pc pcs = lift_result.ok pcs2 last pc2 →
    inwin c last ∧ has_tag (get_tagging_type c last) TYPE_CODE ∧
      pc2 = addr_add last (f.recompile_instr last) ∧
      (inwin c pc2 → has_tag (get_tagging_type c pc2) TYPE_CODE →
        has_tag (get_tagging_type c pc2) LABEL_MASK) := by
  intro fuel
  induction fuel with
  | zero => intro pc pcs pcs2 last pc2 _ _ h; simp [lift_loop] at h
  | succ fuel ih =>
    intro pc pcs pcs2 last pc2 hin hc h
    unfold lift_loop at h
    simp only at h
    by_cases h1 : addr_add pc (f.recompile_instr pc) < c.code_end
    · rw [if_pos h1] at h
      by_cases h2 : addr_add pc (f.recompile_instr pc) < c.code_start
      · rw [if_pos h2] at h; cases h
      · rw [if_neg h2] at h
        by_cases h3 : get_tagging_type c (addr_add pc (f.recompile_instr pc)) &&& TYPE_CODE ≠ 0 ∧
            ¬ (get_tagging_type c (addr_add pc (f.recompile_instr pc)) &&& LABEL_MASK ≠ 0)
        · rw [if_pos h3] at h
          exact ih _ _ _ _ _ ⟨Nat.le_of_not_lt h2, h1⟩ h3.1 h
        · rw [if_neg h3] at h
          cases h
          refine ⟨hin, hc, rfl, fun _ hcode => ?_⟩
          by_contra hl
          exact h3 ⟨hcode, fun h => hl h⟩
    · rw [if_neg h1] at h
      cases h
      exact ⟨hin, hc, rfl, fun hw => absurd hw.2 h1⟩

/-- The lifting loop over block names: no "unknown rts target" exit, and all
lookups accounted for. -/
theorem lift_blocks_spec {f : arch_func_t} {c : cpu_t} (fuel : Nat)
    (h60 : c.code_end ≤ 2 ^ 60)
    (hlen : ∀ pc, f.recompile_instr pc = (f.tag_instr pc).bytes)
    (hserved : served f (fun _ => False) c) (hlc : labels_coded (fun _ => False) c)
    {B : List (List Char)} (hs : blocks_sound c B) (hc : blocks_complete c B) :
    ∀ (names : List (List Char)) (jit : jit_t), (∀ n ∈ names, n ∈ B) → jit.blocks = B →
      (∀ a ∈ jit.lookups, inwin c a ∧ has_tag (get_tagging_type c a) LABEL_MASK) →
      lookups_accounted c (lift_blocks f c fuel names jit) ∧
        (∀ pc j, lift_blocks f c fuel names jit ≠ recompile_result.unknown_rts_target pc j) ∧
        ∀ pc j, lift_blocks f c fuel names jit = recompile_result.unknown_continue pc j →
          ¬ inwin c pc := by
  intro names
  induction names with
  | nil =>
    intro jit _ _ hl
    exact ⟨fun a ha => Or.inl (hl a ha), (fun pc j h => by simp [lift_blocks] at h),
      (fun pc j h => by simp [lift_blocks] at h)⟩
  | cons name rest ih =>
    intro jit hn hB hl
    have hrest : ∀ n ∈ rest, n ∈ B := fun n h => hn n (List.mem_cons_of_mem _ h)
    unfold lift_blocks
    by_cases hh : name.head? ≠ some LABEL_PREFIX
    · rw [if_pos hh]; exact ih jit hrest hB hl
    · rw [if_neg hh]
      obtain ⟨a, ha, hla, hname⟩ := hs name (hn name (List.mem_cons_self _ _)) (not_not.mp hh)
      have hparse : strtol16 name.tail = a := by
        rw [hname]; exact strtol16_create_label (Nat.lt_of_lt_of_le ha.2 h60)
      have hcode : has_tag (get_tagging_type c a) TYPE_CODE := hlc a ha hla (fun h => h)
      rw [hparse]
      cases hres : lift_loop f c fuel a [] with
      | out_of_fuel =>
        exact ⟨fun b hb => Or.inl (hl b hb), (fun pc j h => by cases h),
          (fun pc j h => by cases h)⟩
      | fault =>
        exact ⟨fun b hb => Or.inl (hl b hb), (fun pc j h => by cases h),
          (fun pc j h => by cases h)⟩
      | ok pcs last pc2 =>
        obtain ⟨hlin, hlcode, hpc2, hstop⟩ := lift_loop_spec f c fuel a [] pcs last pc2 ha hcode hres
        simp only
        by_cases hflow : (f.tag_instr last).flow_type = flow_type_t.CONTINUE
        · rw [if_pos hflow]
          by_cases hin2 : inwin c pc2
          · have hnode := hserved last hlin hlcode (fun h => h)
            unfold node_ok at hnode
            rw [hflow] at hnode
            simp only at hnode
            rw [← hlen, ← hpc2] at hnode
            have hl2 := hstop hin2 (hnode hin2).1
            rw [hB, lookup_inwin h60 hs hc hin2 hl2]
            simp only
            refine ih _ hrest rfl ?_
            intro b hb
            rcases List.mem_append.1 hb with hb | hb
            · exact hl b hb
            · rw [List.mem_singleton.1 hb]; exact ⟨hin2, hl2⟩
          · rw [hB, lookup_outside h60 hs hin2]
            simp only
            refine ⟨fun b hb => ?_, (fun pc j h => by cases h),
              (fun pc j h => by cases h; exact hin2)⟩
            rcases List.mem_append.1 hb with hb | hb
            · exact Or.inl (hl b hb)
            · rw [List.mem_singleton.1 hb]; exact Or.inr ⟨hin2, _, rfl⟩
        · rw [if_neg hflow]
          refine ih _ hrest ?_ ?_
          · exact hB
          · exact hl

theorem mem_filter_window {c : cpu_t} {p : Nat → Bool} {a : Nat}
    (h : a ∈ (List.range' c.code_start (c.code_end - c.code_start)).filter p) :
    inwin c a ∧ p a = true := by
  rw [List.mem_filter] at h
  exact ⟨(mem_window c a).1 h.1, h.2⟩

/-- C7 (amended): Label completeness for windows below `2 ^ 60`. For a unit
reached from a fresh one and a front-end whose `recompile_instr` length equals
its `tag_instr` length, every address that `cpu_recompile` passes to
`lookup_basicblock` is a label-tagged address of the window, except that the
successor pc of a block ending in `CONTINUE` may lie outside the window, and
then the run ends in the "unknown continue" exit on that pc. The "unknown rts
target" exit is not reached, and the "unknown continue" exit is reached on an
address outside the window only. -/
theorem label_completeness (f : arch_func_t) (c : cpu_t) (fuel : Nat) (ht : tagged f c)
    (hlen : ∀ pc, f.recompile_instr pc = (f.tag_instr pc).bytes)
    (h60 : c.code_end ≤ 2 ^ 60) :
    lookups_accounted c (cpu_recompile f fuel c "ret".toList jit_shell) ∧
      (∀ pc j, cpu_recompile f fuel c "ret".toList jit_shell ≠
        recompile_result.unknown_rts_target pc j) ∧
      ∀ pc j, cpu_recompile f fuel c "ret".toList jit_shell =
        recompile_result.unknown_continue pc j → ¬ inwin c pc := by
  obtain ⟨-, hserved, hlc⟩ := tagged_inv ht
  unfold cpu_recompile
  simp only
  split
  · exact ⟨(fun a ha => by simp [recompile_result.jit, jit_shell] at ha),
      (fun pc j h => by cases h), (fun pc j h => by cases h)⟩
  · obtain ⟨hs, hc⟩ := blocks_after_create c jit_shell (by decide)
    rw [add_cases_spec c h60 _ _ (fun a ha => (mem_window c a).1 ha) hs hc]
    simp only
    apply lift_blocks_spec fuel h60 hlen hserved hlc hs hc _ _ (fun n hn => hn) rfl
    intro a ha
    rw [create_blocks_spec] at ha
    simp only [jit_shell, List.nil_append] at ha
    obtain ⟨h1, h2⟩ := mem_filter_window ha
    exact ⟨h1, has_tag_mask (m := TYPE_ENTRY ||| TYPE_AFTER_CALL) (of_decide_eq_true h2)
      (by decide)⟩

theorem branch_marking_witness :
    inwin unit_branch 0 ∧ has_tag (get_tagging_type unit_branch 0) TYPE_CODE ∧
      (arch_branch.tag_instr 0).flow_type = flow_type_t.BRANCH ∧
      has_tag (get_tagging_type unit_branch 2) TYPE_AFTER_BRANCH ∧
      has_tag (get_tagging_type unit_branch 4) TYPE_CODE_TARGET :=
  ⟨by decide, by decide, by decide,
    (branch_marking arch_branch unit_branch 0
      (tagged.tag (fresh_unit 0 5) unit_branch 5 0 (tagged.fresh 0 5 0 (by decide) (by decide)) (by decide))
      (by decide) (by decide) (by decide)).1 (by decide),
    ((branch_marking arch_branch unit_branch 0
      (tagged.tag (fresh_unit 0 5) unit_branch 5 0 (tagged.fresh 0 5 0 (by decide) (by decide)) (by decide))
      (by decide) (by decide) (by decide)).2 (by decide)).1⟩

theorem label_completeness_witness :
    tagged arch_branch unit_branch ∧
      (∀ pc, arch_branch.recompile_instr pc = (arch_branch.tag_instr pc).bytes) ∧
      unit_branch.code_end ≤ 2 ^ 60 ∧
      lookups_accounted unit_branch (cpu_recompile arch_branch 3 unit_branch "ret".toList jit_shell) :=
  have ht : tagged arch_branch unit_branch :=
    tagged.tag (fresh_unit 0 5) unit_branch 5 0 (tagged.fresh 0 5 0 (by decide) (by decide)) (by decide)
  have hlen : ∀ pc, arch_branch.recompile_instr pc = (arch_branch.tag_instr pc).bytes := by
    intro pc
    simp only [arch_branch]
    split_ifs <;> rfl
  ⟨ht, hlen, by decide, (label_completeness arch_branch unit_branch 3 ht hlen (by decide)).1⟩

/-- C7 (as stated) fails: window `[0, 4)` of two-byte `CONTINUE` instructions,
tagged from 0. The block `L00000000` lifts 0 and 2, its last instruction has
flow `CONTINUE`, and the successor 4 passed to `lookup_basicblock` lies
outside the window: the run ends in the "unknown continue" exit. -/
theorem continue_past_window_end :
    tagged arch_cont unit_cont ∧
      (∀ pc, arch_cont.recompile_instr pc = (arch_cont.tag_instr pc).bytes) ∧
      cpu_recompile arch_cont 3 unit_cont "ret".toList jit_shell =
        recompile_result.unknown_continue 4
          { blocks := ["entry".toList, "ret".toList, "L00000000".toList, "dispatch".toList]
            switch_default := some "ret".toList
            cases := [(0, "L00000000".toList)]
            lifted := [("L00000000".toList, [0, 2])]
            links := []
            lookups := [0, 4] } ∧
      ¬ inwin unit_cont 4 :=
  ⟨tagged.tag (fresh_unit 0 4) unit_cont 3 0 (tagged.fresh 0 4 0 (by decide) (by decide)) (by decide),
    fun _ => rfl, by decide, by decide⟩

/-- C6 (failing input): the one-byte window at `2 ^ 60`, tagged from `2 ^ 60`.
The label of `2 ^ 60` has 17 characters and `snprintf` into `char label[17]`
drops the last one; the block name parses to `2 ^ 56`, so the lookup of the
entry fails and `cpu_recompile` ends in the "unknown rts target" exit. -/
theorem dispatch_truncated_label :
    cpu_tag arch_ret 2 (fresh_unit (2 ^ 60) (2 ^ 60 + 1)) (2 ^ 60) = some unit_high ∧
      create_label (2 ^ 60) = "L100000000000000".toList ∧
      strtol16 (create_label (2 ^ 60)).tail = 2 ^ 56 ∧
      cpu_recompile arch_ret 1 unit_high "ret".toList jit_shell =
        recompile_result.unknown_rts_target (2 ^ 60)
          { blocks := ["entry".toList, "ret".toList, "L100000000000000".toList,
              "dispatch".toList]
            switch_default := some "ret".toList
            cases := []
            lifted := []
            links := []
            lookups := [2 ^ 60] } := by
  decide

/-- The lifting loop leaves the blocks and the dispatch switch as they are and
never takes the "unknown rts target" exit. -/
theorem lift_blocks_frame (f : arch_func_t) (c : cpu_t) (fuel : Nat) :
    ∀ (names : List (List Char)) (jit : jit_t),
      (lift_blocks f c fuel names jit).jit.blocks = jit.blocks ∧
      (lift_blocks f c fuel names jit).jit.cases = jit.cases ∧
      (lift_blocks f c fuel names jit).jit.switch_default = jit.switch_default ∧
      ∀ pc j, lift_blocks f c fuel names jit ≠ recompile_result.unknown_rts_target pc j := by
  intro names
  induction names with
  | nil => intro jit; exact ⟨rfl, rfl, rfl, fun pc j h => by cases h⟩
  | cons name rest ih =>
    intro jit
    unfold lift_blocks
    split
    · exact ih jit
    · split
      · exact ⟨rfl, rfl, rfl, fun pc j h => by cases h⟩
      · exact ⟨rfl, rfl, rfl, fun pc j h => by cases h⟩
      · simp only
        split
        · split
          · exact ⟨rfl, rfl, rfl, fun pc j h => by cases h⟩
          · exact ih _
        · exact ih _

/-- The dispatch switch of the branch-forward program `BEQ +2; NOP; NOP; RTS`
tagged from 0: the entry is its only case. -/
theorem dispatch_branch_forward :
    (cpu_recompile arch_branch 3 unit_branch "ret".toList jit_shell).jit.cases =
      [(0, "L00000000".toList)] := by
  decide

/-- Dispatch cover for windows below `2 ^ 60`: with the tag array allocated,
`cpu_recompile` never takes the "unknown rts target" exit, the default edge of
the switch is `bb_ret`, and the cases are, in address order, the addresses of
the window tagged `ENTRY` or `AFTER_CALL`, each routed to the block that
`lookup_basicblock` finds for it, named by `create_basicblock` for that
address. -/
theorem dispatch_cover_below (f : arch_func_t) (c : cpu_t) (fuel : Nat) (bb_ret : List Char)
    (_hw : wf c) (harr : c.tagging_type ≠ none) (h60 : c.code_end ≤ 2 ^ 60) :
    (∀ pc j, cpu_recompile f fuel c bb_ret jit_shell ≠
        recompile_result.unknown_rts_target pc j) ∧
      (cpu_recompile f fuel c bb_ret jit_shell).jit.switch_default = some bb_ret ∧
      (cpu_recompile f fuel c bb_ret jit_shell).jit.cases =
        ((List.range' c.code_start (c.code_end - c.code_start)).filter (fun pc =>
          decide (get_tagging_type c pc &&& (TYPE_ENTRY ||| TYPE_AFTER_CALL) ≠ 0))).map
          (fun pc => (pc, create_label pc)) ∧
      ∀ pc target, (pc, target) ∈ (cpu_recompile f fuel c bb_ret jit_shell).jit.cases →
        lookup_basicblock (cpu_recompile f fuel c bb_ret jit_shell).jit.blocks pc =
          some target := by
  obtain ⟨hs, hc⟩ := blocks_after_create c jit_shell (by decide)
  have key := lift_blocks_frame f c fuel
  have hcases : (create_blocks c (List.range' c.code_start (c.code_end - c.code_start))
      jit_shell).cases = [] := by rw [create_blocks_spec]; rfl
  unfold cpu_recompile
  simp only
  rw [if_neg (fun h => harr (Option.isNone_iff_eq_none.1 h.1)),
    add_cases_spec c h60 _ _ (fun a ha => (mem_window c a).1 ha) hs hc]
  simp only
  refine ⟨(key _ _).2.2.2, (key _ _).2.2.1, ?_, ?_⟩
  · rw [(key _ _).2.1, hcases, List.nil_append]
  · intro pc target hmem
    rw [(key _ _).2.1, hcases, List.nil_append, List.mem_map] at hmem
    obtain ⟨a, ha, he⟩ := hmem
    cases he
    obtain ⟨hin, hp⟩ := mem_filter_window ha
    rw [(key _ _).1]
    exact lookup_inwin h60 hs hc hin
      (has_tag_mask (m := TYPE_ENTRY ||| TYPE_AFTER_CALL) (of_decide_eq_true hp) (by decide))

/-! ## Register sets -/

theorem drop_digits_scan_some (x : List Char) : ∀ n, n ≤ x.length →
    (∃ i, i < n ∧ isdigit (x.getD i 'a') = false) →
    ∃ m, m < n ∧ drop_digits_scan x n = some m ∧ isdigit (x.getD m 'a') = false := by
  intro n
  induction n with
  | zero => rintro _ ⟨i, hi, -⟩; omega
  | succ n ih =>
    intro hn hex
    unfold drop_digits_scan
    by_cases hd : isdigit (x.getD n 'a') = true
    · rw [if_pos hd]
      obtain ⟨i, hi, hx⟩ := hex
      have hin : i < n := by
        rcases Nat.lt_succ_iff_lt_or_eq.1 hi with h | h
        · exact h
        · subst h; rw [hd] at hx; cases hx
      obtain ⟨m, hm, hs, hmd⟩ := ih (by omega) ⟨i, hin, hx⟩
      exact ⟨m, by omega, hs, hmd⟩
    · rw [if_neg hd]
      exact ⟨n, by omega, rfl, by simpa using hd⟩

theorem has_nondigit_index {x : List Char} (h : has_nondigit x) :
    ∃ i, i < x.length ∧ isdigit (x.getD i 'a') = false := by
  obtain ⟨ch, hm, hd⟩ := h
  obtain ⟨i, hi, he⟩ := List.getElem_of_mem hm
  refine ⟨i, hi, ?_⟩
  rw [List.getD_eq_getElem?_getD, List.getElem?_eq_getElem hi]
  simpa [he] using hd

/-- On a name that is not all digits `drop_digits` stays inside the string and
returns a non-empty prefix that ends in a non-digit. -/
theorem drop_digits_some {x : List Char} (h : has_nondigit x) :
    ∃ y, drop_digits x = some y ∧ has_nondigit y ∧ y.length ≤ x.length := by
  have hne : x.length ≠ 0 := by
    obtain ⟨ch, hm, -⟩ := h
    intro h0
    rw [List.length_eq_zero] at h0
    rw [h0] at hm
    cases hm
  obtain ⟨m, hm, hs, hd⟩ := drop_digits_scan_some x x.length (Nat.le_refl _) (has_nondigit_index h)
  refine ⟨x.take (m + 1), ?_, ?_, ?_⟩
  · unfold drop_digits
    rw [if_neg hne, hs]
    rfl
  · refine ⟨x.getD m 'a', ?_, hd⟩
    rw [List.getD_eq_getElem?_getD, List.getElem?_eq_getElem hm]
    simp only [Option.getD_some]
    rw [List.mem_take_iff_getElem]
    exact ⟨m, by rw [Nat.lt_min]; omega, rfl⟩
  · rw [List.length_take]; omega

theorem dec_digits_ne_nil (k n : Nat) : dec_digits (k + 1) n ≠ [] := by
  unfold dec_digits
  split <;> simp

theorem print_long_ne_nil (i : Int) : print_long i ≠ [] := by
  unfold print_long
  split
  · simp
  · exact dec_digits_ne_nil 19 _

/-- On a name that is not all digits `inc_name` returns a longer name. -/
theorem inc_name_some {x : List Char} (h : has_nondigit x) :
    ∃ y, inc_name x = some y ∧ has_nondigit y ∧ x.length < y.length := by
  obtain ⟨b, hb, -, -⟩ := drop_digits_some h
  unfold inc_name
  rw [hb]
  simp only
  refine ⟨_, rfl, ?_, ?_⟩
  · obtain ⟨ch, hm, hd⟩ := h
    exact ⟨ch, List.mem_append_left _ hm, hd⟩
  · rw [List.length_append]
    have := List.length_pos.2 (print_long_ne_nil
      (if b.length < x.length then wrap_long ((atol (List.drop b.length x) : Int) + 1) else 1))
    omega

theorem countP_lt_of_witness {α : Type} (p q : α → Bool) : ∀ (l : List α) (a : α), a ∈ l →
    p a = true → q a = false → (∀ b, q b = true → p b = true) → l.countP q < l.countP p := by
  intro l
  induction l with
  | nil => intro a h; cases h
  | cons b rest ih =>
    intro a ha hp hq hpq
    have hle : rest.countP q ≤ rest.countP p := List.countP_mono_left (fun x _ => hpq x) 
    simp only [List.countP_cons]
    rcases List.mem_cons.1 ha with h | h
    · subst h
      simp [hp, hq]
      omega
    · have := ih a h hp hq hpq
      by_cases hqb : q b = true
      · simp [hqb, hpq b hqb]; omega
      · simp [hqb]; omega

/-- The renaming loop terminates with a name that is not taken. -/
theorem unique_name_some (ids : List (List Char)) : ∀ (fuel : Nat) (last : List Char),
    has_nondigit last → ids.countP (fun s => decide (last.length ≤ s.length)) < fuel →
    ∃ y, unique_name ids fuel last = some y ∧ y ∉ ids ∧ has_nondigit y := by
  intro fuel
  induction fuel with
  | zero => intro last _ h; omega
  | succ fuel ih =>
    intro last hl hfuel
    unfold unique_name
    by_cases hmem : last ∈ ids
    · rw [if_pos hmem]
      obtain ⟨y, hy, hyn, hlen⟩ := inc_name_some hl
      rw [hy]
      simp only
      apply ih y hyn
      have := countP_lt_of_witness (fun s => decide (last.length ≤ s.length))
        (fun s => decide (y.length ≤ s.length)) ids last hmem (by simp) (by simp; omega)
        (fun b hb => by simp at hb ⊢; omega)
      omega
    · rw [if_neg hmem]
      exact ⟨last, rfl, hmem, hl⟩

theorem group_from_head {α κ : Type} [DecidableEq κ] (key : α → κ) :
    ∀ (l cur : List α) (k : κ), ∃ g gs, group_from key cur k l = g :: gs ∧
      ∀ a ∈ cur, a ∈ g := by
  intro l
  induction l with
  | nil => intro cur k; exact ⟨cur, [], rfl, fun _ h => h⟩
  | cons a rest ih =>
    intro cur k
    unfold group_from
    by_cases h : key a = k
    · rw [if_pos h]
      obtain ⟨g, gs, hg, hm⟩ := ih (cur ++ [a]) k
      exact ⟨g, gs, hg, fun b hb => hm b (List.mem_append_left _ hb)⟩
    · rw [if_neg h]
      exact ⟨cur, _, rfl, fun _ h => h⟩

/-- The left-to-right grouping meets the spec. -/
theorem group_from_is_runs {α κ : Type} [DecidableEq κ] (key : α → κ) :
    ∀ (l cur : List α) (k : κ), cur ≠ [] → (∀ a ∈ cur, key a = k) →
      is_runs key (cur ++ l) (group_from key cur k l) := by
  intro l
  induction l with
  | nil =>
    intro cur k hne hk
    refine ⟨by simp [group_from], ?_, by simp [group_from]⟩
    intro g hg
    simp only [group_from, List.mem_singleton] at hg
    subst hg
    exact ⟨hne, fun a ha b hb => (hk a ha).trans (hk b hb).symm⟩
  | cons a rest ih =>
    intro cur k hne hk
    unfold group_from
    by_cases h : key a = k
    · rw [if_pos h]
      have := ih (cur ++ [a]) k (by simp) (fun b hb => by
        rcases List.mem_append.1 hb with hb | hb
        · exact hk b hb
        · rw [List.mem_singleton.1 hb]; exact h)
      simpa using this
    · rw [if_neg h]
      obtain ⟨h1, h2, h3⟩ := ih [a] (key a) (by simp) (fun b hb => by
        rw [List.mem_singleton.1 hb])
      obtain ⟨g, gs, hg, hm⟩ := group_from_head key rest [a] (key a)
      refine ⟨by simp [h1], ?_, ?_⟩
      · intro g2 hg2
        rcases List.mem_cons.1 hg2 with hg2 | hg2
        · subst hg2
          exact ⟨hne, fun x hx y hy => (hk x hx).trans (hk y hy).symm⟩
        · exact h2 g2 hg2
      · rw [hg] at h2 h3 ⊢
        rw [List.chain'_cons]
        refine ⟨?_, h3⟩
        intro x hx y hy
        have hya : key y = key a :=
          (h2 g (List.mem_cons_self _ _)).2 y hy a (hm a (List.mem_singleton_self a))
        rw [hk x hx, hya]
        exact fun he => h he.symm

theorem is_pseudo_reg_some {r : register_info} (h : has_nondigit r.name) :
    ∃ b, is_pseudo_reg r = some b := by
  unfold is_pseudo_reg
  obtain ⟨ch, hm, -⟩ := h
  cases hl : r.name.getLast? with
  | none =>
    rw [List.getLast?_eq_none_iff] at hl
    rw [hl] at hm
    cases hm
  | some c => exact ⟨_, rfl⟩

theorem push_regset_some {fuel : Nat} {st : regsets_state} (ho : open_run st)
    (hfuel : st.regset_id.length < fuel) :
    ∃ nm, push_regset fuel st = some { st with
      last := nm
      regsets := st.regsets ++ [⟨nm, st.last_type, st.regs_in_set⟩]
      regset_id := nm :: st.regset_id } := by
  obtain ⟨nm, hnm, -, -⟩ := unique_name_some st.regset_id fuel st.last ho.1
    (Nat.lt_of_le_of_lt (List.countP_le_length _) hfuel)
  unfold push_regset
  rw [hnm]
  exact ⟨nm, rfl⟩

theorem sets_typed_append {sets : List regset} {s : regset} (h : sets_typed sets)
    (hs : ∀ r ∈ s.regs, r.type = some s.type) : sets_typed (sets ++ [s]) := by
  intro t ht
  rcases List.mem_append.1 ht with ht | ht
  · exact h t ht
  · rw [List.mem_singleton.1 ht]; exact hs

/-- The loop of `make_regsets` with a set open: it ends, and the closed sets
followed by the open one are the left-to-right grouping of the registers it
did not ignore. -/
theorem make_regsets_loop_open (fuel : Nat) : ∀ (l : List register_info) (st : regsets_state),
    (∀ r ∈ l, reg_ok r) → open_run st → st.regset_id.length + l.length < fuel →
    sets_typed st.regsets →
    ∃ st2, make_regsets_loop fuel l st = some st2 ∧ open_run st2 ∧
      st2.regset_id.length < fuel ∧ sets_typed st2.regsets ∧
      st2.regsets.map (·.regs) ++ [st2.regs_in_set] =
        st.regsets.map (·.regs) ++
          group_from regset_key st.regs_in_set (some st.last, some st.last_type)
            (non_pseudo l) := by
  intro l
  induction l with
  | nil =>
    intro st _ ho hf ht
    exact ⟨st, rfl, ho, by simpa using hf, ht, by simp [non_pseudo, group_from]⟩
  | cons r rest ih =>
    intro st hok ho hf ht
    have hrest : ∀ r ∈ rest, reg_ok r := fun r h => hok r (List.mem_cons_of_mem _ h)
    have hr := hok r (List.mem_cons_self _ _)
    have hlast : st.last ≠ [] := by
      obtain ⟨ch, hm, -⟩ := ho.1
      intro h0; rw [h0] at hm; cases hm
    simp only [List.length_cons] at hf
    obtain ⟨b, hb⟩ := is_pseudo_reg_some hr.1
    unfold make_regsets_loop
    rw [hb]
    cases b with
    | true =>
      simp only
      obtain ⟨st2, h1, h2, h3, h4, h5⟩ := ih st hrest ho (by omega) ht
      refine ⟨st2, h1, h2, h3, h4, ?_⟩
      rw [h5]
      simp [non_pseudo, List.filter_cons, hb]
    | false =>
      simp only
      obtain ⟨x, hx, hxn, -⟩ := drop_digits_some hr.1
      obtain ⟨t, htype⟩ : ∃ t, r.type = some t := by
        cases h : r.type with
        | none => exact absurd h (hr.2 hb)
        | some t => exact ⟨t, rfl⟩
      rw [hx, htype]
      simp only [Option.getD_some]
      have hnp : non_pseudo (r :: rest) = r :: non_pseudo rest := by
        simp [non_pseudo, List.filter_cons, hb]
      have hkey : regset_key r = (some x, some t) := by
        unfold regset_key; rw [hx, htype]
      -- the branch that closes the open set and opens the next one on `r`
      have hfresh : (x ≠ st.last ∨ t ≠ st.last_type) →
          ∃ st2, (if st.last ≠ [] then
              match push_regset fuel st with
              | none => none
              | some st1 => make_regsets_loop fuel rest
                  { st1 with last := x, last_type := t, regs_in_set := [r] }
            else make_regsets_loop fuel rest
                { st with last := x, last_type := t, regs_in_set := [r] }) = some st2 ∧
            open_run st2 ∧ st2.regset_id.length < fuel ∧ sets_typed st2.regsets ∧
            st2.regsets.map (·.regs) ++ [st2.regs_in_set] =
              st.regsets.map (·.regs) ++
                group_from regset_key st.regs_in_set (some st.last, some st.last_type)
                  (non_pseudo (r :: rest)) := by
        intro hne
        rw [if_pos hlast]
        obtain ⟨nm, hpush⟩ := push_regset_some ho (by omega : st.regset_id.length < fuel)
        rw [hpush]
        simp only
        obtain ⟨st2, h1, h2, h3, h4, h5⟩ := ih
          ⟨nm :: st.regset_id, x, t, [r],
            st.regsets ++ [⟨nm, st.last_type, st.regs_in_set⟩]⟩ hrest
          ⟨hxn, by simp, fun r2 h2 => by
            rw [List.mem_singleton.1 h2]; exact ⟨hx, htype⟩⟩
          (by simp only [List.length_cons]; omega)
          (sets_typed_append ht (fun r2 h2 => (ho.2.2 r2 h2).2))
        refine ⟨st2, h1, h2, h3, h4, ?_⟩
        rw [h5, hnp]
        have hk : ¬ ((some x, some t) = (some st.last, some st.last_type)) := by
          intro he
          simp only [Prod.mk.injEq, Option.some.injEq] at he
          rcases hne with h | h
          · exact h he.1
          · exact h he.2
        simp only [group_from, hkey, if_neg hk, List.map_append, List.map_cons, List.map_nil,
          List.append_assoc, List.singleton_append]
      by_cases hc1 : st.last = [] ∨ x ≠ st.last
      · rw [if_pos hc1]
        exact hfresh (Or.inl (hc1.resolve_left hlast))
      · rw [if_neg hc1]
        by_cases hc2 : t ≠ st.last_type
        · rw [if_pos hc2]
          exact hfresh (Or.inr hc2)
        · rw [if_neg hc2]
          have hxl : x = st.last := by
            by_contra h; exact hc1 (Or.inr h)
          have htl : t = st.last_type := not_not.mp hc2
          obtain ⟨st2, h1, h2, h3, h4, h5⟩ := ih
            ⟨st.regset_id, st.last, st.last_type, st.regs_in_set ++ [r], st.regsets⟩ hrest
            ⟨ho.1, by simp, fun r2 h2 => by
              rcases List.mem_append.1 h2 with h | h
              · exact ho.2.2 r2 h
              · rw [List.mem_singleton.1 h, hx, htype, hxl, htl]; exact ⟨rfl, rfl⟩⟩
            (by simp only; omega) ht
          refine ⟨st2, h1, h2, h3, h4, ?_⟩
          rw [h5, hnp]
          have hk : (some x, some t) = (some st.last, some st.last_type) := by
            rw [hxl, htl]
          simp only [group_from, hkey, if_pos hk]

/-- The loop of `make_regsets` from its initial state: either every register
is ignored, or it ends with a set open and the grouping of the others. -/
theorem make_regsets_loop_init (fuel : Nat) : ∀ (l : List register_info),
    (∀ r ∈ l, reg_ok r) → l.length < fuel →
    (non_pseudo l = [] ∧
      make_regsets_loop fuel l ⟨[], [], [], [], []⟩ = some ⟨[], [], [], [], []⟩) ∨
    (∃ r rest st2, non_pseudo l = r :: rest ∧
      make_regsets_loop fuel l ⟨[], [], [], [], []⟩ = some st2 ∧ open_run st2 ∧
      st2.regset_id.length < fuel ∧ sets_typed st2.regsets ∧
      st2.regsets.map (·.regs) ++ [st2.regs_in_set] =
        group_from regset_key [r] (regset_key r) rest) := by
  intro l
  induction l with
  | nil => intro _ _; exact Or.inl ⟨rfl, rfl⟩
  | cons r rest ih =>
    intro hok hf
    have hrest : ∀ r ∈ rest, reg_ok r := fun r h => hok r (List.mem_cons_of_mem _ h)
    have hr := hok r (List.mem_cons_self _ _)
    simp only [List.length_cons] at hf
    obtain ⟨b, hb⟩ := is_pseudo_reg_some hr.1
    unfold make_regsets_loop
    rw [hb]
    cases b with
    | true =>
      simp only
      have hnp : non_pseudo (r :: rest) = non_pseudo rest := by
        simp [non_pseudo, List.filter_cons, hb]
      rw [hnp]
      exact ih hrest (by omega)
    | false =>
      simp only
      right
      obtain ⟨x, hx, hxn, -⟩ := drop_digits_some hr.1
      obtain ⟨t, htype⟩ : ∃ t, r.type = some t := by
        cases h : r.type with
        | none => exact absurd h (hr.2 hb)
        | some t => exact ⟨t, rfl⟩
      rw [hx, htype]
      simp only [Option.getD_some, true_or, if_true, ne_eq, not_true_eq_false, if_false]
      obtain ⟨st2, h1, h2, h3, h4, h5⟩ := make_regsets_loop_open fuel rest
        ⟨[], x, t, [r], []⟩ hrest
        ⟨hxn, by simp, fun r2 h2 => by rw [List.mem_singleton.1 h2]; exact ⟨hx, htype⟩⟩
        (by simp only [List.length_nil]; omega) (fun s hs => by cases hs)
      refine ⟨r, non_pseudo rest, st2, ?_, h1, h2, h3, h4, ?_⟩
      · simp [non_pseudo, List.filter_cons, hb]
      · rw [h5]
        simp [regset_key, hx, htype]

/-- On registers that meet `reg_ok`, with fuel above their number,
`make_regsets` returns, and its sets are the runs of the registers it does
not ignore, each set with the declared type of its members. -/
theorem make_regsets_runs (fuel : Nat) (regs : List register_info)
    (hok : ∀ r ∈ regs, reg_ok r) (hf : regs.length < fuel) :
    ∃ sets, make_regsets fuel regs = some sets ∧
      is_runs regset_key (non_pseudo regs) (sets.map (·.regs)) ∧ sets_typed sets := by
  unfold make_regsets
  rcases make_regsets_loop_init fuel regs hok hf with ⟨h1, h2⟩ | ⟨r, rest, st2, h1, h2, h3, h4, h5, h6⟩
  · rw [h2, h1]
    simp only [ne_eq, not_true_eq_false, if_false]
    exact ⟨[], rfl, by simp [is_runs], fun s hs => by cases hs⟩
  · rw [h2, h1]
    simp only
    rw [if_pos h3.2.1]
    obtain ⟨nm, hpush⟩ := push_regset_some h3 h4
    rw [hpush]
    refine ⟨_, rfl, ?_, sets_typed_append h5 (fun r2 h2 => (h3.2.2 r2 h2).2)⟩
    simp only [List.map_append, List.map_cons, List.map_nil]
    rw [h6]
    exact group_from_is_runs regset_key rest [r] (regset_key r) (by simp)
      (fun a ha => by rw [List.mem_singleton.1 ha])

/-- C8: Natural-order grouping. `make_regsets` returns the non-pseudo registers
cut, in order, into maximal runs of consecutive entries with the same
stripped-digit prefix and the same declared type, one set per run; on
`R1,R2,R10,R11,SP` it yields `R = [R1,R2,R10,R11]` and `SP = [SP]`, and on
`FLAGS,PC,R0,R1,R2,R3` the singletons `FLAGS` and `PC` and `R` of 4. -/
theorem natural_order_grouping :
    (∀ (fuel : Nat) (regs : List register_info), (∀ r ∈ regs, reg_ok r) →
      regs.length < fuel →
      ∃ sets, make_regsets fuel regs = some sets ∧
        is_runs regset_key (non_pseudo regs) (sets.map (·.regs)) ∧ sets_typed sets) ∧
    make_regsets 6 [mk_reg "R1" "i32", mk_reg "R2" "i32", mk_reg "R10" "i32",
        mk_reg "R11" "i32", mk_reg "SP" "i32"] =
      some [⟨"R".toList, "i32".toList, [mk_reg "R1" "i32", mk_reg "R2" "i32",
          mk_reg "R10" "i32", mk_reg "R11" "i32"]⟩,
        ⟨"SP".toList, "i32".toList, [mk_reg "SP" "i32"]⟩] ∧
    make_regsets 7 [mk_reg "FLAGS" "i32", mk_reg "PC" "i32", mk_reg "R0" "i32",
        mk_reg "R1" "i32", mk_reg "R2" "i32", mk_reg "R3" "i32"] =
      some [⟨"FLAGS".toList, "i32".toList, [mk_reg "FLAGS" "i32"]⟩,
        ⟨"PC".toList, "i32".toList, [mk_reg "PC" "i32"]⟩,
        ⟨"R".toList, "i32".toList, [mk_reg "R0" "i32", mk_reg "R1" "i32",
          mk_reg "R2" "i32", mk_reg "R3" "i32"]⟩] :=
  ⟨make_regsets_runs, by decide, by decide⟩

theorem natural_order_grouping_witness :
    (∀ r ∈ [mk_reg "%C" "i1", mk_reg "A" "i8", mk_reg "X0" "i8", mk_reg "X1" "i8",
        mk_reg "X2" "i16"], reg_ok r) ∧
    ∃ sets, make_regsets 6 [mk_reg "%C" "i1", mk_reg "A" "i8", mk_reg "X0" "i8",
        mk_reg "X1" "i8", mk_reg "X2" "i16"] = some sets ∧
      is_runs regset_key (non_pseudo [mk_reg "%C" "i1", mk_reg "A" "i8", mk_reg "X0" "i8",
        mk_reg "X1" "i8", mk_reg "X2" "i16"]) (sets.map (·.regs)) ∧ sets_typed sets :=
  ⟨by decide, natural_order_grouping.1 6 _ (by decide) (by decide)⟩

/-! ## Storage width -/

/-- C9 (amended): Storage-width rounding for widths up to `2 ^ 64 - 64`. The
width `n` that `cg_dump(def)` rounds is the declared width of `def` when it is
not a sub-register and the declared width of its master register when it is;
the storage width it computes is at least `n` and is the least of 8, 16, 32,
64 and the multiples of 64 above 64 that is at least `n`. -/
theorem storage_width_rounding (st : builder_state) (d : Nat) (rd : register_def) (n : Nat)
    (hd : st.heap[d]? = some rd) (hsel : rounds_width st rd n) (h : n ≤ 2 ^ 64 - 64) :
    ∃ w, cg_dump_nbits st d = some w ∧ n ≤ w ∧ storage_width w ∧
      (∀ v, storage_width v → n ≤ v → w ≤ v) ∧ (64 < n → w = 64 * ((n + 63) / 64)) := by
  have hsel2 : (if is_sub_register rd = true then
        ((get_master_register rd).bind fun m => st.heap[m]?).map fun md => md.type.bits
      else some rd.type.bits) = some n := by
    rcases hsel with ⟨h1, h2⟩ | ⟨h1, m, md, h2, h3, h4⟩
    · rw [h1, h2]; rfl
    · rw [h1, h2]
      show Option.map (fun md => md.type.bits) (st.heap[m]?) = some n
      rw [h3]
      exact congrArg some h4
  have hform : cg_dump_nbits st d = some
      (if n ≤ 8 then 8 else if n ≤ 16 then 16 else if n ≤ 32 then 32
        else if n ≤ 64 then 64 else (n + 63) / 64 * 64) := by
    unfold cg_dump_nbits
    rw [hd]
    simp only
    rw [hsel2]
    simp only [Option.map_some', SIZE_MOD]
    have h1 : (n + 63) % 2 ^ 64 = n + 63 := Nat.mod_eq_of_lt (by omega)
    have h2 : (n + 63) / 64 * 64 % 2 ^ 64 = (n + 63) / 64 * 64 :=
      Nat.mod_eq_of_lt (by omega)
    rw [h1, h2]
  refine ⟨_, hform, ?_, ?_, ?_, ?_⟩
  · split_ifs <;> omega
  · unfold storage_width
    split_ifs <;> omega
  · intro v hv hn
    unfold storage_width at hv
    split_ifs <;> omega
  · intro h64
    split_ifs <;> omega

theorem storage_width_rounding_witness :
    state_eax.heap[0]? = some ⟨none, "EAX".toList, ⟨32, 0⟩, def_kind.top, 0, 32, none, []⟩ ∧
      (∃ w, cg_dump_nbits state_eax 0 = some w ∧ 32 ≤ w ∧ storage_width w ∧
        (∀ v, storage_width v → 32 ≤ v → w ≤ v) ∧ (64 < 32 → w = 64 * ((32 + 63) / 64))) ∧
      (∃ w, cg_dump_nbits state_eax 1 = some w ∧ 32 ≤ w ∧ storage_width w ∧
        (∀ v, storage_width v → 32 ≤ v → w ≤ v) ∧ (64 < 32 → w = 64 * ((32 + 63) / 64))) ∧
      cg_dump_nbits ⟨[⟨none, "Q".toList, ⟨65, 0⟩, def_kind.top, 0, 65, none, []⟩], []⟩ 0 =
        some 128 :=
  ⟨by decide,
    storage_width_rounding state_eax 0
      ⟨none, "EAX".toList, ⟨32, 0⟩, def_kind.top, 0, 32, none, []⟩ 32 (by decide)
      (Or.inl ⟨rfl, rfl⟩) (by decide),
    storage_width_rounding state_eax 1
      ⟨some 0, "AX".toList, ⟨16, 0⟩, def_kind.sub, 0, 16, none, []⟩ 32 (by decide)
      (Or.inr ⟨rfl, 0, ⟨none, "EAX".toList, ⟨32, 0⟩, def_kind.top, 0, 32, none, []⟩,
        rfl, by decide, rfl⟩) (by decide),
    by decide⟩

/-- C9 (as stated) fails: the 32-bit register `EAX` with the plain 16-bit
sub-register `AX` (address 31 of the sample environment). `analyze_top`
creates both definitions; for `AX`, a sub-register, `cg_dump` rounds the width
of the master register `EAX` and computes 32, where 16 is a storage width and
is at least the declared width 16. For a register of declared width
`2 ^ 64 - 1` the sum `nbits + 63` wraps and the computed storage width is 0. -/
theorem sub_register_takes_master_width :
    analyze_top sample_env 1 builder_init
        { name := "EAX".toList, type := some "i32".toList, subs := [31] } =
        outcome.ret state_eax true ∧
      state_eax.heap[1]? =
        some ⟨some 0, "AX".toList, ⟨16, 0⟩, def_kind.sub, 0, 16, none, []⟩ ∧
      cg_dump_nbits state_eax 1 = some 32 ∧
      (storage_width 16 ∧ 16 ≤ 16 ∧ ¬ 32 ≤ 16) ∧
      cg_dump_nbits
          ⟨[⟨none, "Q".toList, ⟨2 ^ 64 - 1, 0⟩, def_kind.top, 0, 2 ^ 64 - 1, none, []⟩], []⟩ 0 =
        some 0 := by
  refine ⟨by decide, by decide, by decide, ⟨Or.inr (Or.inl rfl), by decide, by decide⟩, ?_⟩
  decide

/-! ## Provenance of the marks -/

/-- A mark that shares no bit with `m` does not create `m`. -/
theorem tag_of_or {c : cpu_t} {a b t m : Nat} (ht : t &&& m = 0)
    (h : has_tag (get_tagging_type (or_tagging_type c a t) b) m) :
    has_tag (get_tagging_type c b) m := by
  rw [get_or] at h
  split at h
  · exact has_tag_of_or h ht
  · exact h

theorem explored_mono {c c2 : cpu_t} (he : ext c c2) {P : Nat → Prop}
    (h : ∃ a, inwin c a ∧ has_tag (get_tagging_type c a) TYPE_CODE ∧ P a) :
    ∃ a, inwin c2 a ∧ has_tag (get_tagging_type c2 a) TYPE_CODE ∧ P a := by
  obtain ⟨a, h1, h2, h3⟩ := h
  exact ⟨a, (inwin_ext he a).2 h1, has_tag_mono (he.le a) h2, h3⟩

theorem targets_explained_of {f : arch_func_t} {c c2 : cpu_t} (he : ext c c2)
    (hb : ∀ b, inwin c b → has_tag (get_tagging_type c2 b) TYPE_CODE_TARGET →
      has_tag (get_tagging_type c b) TYPE_CODE_TARGET)
    (h : targets_explained f c) : targets_explained f c2 := by
  intro b hin hct
  have hin0 := (inwin_ext he b).1 hin
  rcases h b hin0 (hb b hin0 hct) with h1 | h1
  · exact Or.inl (has_tag_mono (he.le b) h1)
  · exact Or.inr (explored_mono he h1)

theorem code_explained_of {f : arch_func_t} {c c2 : cpu_t} (he : ext c c2)
    (hb : ∀ b, inwin c b → has_tag (get_tagging_type c2 b) TYPE_CODE →
      has_tag (get_tagging_type c b) TYPE_CODE)
    (h : code_explained f c) : code_explained f c2 := by
  intro b hin hct
  have hin0 := (inwin_ext he b).1 hin
  rcases h b hin0 (hb b hin0 hct) with h1 | h1
  · exact Or.inl (has_tag_mono (he.le b) h1)
  · exact Or.inr (explored_mono he h1)

theorem targets_explained_or {f : arch_func_t} {c : cpu_t} (b : Nat) {t : Nat}
    (ht : t &&& TYPE_CODE_TARGET = 0) (h : targets_explained f c) :
    targets_explained f (or_tagging_type c b t) :=
  targets_explained_of (ext_or c b t) (fun _ _ hct => tag_of_or ht hct) h

theorem code_explained_or {f : arch_func_t} {c : cpu_t} (b : Nat) {t : Nat}
    (ht : t &&& TYPE_CODE = 0) (h : code_explained f c) :
    code_explained f (or_tagging_type c b t) :=
  code_explained_of (ext_or c b t) (fun _ _ hct => tag_of_or ht hct) h

theorem targets_explained_enter {f : arch_func_t} {c : cpu_t} (pc : Nat)
    (h : targets_explained f c) : targets_explained f (enter c pc) := by
  refine targets_explained_of (ext_enter c pc) ?_ h
  intro b _ hct
  unfold enter at hct
  rw [get_log] at hct
  have := tag_of_or (m := TYPE_CODE_TARGET) (by decide) hct
  rwa [get_log] at this

/-- A `TYPE_CODE_TARGET` mark on an address that is an entry or a static
target keeps the marks explained. -/
theorem targets_explained_target {f : arch_func_t} {c : cpu_t} {b0 : Nat}
    (hj : inwin c b0 → has_tag (get_tagging_type c b0) TYPE_ENTRY ∨
      ∃ a, inwin c a ∧ has_tag (get_tagging_type c a) TYPE_CODE ∧ direct_target f a b0)
    (h : targets_explained f c) :
    targets_explained f (or_tagging_type c b0 TYPE_CODE_TARGET) := by
  have he := ext_or c b0 TYPE_CODE_TARGET
  intro b hin hct
  have hin0 := (inwin_ext he b).1 hin
  by_cases hb : b0 = b
  · subst hb
    rcases hj hin0 with h1 | h1
    · exact Or.inl (has_tag_mono (he.le _) h1)
    · exact Or.inr (explored_mono he h1)
  · rw [get_or_other c _ hin0.1 hb] at hct
    rcases h b hin0 hct with h1 | h1
    · exact Or.inl (has_tag_mono (he.le b) h1)
    · exact Or.inr (explored_mono he h1)

/-- The `TYPE_CODE` mark of the loop on an address that is a target or a
`pc+len` keeps the marks explained. -/
theorem code_explained_enter {f : arch_func_t} {c : cpu_t} {pc : Nat}
    (hj : inwin c pc → has_tag (get_tagging_type c pc) TYPE_CODE_TARGET ∨
      ∃ a, inwin c a ∧ has_tag (get_tagging_type c a) TYPE_CODE ∧ falls_to f a pc)
    (h : code_explained f c) : code_explained f (enter c pc) := by
  have he := ext_enter c pc
  intro b hin hc
  have hin0 := (inwin_ext he b).1 hin
  rcases code_of_enter hin0 hc with h1 | h1
  · subst h1
    rcases hj hin0 with h2 | h2
    · exact Or.inl (has_tag_mono (he.le _) h2)
    · exact Or.inr (explored_mono he h2)
  · rcases h b hin0 h1 with h2 | h2
    · exact Or.inl (has_tag_mono (he.le b) h2)
    · exact Or.inr (explored_mono he h2)

/-- An address of a window that ends below `2 ^ 64` is not the sentinel. -/
theorem inwin_ne_none {c : cpu_t} (hce : c.code_end < ADDR_MOD) {b : Nat} (h : inwin c b) :
    b ≠ NEW_PC_NONE := by
  unfold inwin at h
  unfold NEW_PC_NONE
  omega

theorem explored_at {c s : cpu_t} {pc : Nat} (ha : alloc_ok c) (hw : inwin c pc)
    (he : ext (enter c pc) s) :
    inwin s pc ∧ has_tag (get_tagging_type s pc) TYPE_CODE :=
  ⟨(inwin_ext (ext_trans (ext_enter c pc) he) pc).2 hw,
    has_tag_mono (he.le pc) (enter_code ha hw)⟩

theorem entry_explained_target {f : arch_func_t} {c : cpu_t} (ha : alloc_ok c) (b : Nat) :
    entry_explained f (or_tagging_type c b TYPE_CODE_TARGET) b := by
  intro hin
  have hin0 := (inwin_ext (ext_or c b TYPE_CODE_TARGET) b).1 hin
  left
  rw [get_or_self ha hin0]
  exact has_tag_or _ (by decide)

/-- A completed walk keeps the marks explained. -/
theorem walk_explained {f : arch_func_t} {c c2 : cpu_t} {pc : Nat} (h : walk f c pc c2) :
    alloc_ok c → c.code_end < ADDR_MOD → targets_explained f c → code_explained f c →
    entry_explained f c pc → targets_explained f c2 ∧ code_explained f c2 := by
  induction h with
  | outside _ => intro _ _ hT hC _; exact ⟨hT, hC⟩
  | @seen c pc _ _ =>
    intro _ _ hT hC _
    exact ⟨targets_explained_of (ext_log _ _) (fun b _ h => by rwa [get_log] at h) hT,
      code_explained_of (ext_log _ _) (fun b _ h => by rwa [get_log] at h) hC⟩
  | @stop c pc _ _ _ =>
    intro _ _ hT hC hj
    exact ⟨targets_explained_enter pc hT, code_explained_enter hj hC⟩
  | @jump c c2 pc h1 _ h3 _ ih =>
    intro ha hce hT hC hj
    have ha0 := alloc_ok_ext (ext_enter c pc) ha
    have he1 := ext_or (enter c pc) (f.tag_instr pc).new_pc TYPE_CODE_TARGET
    have hce0 : (enter c pc).code_end < ADDR_MOD := by rw [(ext_enter c pc).ce]; exact hce
    refine ih (alloc_ok_ext he1 ha0) (by rw [he1.ce]; exact hce0) ?_
      (code_explained_or _ (by decide) (code_explained_enter hj hC))
      (entry_explained_target ha0 _)
    refine targets_explained_target (fun hin => Or.inr ⟨pc, ?_⟩) (targets_explained_enter pc hT)
    have := explored_at ha h1 (ext_refl _)
    exact ⟨this.1, this.2, rfl, inwin_ne_none hce0 hin, Or.inl h3⟩
  | @call_direct c c2 c3 pc h1 _ h3 _ h5 _ ih1 ih2 =>
    intro ha hce hT hC hj
    have ha0 := alloc_ok_ext (ext_enter c pc) ha
    have hce0 : (enter c pc).code_end < ADDR_MOD := by rw [(ext_enter c pc).ce]; exact hce
    have he1 := ext_or (enter c pc) (addr_add pc (f.tag_instr pc).bytes) TYPE_AFTER_CALL
    have ha1 := alloc_ok_ext he1 ha0
    have hce1 : (or_tagging_type (enter c pc) (addr_add pc (f.tag_instr pc).bytes)
        TYPE_AFTER_CALL).code_end < ADDR_MOD := by rw [he1.ce]; exact hce0
    have he2 := ext_or (or_tagging_type (enter c pc) (addr_add pc (f.tag_instr pc).bytes)
        TYPE_AFTER_CALL) (f.tag_instr pc).new_pc TYPE_CODE_TARGET
    have ha2 := alloc_ok_ext he2 ha1
    have he3 := ext_trans (ext_trans he1 he2) (walk_ext h5)
    have r1 := ih1 ha2 (by rw [he2.ce]; exact hce1)
      (targets_explained_target (fun hin => Or.inr ⟨pc, by
          have := explored_at ha h1 he1
          exact ⟨this.1, this.2, rfl, inwin_ne_none hce1 hin, Or.inr (Or.inl h3)⟩⟩)
        (targets_explained_or _ (by decide) (targets_explained_enter pc hT)))
      (code_explained_or _ (by decide)
        (code_explained_or _ (by decide) (code_explained_enter hj hC)))
      (entry_explained_target ha1 _)
    refine ih2 (alloc_ok_ext (walk_ext h5) ha2) (by rw [he3.ce]; exact hce0) r1.1 r1.2 ?_
    intro _
    have := explored_at ha h1 he3
    exact Or.inr ⟨pc, this.1, this.2, rfl, Or.inr (Or.inl h3)⟩
  | @call_indirect c c2 pc h1 _ h3 _ _ ih =>
    intro ha hce hT hC hj
    have ha0 := alloc_ok_ext (ext_enter c pc) ha
    have hce0 : (enter c pc).code_end < ADDR_MOD := by rw [(ext_enter c pc).ce]; exact hce
    have he1 := ext_or (enter c pc) (addr_add pc (f.tag_instr pc).bytes) TYPE_AFTER_CALL
    refine ih (alloc_ok_ext he1 ha0) (by rw [he1.ce]; exact hce0)
      (targets_explained_or _ (by decide) (targets_explained_enter pc hT))
      (code_explained_or _ (by decide) (code_explained_enter hj hC)) ?_
    intro _
    have := explored_at ha h1 he1
    exact Or.inr ⟨pc, this.1, this.2, rfl, Or.inr (Or.inl h3)⟩
  | @branch c c2 c3 pc h1 _ h3 h4 _ ih1 ih2 =>
    intro ha hce hT hC hj
    have ha0 := alloc_ok_ext (ext_enter c pc) ha
    have hce0 : (enter c pc).code_end < ADDR_MOD := by rw [(ext_enter c pc).ce]; exact hce
    have he1 := ext_or (enter c pc) (f.tag_instr pc).new_pc TYPE_CODE_TARGET
    have ha1 := alloc_ok_ext he1 ha0
    have he2 := ext_trans he1 (walk_ext h4)
    have ha2 := alloc_ok_ext (walk_ext h4) ha1
    have he3 := ext_trans he2 (ext_or c2 (addr_add pc (f.tag_instr pc).bytes) TYPE_AFTER_BRANCH)
    have r1 := ih1 ha1 (by rw [he1.ce]; exact hce0)
      (targets_explained_target (fun hin => Or.inr ⟨pc, by
          have := explored_at ha h1 (ext_refl _)
          exact ⟨this.1, this.2, rfl, inwin_ne_none hce0 hin, Or.inr (Or.inr h3)⟩⟩)
        (targets_explained_enter pc hT))
      (code_explained_or _ (by decide) (code_explained_enter hj hC))
      (entry_explained_target ha0 _)
    refine ih2 (alloc_ok_ext (ext_or _ _ _) ha2) (by rw [he3.ce]; exact hce0)
      (targets_explained_or _ (by decide) r1.1) (code_explained_or _ (by decide) r1.2) ?_
    intro _
    have := explored_at ha h1 he3
    exact Or.inr ⟨pc, this.1, this.2, rfl, Or.inr (Or.inr h3)⟩
  | @fallthrough c c2 pc h1 _ h3 _ ih =>
    intro ha hce hT hC hj
    have ha0 := alloc_ok_ext (ext_enter c pc) ha
    have hce0 : (enter c pc).code_end < ADDR_MOD := by rw [(ext_enter c pc).ce]; exact hce
    refine ih ha0 hce0 (targets_explained_enter pc hT) (code_explained_enter hj hC) ?_
    intro _
    have := explored_at ha h1 (ext_refl _)
    exact Or.inr ⟨pc, this.1, this.2, rfl, Or.inl h3⟩

theorem targets_explained_base {f : arch_func_t} {c : cpu_t} (h : targets_explained f c) :
    targets_explained f (base c) := by
  intro b hin hct
  simp only [get_base, inwin_base] at hin hct ⊢
  exact h b hin hct

theorem code_explained_base {f : arch_func_t} {c : cpu_t} (h : code_explained f c) :
    code_explained f (base c) := by
  intro b hin hct
  simp only [get_base, inwin_base] at hin hct ⊢
  exact h b hin hct

theorem cpu_tag_explained {f : arch_func_t} {fuel : Nat} {c c2 : cpu_t} {pc : Nat}
    (h : cpu_tag f fuel c pc = some c2) (hw : wf c) (hT : targets_explained f c)
    (hC : code_explained f c) : targets_explained f c2 ∧ code_explained f c2 := by
  rcases cpu_tag_cases h with ⟨-, h1⟩ | ⟨-, h1⟩
  · rw [h1]; exact ⟨hT, hC⟩
  · have ha := alloc_ok_base hw
    have he1 := ext_or (base c) pc TYPE_ENTRY
    have ha1 := alloc_ok_ext he1 ha
    have he2 := ext_or (or_tagging_type (base c) pc TYPE_ENTRY) pc TYPE_CODE_TARGET
    refine walk_explained h1 (alloc_ok_ext he2 ha1) ?_ ?_
      (code_explained_or _ (by decide) (code_explained_or _ (by decide) (code_explained_base hC)))
      (entry_explained_target ha1 pc)
    · rw [he2.ce, he1.ce, base_code_end]; exact hw.2.1
    · refine targets_explained_target (fun hin => Or.inl ?_)
        (targets_explained_or _ (by decide) (targets_explained_base hT))
      rw [get_or_self ha ((inwin_ext he1 pc).1 hin)]
      exact has_tag_or _ (by decide)

/-- In every unit reached from a fresh one the marks are explained. -/
theorem tagged_explained {f : arch_func_t} {c : cpu_t} (h : tagged f c) :
    targets_explained f c ∧ code_explained f c := by
  induction h with
  | fresh cs ce fl hle hce =>
    exact ⟨fun a _ hc => (hc (Nat.zero_and _)).elim, fun a _ hc => (hc (Nat.zero_and _)).elim⟩
  | tag c c2 fuel pc h1 h2 ih => exact cpu_tag_explained h2 (tagged_inv h1).1 ih.1 ih.2
  | set_flags fl _ ih => exact ih

/-- C11: CALL marking. In every unit reached from a fresh one by completed
`cpu_tag` calls, an explored `CALL` at `a` has `TYPE_AFTER_CALL` and
`TYPE_CODE` on `a+len` when that is inside the window, direct or indirect,
and `TYPE_CODE_TARGET` and `TYPE_CODE` on its static target when there is one
inside the window. No mark stems from an absent target: every
`TYPE_CODE_TARGET` of the window is on an entry or on the `new_pc`, other than
the sentinel, of an explored `JUMP`, `CALL` or `BRANCH`, and every `TYPE_CODE`
of the window is on a `TYPE_CODE_TARGET` address or on the `pc+len` of an
explored `CONTINUE`, `CALL` or `BRANCH`. -/
theorem call_marking (f : arch_func_t) (c : cpu_t) (ht : tagged f c) :
    (∀ a, inwin c a → has_tag (get_tagging_type c a) TYPE_CODE →
      (f.tag_instr a).flow_type = flow_type_t.CALL →
      (inwin c (addr_add a (f.tag_instr a).bytes) →
        has_tag (get_tagging_type c (addr_add a (f.tag_instr a).bytes)) TYPE_AFTER_CALL ∧
        has_tag (get_tagging_type c (addr_add a (f.tag_instr a).bytes)) TYPE_CODE) ∧
      ((f.tag_instr a).new_pc ≠ NEW_PC_NONE → inwin c (f.tag_instr a).new_pc →
        has_tag (get_tagging_type c (f.tag_instr a).new_pc) TYPE_CODE_TARGET ∧
        has_tag (get_tagging_type c (f.tag_instr a).new_pc) TYPE_CODE)) ∧
    (∀ b, inwin c b → has_tag (get_tagging_type c b) TYPE_CODE_TARGET →
      has_tag (get_tagging_type c b) TYPE_ENTRY ∨
      ∃ a, inwin c a ∧ has_tag (get_tagging_type c a) TYPE_CODE ∧ direct_target f a b) ∧
    (∀ b, inwin c b → has_tag (get_tagging_type c b) TYPE_CODE →
      has_tag (get_tagging_type c b) TYPE_CODE_TARGET ∨
      ∃ a, inwin c a ∧ has_tag (get_tagging_type c a) TYPE_CODE ∧ falls_to f a b) := by
  refine ⟨?_, (tagged_explained ht).1, (tagged_explained ht).2⟩
  intro a ha hc hf
  have hn := (tagged_inv ht).2.1 a ha hc (fun h => h)
  unfold node_ok at hn
  rw [hf] at hn
  exact ⟨fun h => hn.1 h, fun h1 h2 => hn.2 h1 h2⟩

theorem call_marking_witness :
    tagged arch_call unit_call ∧
      has_tag (get_tagging_type unit_call 3) TYPE_AFTER_CALL ∧
      has_tag (get_tagging_type unit_call 4) TYPE_CODE_TARGET :=
  have ht : tagged arch_call unit_call :=
    tagged.tag (fresh_unit 0 5) unit_call 5 0 (tagged.fresh 0 5 0 (by decide) (by decide))
      (by decide)
  ⟨ht,
    (((call_marking arch_call unit_call ht).1 0 (by decide) (by decide) (by decide)).1
      (by decide)).1,
    (((call_marking arch_call unit_call ht).1 0 (by decide) (by decide) (by decide)).2
      (by decide) (by decide)).1⟩

/-- An indirect `JUMP` at 0 and an indirect `CALL` at 1 in the window `[0, 4)`:
tagging from 0 marks 0 only, and tagging from 1 then marks 1 and, with
`TYPE_AFTER_CALL`, the `pc+len` of the call; no other cell changes. -/
theorem indirect_flows_mark_no_target :
    (cpu_tag arch_indirect 2 (fresh_unit 0 4) 0).map (·.tagging_type) =
        some (some [19, 0, 0, 0]) ∧
      ((cpu_tag arch_indirect 2 (fresh_unit 0 4) 0).bind
        (fun c => cpu_tag arch_indirect 3 c 1)).map (·.tagging_type) =
        some (some [19, 19, 0, 5]) := by
  decide

/-- C12: ENTRY implies CODE. In every unit reached from a fresh one by
`cpu_tag` calls, every byte of the tag array that has `TYPE_ENTRY` has
`TYPE_CODE`. -/
theorem entry_implies_code (f : arch_func_t) (c : cpu_t) (ht : tagged f c)
    (arr : List Nat) (harr : c.tagging_type = some arr) :
    ∀ t ∈ arr, has_tag t TYPE_ENTRY → has_tag t TYPE_CODE := by
  intro t hmem he
  obtain ⟨hw, -, hl⟩ := tagged_inv ht
  obtain ⟨i, hi, hget⟩ := List.getElem_of_mem hmem
  have hlen := hw.2.2 arr harr
  have h1 : get_tagging_type c (c.code_start + i) = t := by
    rw [get_at_index harr, List.getD_eq_getElem?_getD, List.getElem?_eq_getElem hi]
    simpa using hget
  have hin : inwin c (c.code_start + i) := by
    unfold inwin; omega
  have := hl (c.code_start + i) hin
    (by rw [h1]; exact has_tag_mask he (by decide)) (fun h => h)
  rwa [h1] at this

theorem entry_implies_code_witness :
    tagged arch_linear unit_linear ∧ has_tag 19 TYPE_CODE :=
  have ht : tagged arch_linear unit_linear :=
    tagged.tag (fresh_unit 0 6) unit_linear 4 0 (tagged.fresh 0 6 0 (by decide) (by decide))
      (by decide)
  ⟨ht, entry_implies_code arch_linear unit_linear ht [19, 0, 1, 0, 0, 1] rfl 19 (by decide)
    (by decide)⟩

/-! ## Straight-line code -/

theorem straight_line_head {f : arch_func_t} {cs ce pc : Nat} {path : List Nat}
    (h : straight_line f cs ce pc path) : ∃ rest, path = pc :: rest := by
  cases path with
  | nil => exact h.elim
  | cons a rest => exact ⟨rest, by rw [h.1]⟩

theorem straight_line_unique {f : arch_func_t} {cs ce : Nat} : ∀ (p1 p2 : List Nat) (pc : Nat),
    straight_line f cs ce pc p1 → straight_line f cs ce pc p2 → p1 = p2 := by
  intro p1
  induction p1 with
  | nil => intro p2 pc h; exact h.elim
  | cons a r1 ih =>
    intro p2 pc h1 h2
    cases p2 with
    | nil => exact h2.elim
    | cons b r2 =>
      obtain ⟨ha, -, -, h1⟩ := h1
      obtain ⟨hb, -, -, h2⟩ := h2
      subst ha hb
      rcases h1 with ⟨e1, g1⟩ | ⟨g1, s1⟩ <;> rcases h2 with ⟨e2, g2⟩ | ⟨g2, s2⟩
      · rw [e1, e2]
      · rcases g1 with g1 | g1 <;> rw [g1] at g2 <;> cases g2
      · rcases g2 with g2 | g2 <;> rw [g2] at g1 <;> cases g1
      · rw [ih _ _ s1 s2]

theorem straight_line_suffix {f : arch_func_t} {cs ce : Nat} : ∀ (path : List Nat) (pc : Nat),
    straight_line f cs ce pc path → ∀ a ∈ path,
      ∃ p, straight_line f cs ce a p ∧ p.length ≤ path.length := by
  intro path
  induction path with
  | nil => intro pc h; exact h.elim
  | cons x rest ih =>
    intro pc h a ha
    rcases List.mem_cons.1 ha with hax | hax
    · refine ⟨x :: rest, ?_, le_refl _⟩
      rw [hax, h.1]
      have := h
      rw [h.1] at this
      exact this
    · rcases h.2.2.2 with ⟨e, -⟩ | ⟨-, s⟩
      · rw [e] at hax; cases hax
      · obtain ⟨p, hp, hl⟩ := ih _ s a hax
        exact ⟨p, hp, by simp only [List.length_cons]; omega⟩

theorem straight_line_nodup {f : arch_func_t} {cs ce : Nat} : ∀ (path : List Nat) (pc : Nat),
    straight_line f cs ce pc path → path.Nodup := by
  intro path
  induction path with
  | nil => intro pc h; exact h.elim
  | cons x rest ih =>
    intro pc h
    rcases h.2.2.2 with ⟨e, -⟩ | ⟨-, s⟩
    · rw [e]; simp
    · refine List.nodup_cons.2 ⟨fun hx => ?_, ih _ s⟩
      obtain ⟨p, hp, hl⟩ := straight_line_suffix _ _ s x hx
      have h2 := h
      rw [← h.1] at h2
      have := straight_line_unique _ _ _ hp h2
      rw [this] at hl
      simp only [List.length_cons] at hl
      omega

/-- The tag of `b` after the loop has marked `pc`. -/
theorem get_enter {c : cpu_t} (ha : alloc_ok c) {pc b : Nat} (hp : inwin c pc)
    (hb : inwin c b) :
    get_tagging_type (enter c pc) b =
      if b = pc then get_tagging_type c b ||| TYPE_CODE else get_tagging_type c b := by
  unfold enter
  rw [get_log]
  by_cases h : b = pc
  · rw [if_pos h, h, get_or_self (alloc_ok_ext (ext_log _ _) ha)
      ((inwin_ext (ext_log _ _) _).2 hp), get_log]
  · rw [if_neg h, get_or_other (log c _) _ (by exact hb.1) (fun e => h e.symm), get_log]

/-- The loop of `tag_recursive` on straight-line code without `TYPE_CODE`:
it returns, and it has set `TYPE_CODE` on the instructions of the path and
nothing else. -/
theorem loop_straight_line (f : arch_func_t) : ∀ (path : List Nat) (c : cpu_t) (pc : Nat),
    straight_line f c.code_start c.code_end pc path → alloc_ok c →
    (∀ a ∈ path, ¬ has_tag (get_tagging_type c a) TYPE_CODE) →
    ∃ c2, (∀ fuel, path.length ≤ fuel → tag_recursive_loop f fuel c pc = some c2) ∧
      ∀ b, inwin c b → get_tagging_type c2 b =
        if b ∈ path then get_tagging_type c b ||| TYPE_CODE else get_tagging_type c b := by
  intro path
  induction path with
  | nil => intro c pc h; exact h.elim
  | cons x rest ih =>
    intro c pc h ha hn
    have hnd := straight_line_nodup _ _ h
    obtain ⟨hx, h1, h2, h3⟩ := h
    subst hx
    have hin : inwin c x := ⟨h1, h2⟩
    have hc : ¬ (get_tagging_type c x &&& TYPE_CODE ≠ 0) := hn x (List.mem_cons_self _ _)
    have hw : ¬ (x < c.code_start ∨ x ≥ c.code_end) := by omega
    rcases h3 with ⟨e, g⟩ | ⟨g, s⟩
    · subst e
      refine ⟨enter c x, ?_, ?_⟩
      · intro fuel hf
        cases fuel with
        | zero => simp at hf
        | succ n =>
          unfold tag_recursive_loop
          rw [if_neg hw]
          simp only [get_log]
          rw [if_neg hc]
          rcases g with g | g <;> rw [g] <;> rfl
      · intro b hb
        rw [get_enter ha hin hb]
        simp only [List.mem_singleton]
    · have he := ext_enter c x
      have hx : x ∉ rest := (List.nodup_cons.1 hnd).1
      have s2 : straight_line f (enter c x).code_start (enter c x).code_end
          (addr_add x (f.tag_instr x).bytes) rest := by
        rw [he.cs, he.ce]; exact s
      obtain ⟨c2, hr, hg⟩ := ih (enter c x) _ s2 (alloc_ok_ext he ha) (by
        intro a ham
        obtain ⟨p, hp, -⟩ := straight_line_suffix _ _ s a ham
        obtain ⟨r, hr⟩ := straight_line_head hp
        rw [hr] at hp
        have hia : inwin c a := ⟨hp.2.1, hp.2.2.1⟩
        rw [get_enter ha hin hia, if_neg (fun (e : a = x) => hx (by rw [← e]; exact ham))]
        exact hn a (List.mem_cons_of_mem _ ham))
      refine ⟨c2, ?_, ?_⟩
      · intro fuel hf
        cases fuel with
        | zero => simp at hf
        | succ n =>
          unfold tag_recursive_loop
          rw [if_neg hw]
          simp only [get_log]
          rw [if_neg hc]
          have := hr n (by simpa using hf)
          rw [g]
          exact this
      · intro b hb
        rw [hg b ((inwin_ext he b).2 hb), get_enter ha hin hb]
        by_cases hbx : b = x
        · subst hbx
          simp [hx]
        · simp [hbx]

/-- The tags after the two marks `cpu_tag` makes on the entry of a fresh
unit. -/
theorem get_fresh_entry {c : cpu_t} (hw : wf c) (hfresh : c.tagging_type = none)
    {entry b : Nat} (he : inwin c entry) (hb : inwin c b) :
    get_tagging_type
        (or_tagging_type (or_tagging_type (base c) entry TYPE_ENTRY) entry TYPE_CODE_TARGET) b =
      if b = entry then TYPE_ENTRY ||| TYPE_CODE_TARGET else 0 := by
  have ha := alloc_ok_base hw
  have he1 := ext_or (base c) entry TYPE_ENTRY
  have h0 : ∀ a, get_tagging_type (base c) a = 0 := by
    intro a
    rw [get_base]
    unfold get_tagging_type
    rw [hfresh]
  by_cases h : b = entry
  · rw [if_pos h, h, get_or_self (alloc_ok_ext he1 ha)
      ((inwin_ext he1 _).2 ((inwin_base c _).2 he)),
      get_or_self ha ((inwin_base c _).2 he), h0]
    rfl
  · rw [if_neg h, get_or_other _ _ (by rw [he1.cs, base_code_start]; exact hb.1)
      (fun e => h e.symm), get_or_other _ _ (by rw [base_code_start]; exact hb.1)
      (fun e => h e.symm), h0]

/-- C18 (amended): Straight-line tagging in whole-region mode. On a fresh unit
whose `SINGLESTEP` flag is clear, if the instructions met from an entry are
`CONTINUE` instructions followed by one `RET` or `ERR`, all inside the window,
then `cpu_tag(unit, entry)` returns, the tag of the entry is exactly
`CODE|CODE_TARGET|ENTRY`, the tag of every later instruction of the path is
exactly `CODE`, and every other byte of the window is 0. -/
theorem straight_line_tagging (f : arch_func_t) (c : cpu_t) (entry : Nat) (path : List Nat)
    (hw : wf c) (hfresh : c.tagging_type = none)
    (hss : c.flags_debug &&& CPU_DEBUG_SINGLESTEP = 0)
    (hp : straight_line f c.code_start c.code_end entry path) :
    ∃ c2, (∀ fuel, path.length ≤ fuel → cpu_tag f fuel c entry = some c2) ∧
      get_tagging_type c2 entry = TYPE_CODE ||| TYPE_CODE_TARGET ||| TYPE_ENTRY ∧
      (∀ a ∈ path, a ≠ entry → get_tagging_type c2 a = TYPE_CODE) ∧
      (∀ b, inwin c b → b ∉ path → get_tagging_type c2 b = 0) := by
  obtain ⟨rest, hrest⟩ := straight_line_head hp
  have hin : inwin c entry := by
    rw [hrest] at hp
    exact ⟨hp.2.1, hp.2.2.1⟩
  have hmem : entry ∈ path := by rw [hrest]; exact List.mem_cons_self _ _
  have ha := alloc_ok_base hw
  have he : ext (base c)
      (or_tagging_type (or_tagging_type (base c) entry TYPE_ENTRY) entry TYPE_CODE_TARGET) :=
    ext_trans (ext_or _ _ _) (ext_or _ _ _)
  have hwin : ∀ b, inwin (or_tagging_type (or_tagging_type (base c) entry TYPE_ENTRY) entry
      TYPE_CODE_TARGET) b ↔ inwin c b :=
    fun b => (inwin_ext he b).trans (inwin_base c b)
  have hmemwin : ∀ a ∈ path, inwin c a := by
    intro a ham
    obtain ⟨p, hp2, -⟩ := straight_line_suffix _ _ hp a ham
    obtain ⟨r, hr⟩ := straight_line_head hp2
    rw [hr] at hp2
    exact ⟨hp2.2.1, hp2.2.2.1⟩
  obtain ⟨c2, hr, hg⟩ := loop_straight_line f path
    (or_tagging_type (or_tagging_type (base c) entry TYPE_ENTRY) entry TYPE_CODE_TARGET) entry
    (by rw [he.cs, he.ce, base_code_start, base_code_end]; exact hp) (alloc_ok_ext he ha)
    (by
      intro a ham
      rw [get_fresh_entry hw hfresh hin (hmemwin a ham)]
      split <;> decide)
  refine ⟨c2, ?_, ?_, ?_, ?_⟩
  · intro fuel hf
    unfold cpu_tag
    rw [if_neg (by rw [hss]; simp)]
    exact hr fuel hf
  · rw [hg entry ((hwin entry).2 hin), if_pos hmem, get_fresh_entry hw hfresh hin hin,
      if_pos rfl]
    rfl
  · intro a ham hne
    rw [hg a ((hwin a).2 (hmemwin a ham)), if_pos ham,
      get_fresh_entry hw hfresh hin (hmemwin a ham), if_neg hne]
    rfl
  · intro b hb hnm
    rw [hg b ((hwin b).2 hb), if_neg hnm, get_fresh_entry hw hfresh hin hb,
      if_neg (fun (e : b = entry) => hnm (by rw [e]; exact hmem))]

theorem straight_line_tagging_witness :
    wf (fresh_unit 0 6) ∧ straight_line arch_linear 0 6 0 [0, 2, 5] ∧
      cpu_tag arch_linear 3 (fresh_unit 0 6) 0 = some unit_linear ∧
      unit_linear.tagging_type = some [19, 0, 1, 0, 0, 1] ∧
      ∃ c2, (∀ fuel, 3 ≤ fuel → cpu_tag arch_linear fuel (fresh_unit 0 6) 0 = some c2) ∧
        get_tagging_type c2 0 = TYPE_CODE ||| TYPE_CODE_TARGET ||| TYPE_ENTRY ∧
        (∀ a ∈ [0, 2, 5], a ≠ 0 → get_tagging_type c2 a = TYPE_CODE) ∧
        (∀ b, inwin (fresh_unit 0 6) b → b ∉ [0, 2, 5] → get_tagging_type c2 b = 0) :=
  ⟨⟨by decide, by decide, fun _ h => by cases h⟩, by decide, by decide, rfl,
    straight_line_tagging arch_linear (fresh_unit 0 6) 0 [0, 2, 5]
      ⟨by decide, by decide, fun _ h => by cases h⟩ rfl (by decide) (by decide)⟩

/-- C18 (as stated) fails: a fresh unit with the `SINGLESTEP` flag set. The code
from the entry 0 is straight-line inside the window `[0, 6)`, `cpu_tag(unit, 0)`
returns at once, no tag array is allocated and the tag of the entry reads 0. -/
theorem singlestep_straight_line_untagged :
    straight_line arch_linear 0 6 0 [0, 2, 5] ∧
      cpu_tag arch_linear 3 ⟨0, 6, CPU_DEBUG_SINGLESTEP, none, []⟩ 0 =
        some ⟨0, 6, CPU_DEBUG_SINGLESTEP, none, []⟩ ∧
      get_tagging_type ⟨0, 6, CPU_DEBUG_SINGLESTEP, none, []⟩ 0 ≠
        TYPE_CODE ||| TYPE_CODE_TARGET ||| TYPE_ENTRY := by
  decide

/-! ## Optimizer pipeline -/

theorem and_shift_ne_zero (flags k : Nat) :
    flags &&& (1 <<< k) ≠ 0 ↔ flags.testBit k = true := by
  rw [Nat.one_shiftLeft, Nat.and_two_pow]
  cases flags.testBit k <;> simp

theorem add_if_eq (flags k : Nat) (p : pass_t) (pm : List pass_t) :
    add_if flags k p pm = pm ++ if flags.testBit k = true then [p] else [] := by
  unfold add_if
  by_cases h : flags.testBit k = true
  · rw [if_pos ((and_shift_ne_zero flags k).2 h), if_pos h]
  · rw [if_neg (fun h2 => h ((and_shift_ne_zero flags k).1 h2)), if_neg h, List.append_nil]

theorem filter_cons_append {α : Type} (q : α → Bool) (a : α) (l : List α) :
    (a :: l).filter q = (if q a = true then [a] else []) ++ l.filter q := by
  rw [List.filter_cons]
  split <;> rfl

theorem map_ite_singleton {α β : Type} (g : α → β) (c : Prop) [Decidable c] (a : α) :
    (if c then [a] else []).map g = if c then [g a] else [] := by
  split <;> rfl

/-- The list `optimize` schedules is `TargetData` followed by the passes of
the enumerated list whose bit is set. -/
theorem optimize_eq (flags : Nat) :
    optimize flags = pass_t.TargetData :: spec_selected flags := by
  unfold optimize spec_selected spec_pass_list
  simp only [add_if_eq, List.enum_cons, List.enumFrom_cons, List.enumFrom_nil, List.enum_nil,
    filter_cons_append, List.filter_nil, List.map_append, map_ite_singleton, List.map_nil,
    List.append_nil, List.append_assoc, List.singleton_append, List.cons_append, List.nil_append]

theorem spec_selected_congr {f g : Nat} (h : ∀ k, k < 39 → f.testBit k = g.testBit k) :
    spec_selected g = spec_selected f := by
  unfold spec_selected
  congr 1
  apply List.filter_congr
  intro p hp
  have hlt : p.1 < spec_pass_list.length := List.fst_lt_of_mem_enum hp
  exact (h p.1 hlt).symm

/-- C15 (amended): Optimizer pass selection. For every flag word `optimize`
schedules `TargetData` first and then, in list order, exactly the passes of
the enumerated list whose bit is set; what follows `TargetData` is a
subsequence of that list; and a flag word that agrees with it on the 39 bits
0..38 schedules the same list. -/
theorem optimizer_pass_selection (flags : Nat) :
    optimize flags = pass_t.TargetData :: spec_selected flags ∧
    List.Sublist (spec_selected flags) spec_pass_list ∧
    spec_pass_list.length = 39 ∧
    ∀ g, (∀ k, k < 39 → flags.testBit k = g.testBit k) → optimize g = optimize flags := by
  refine ⟨optimize_eq flags, ?_, rfl, ?_⟩
  · unfold spec_selected
    have h1 : List.Sublist ((spec_pass_list.enum.filter fun p => flags.testBit p.1).map Prod.snd)
        (spec_pass_list.enum.map Prod.snd) :=
      List.Sublist.map _ (List.filter_sublist _)
    rwa [List.enum_map_snd] at h1
  · intro g h
    rw [optimize_eq, optimize_eq, spec_selected_congr h]

theorem optimizer_pass_selection_witness :
    (∀ k, k < 39 → (5 : Nat).testBit k = (5 + 2 ^ 39).testBit k) ∧
      optimize 5 = [pass_t.TargetData, pass_t.GlobalDCE, pass_t.CFGSimplification] ∧
      optimize (5 + 2 ^ 39) = optimize 5 :=
  ⟨by decide, by decide, (optimizer_pass_selection 5).2.2.2 (5 + 2 ^ 39) (by decide)⟩

/-- C15 (as stated) fails: the flag words 0 and `2 ^ 38` agree on the 38 bits
0..37, and `optimize` schedules `ConstantMerge` for the second only: bit 38 is
tested too. -/
theorem optimizer_bit_38_selects :
    (∀ k, k < 38 → (0 : Nat).testBit k = (2 ^ 38).testBit k) ∧
      optimize 0 = [pass_t.TargetData] ∧
      optimize (2 ^ 38) = [pass_t.TargetData, pass_t.ConstantMerge] := by
  decide

/-! ## Single-step recompilation and the JIT driver -/

/-- The blocks of `cpu_recompile_singlestep` in closed form. -/
theorem singlestep_blocks (f : arch_func_t) (pc : Nat) (bb_ret : List Char) :
    cpu_recompile_singlestep f pc bb_ret =
      ⟨"instruction".toList, ir_t.lifted pc ::
        (if (f.tag_instr pc).flow_type = flow_type_t.CONTINUE then
          [ir_t.store_pc (addr_add pc (f.recompile_instr pc)), ir_t.br bb_ret]
        else [])⟩ ::
      (match (f.tag_instr pc).flow_type with
        | flow_type_t.BRANCH =>
          [exit_block (f.tag_instr pc).new_pc bb_ret,
            exit_block (addr_add pc (f.tag_instr pc).bytes) bb_ret]
        | flow_type_t.JUMP => [exit_block (f.tag_instr pc).new_pc bb_ret]
        | flow_type_t.CALL => [exit_block (f.tag_instr pc).new_pc bb_ret]
        | _ => []) := by
  unfold cpu_recompile_singlestep
  cases hf : (f.tag_instr pc).flow_type <;>
    simp [hf, create_singlestep_return_basicblock, emit_store_pc_return, emit_store_pc,
      exit_block]

theorem exit_block_name (a : Nat) (bb_ret : List Char) :
    (exit_block a bb_ret).name ≠ "instruction".toList := by
  intro h
  have h2 := congrArg List.head? h
  simp only [exit_block] at h2
  rw [create_label_head] at h2
  exact absurd h2 (by decide)

/-- C17: Single-step exits. For a front-end that reports one length for the
instruction at `pc`, `cpu_recompile_singlestep` creates the block
`instruction` and then the exit blocks: for `BRANCH` the blocks of the target
and of `pc+len`, for `JUMP` or `CALL` the block of the target, for any other
flow none. No exit block is named `instruction`; each exit block is labelled
for its address, stores that address to the PC slot and branches to `ret`.
The block `instruction` holds the lifted instruction, followed for `CONTINUE`
by the store of `pc+len` and the branch to `ret`. -/
theorem singlestep_exits (f : arch_func_t) (pc : Nat) (bb_ret : List Char)
    (hlen : f.recompile_instr pc = (f.tag_instr pc).bytes) :
    ∃ body exits, cpu_recompile_singlestep f pc bb_ret = ⟨"instruction".toList, body⟩ :: exits ∧
      (∀ b ∈ exits, b.name ≠ "instruction".toList ∧
        ∃ a, b = ⟨create_label a, [ir_t.store_pc a, ir_t.br bb_ret]⟩) ∧
      exits = (match (f.tag_instr pc).flow_type with
        | flow_type_t.BRANCH =>
          [exit_block (f.tag_instr pc).new_pc bb_ret,
            exit_block (addr_add pc (f.tag_instr pc).bytes) bb_ret]
        | flow_type_t.JUMP => [exit_block (f.tag_instr pc).new_pc bb_ret]
        | flow_type_t.CALL => [exit_block (f.tag_instr pc).new_pc bb_ret]
        | _ => []) ∧
      body = ir_t.lifted pc ::
        (if (f.tag_instr pc).flow_type = flow_type_t.CONTINUE then
          [ir_t.store_pc (addr_add pc (f.tag_instr pc).bytes), ir_t.br bb_ret]
        else []) := by
  refine ⟨_, _, singlestep_blocks f pc bb_ret, ?_, rfl, by rw [hlen]⟩
  intro b hb
  have : ∃ a, b = exit_block a bb_ret := by
    cases hf : (f.tag_instr pc).flow_type <;> rw [hf] at hb <;> simp only at hb
    · cases hb
    · cases hb
    · exact ⟨_, List.mem_singleton.1 hb⟩
    · exact ⟨_, List.mem_singleton.1 hb⟩
    · rcases List.mem_cons.1 hb with h | h
      · exact ⟨_, h⟩
      · exact ⟨_, List.mem_singleton.1 h⟩
    · cases hb
  obtain ⟨a, rfl⟩ := this
  exact ⟨exit_block_name a bb_ret, a, rfl⟩

theorem singlestep_exits_witness :
    arch_linear.recompile_instr 0 = (arch_linear.tag_instr 0).bytes ∧
      cpu_recompile_singlestep arch_linear 0 "ret".toList =
        [⟨"instruction".toList,
          [ir_t.lifted 0, ir_t.store_pc 2, ir_t.br "ret".toList]⟩] ∧
      cpu_recompile_singlestep arch_branch 0 "ret".toList =
        [⟨"instruction".toList, [ir_t.lifted 0]⟩,
          ⟨"L00000004".toList, [ir_t.store_pc 4, ir_t.br "ret".toList]⟩,
          ⟨"L00000002".toList, [ir_t.store_pc 2, ir_t.br "ret".toList]⟩] ∧
      ∃ body exits,
        cpu_recompile_singlestep arch_linear 0 "ret".toList =
          ⟨"instruction".toList, body⟩ :: exits ∧
        (∀ b ∈ exits, b.name ≠ "instruction".toList ∧
          ∃ a, b = ⟨create_label a, [ir_t.store_pc a, ir_t.br "ret".toList]⟩) ∧
        exits = [] ∧
        body = [ir_t.lifted 0, ir_t.store_pc 2, ir_t.br "ret".toList] :=
  ⟨by decide, by decide, by decide, singlestep_exits arch_linear 0 "ret".toList (by decide)⟩

/-- After `cpu_tag(unit, entry)` in whole-region mode with the entry inside
the window, the tag array is allocated with one byte per address of the
window and the entry carries `TYPE_ENTRY`. -/
theorem cpu_tag_entry_mark {f : arch_func_t} {fuel : Nat} {c c2 : cpu_t} {pc : Nat}
    (h : cpu_tag f fuel c pc = some c2) (hw : wf c)
    (hss : c.flags_debug &&& CPU_DEBUG_SINGLESTEP = 0) (hin : inwin c pc) :
    (∃ arr, c2.tagging_type = some arr ∧ arr.length = c2.code_end - c2.code_start) ∧
      has_tag (get_tagging_type c2 pc) TYPE_ENTRY := by
  rcases cpu_tag_cases h with ⟨h1, -⟩ | ⟨-, h1⟩
  · exact absurd hss h1
  · have ha := alloc_ok_base hw
    have he1 := ext_or (base c) pc TYPE_ENTRY
    have he : ext (or_tagging_type (base c) pc TYPE_ENTRY) c2 :=
      ext_trans (ext_or _ _ _) (walk_ext h1)
    have hw2 := cpu_tag_wf h hw
    obtain ⟨arr, harr, -⟩ := alloc_ok_ext (ext_trans he1 he) ha
    refine ⟨⟨arr, harr, hw2.2.2 arr harr⟩, has_tag_mono (he.le pc) ?_⟩
    rw [get_or_self ha ((inwin_base c pc).2 hin)]
    exact has_tag_or _ (by decide)

/-- C16 (amended): `cpu_run` does not tag. For a unit in whole-region mode
without a compiled function, `cpu_run` hands the tagging fields to
`cpu_recompile` as the host left them and returns them unchanged: when
`cpu_recompile` completes the compiled function is entered, otherwise the run
ends there. If the host has called `cpu_tag(unit, code_entry)` in whole-region
mode with `code_entry` inside the window, the tag array that `cpu_recompile`
reads is allocated with length `code_end - code_start` and `code_entry`
carries `TYPE_ENTRY`; if no tag array was ever allocated and the window is
not empty, the run ends with a fault in `cpu_recompile`. -/
theorem run_reads_host_tags (f : arch_func_t) (fuel init_pc : Nat) (u : driver_t)
    (hss : u.cpu.flags_debug &&& CPU_DEBUG_SINGLESTEP = 0) (hfp : u.fp = none) :
    (cpu_run f fuel init_pc u).unit.cpu = u.cpu ∧
    ((∃ jit, cpu_recompile f fuel u.cpu "ret".toList jit_shell = recompile_result.done jit ∧
        ∃ u2, cpu_run f fuel init_pc u = run_result.entered u2) ∨
      ∃ u2, cpu_run f fuel init_pc u =
        run_result.stopped u2 (cpu_recompile f fuel u.cpu "ret".toList jit_shell)) ∧
    (∀ c0 n, wf c0 → c0.flags_debug &&& CPU_DEBUG_SINGLESTEP = 0 → inwin c0 u.code_entry →
      cpu_tag f n c0 u.code_entry = some u.cpu →
      (∃ arr, u.cpu.tagging_type = some arr ∧
        arr.length = u.cpu.code_end - u.cpu.code_start) ∧
      has_tag (get_tagging_type u.cpu u.code_entry) TYPE_ENTRY) ∧
    (u.cpu.tagging_type = none → u.cpu.code_start < u.cpu.code_end →
      ∃ u2, cpu_run f fuel init_pc u = run_result.stopped u2 (recompile_result.fault jit_shell)) := by
  have hcpu : ∀ v : driver_t, (if v.reg.isNone then cpu_init init_pc v else v).cpu = v.cpu := by
    intro v; split <;> rfl
  have hfp2 : (if u.reg.isNone then cpu_init init_pc u else u).fp = none := by
    split
    · exact hfp
    · exact hfp
  have hrun : cpu_run f fuel init_pc u =
      match cpu_recompile f fuel u.cpu "ret".toList jit_shell with
      | recompile_result.done jit =>
        run_result.entered { (if u.reg.isNone then cpu_init init_pc u else u) with
          fp := some ⟨func_body.whole_region jit,
            if u.flags_optimize ≠ CPU_OPTIMIZE_NONE then optimize u.flags_optimize else []⟩ }
      | r => run_result.stopped (if u.reg.isNone then cpu_init init_pc u else u) r := by
    unfold cpu_run
    simp only [hfp2, Option.isNone_none, if_true]
    unfold cpu_recompile_function
    rw [hcpu u, if_neg (by rw [hss]; simp)]
    have : (if u.reg.isNone then cpu_init init_pc u else u).flags_optimize = u.flags_optimize := by
      split <;> rfl
    rw [this]
  refine ⟨?_, ?_, ?_, ?_⟩
  · rw [hrun]
    split
    · exact hcpu u
    · exact hcpu u
  · rw [hrun]
    cases hr : cpu_recompile f fuel u.cpu "ret".toList jit_shell with
    | done jit => exact Or.inl ⟨jit, rfl, _, rfl⟩
    | unknown_rts_target pc jit => exact Or.inr ⟨_, rfl⟩
    | unknown_continue pc jit => exact Or.inr ⟨_, rfl⟩
    | fault jit => exact Or.inr ⟨_, rfl⟩
    | out_of_fuel jit => exact Or.inr ⟨_, rfl⟩
  · intro c0 n hw0 hss0 hin0 htag
    have := cpu_tag_entry_mark htag hw0 hss0 hin0
    exact this
  · intro hnone hlt
    rw [hrun]
    have : cpu_recompile f fuel u.cpu "ret".toList jit_shell = recompile_result.fault jit_shell := by
      unfold cpu_recompile
      rw [if_pos ⟨by rw [hnone]; rfl, hlt⟩]
    rw [this]
    exact ⟨_, rfl⟩

theorem run_reads_host_tags_witness :
    cpu_tag arch_ret 2 (fresh_unit 0 2) 0 = some unit_ret ∧
      cpu_run arch_ret 2 0 ⟨unit_ret, 0, 0, none, none⟩ =
        run_result.entered ⟨unit_ret, 0, 0, some 0,
          some ⟨func_body.whole_region
            { blocks := ["entry".toList, "ret".toList, "L00000000".toList, "dispatch".toList]
              switch_default := some "ret".toList
              cases := [(0, "L00000000".toList)]
              lifted := [("L00000000".toList, [0])]
              links := []
              lookups := [0] }, []⟩⟩ ∧
      has_tag (get_tagging_type unit_ret 0) TYPE_ENTRY :=
  ⟨by decide, by decide,
    ((run_reads_host_tags arch_ret 2 0 ⟨unit_ret, 0, 0, none, none⟩ (by decide) rfl).2.2.1
      (fresh_unit 0 2) 2 ⟨by decide, by decide, fun _ h => by cases h⟩ (by decide) (by decide)
      (by decide)).2⟩

/-- C16 (as stated) fails: a unit in whole-region mode with the window
`[0, 2)`, no compiled function, never tagged by the host. `cpu_run` sets up
the register state and goes to `cpu_recompile`, which finds no tag array: the
run ends with a fault, the array is still not allocated and `code_entry` has
no `TYPE_ENTRY`. -/
theorem run_without_host_tag_faults :
    cpu_run arch_ret 2 0 ⟨fresh_unit 0 2, 0, 0, none, none⟩ =
        run_result.stopped ⟨fresh_unit 0 2, 0, 0, some 0, none⟩
          (recompile_result.fault jit_shell) ∧
      (fresh_unit 0 2).tagging_type = none ∧
      ¬ has_tag (get_tagging_type (fresh_unit 0 2) 0) TYPE_ENTRY := by
  decide

/-! ## Names of the register sets -/

theorem drop_digits_scan_spec (x : List Char) : ∀ n m, drop_digits_scan x n = some m →
    m < n ∧ isdigit (x.getD m 'a') = false := by
  intro n
  induction n with
  | zero => intro m h; simp [drop_digits_scan] at h
  | succ n ih =>
    intro m h
    unfold drop_digits_scan at h
    by_cases hd : isdigit (x.getD n 'a') = true
    · rw [if_pos hd] at h
      have := ih m h
      exact ⟨by omega, this.2⟩
    · rw [if_neg hd] at h
      cases h
      exact ⟨by omega, by simpa using hd⟩

/-- The prefix `drop_digits` returns for a non-empty name ends in a
non-digit. -/
theorem drop_digits_ends {x y : List Char} (h : drop_digits x = some y) (hx : x ≠ []) :
    ends_nondigit y := by
  unfold drop_digits at h
  rw [if_neg (by simpa using hx)] at h
  cases hs : drop_digits_scan x x.length with
  | none => rw [hs] at h; cases h
  | some m =>
    rw [hs] at h
    simp only [Option.map_some', Option.some.injEq] at h
    obtain ⟨hm, hd⟩ := drop_digits_scan_spec x _ _ hs
    refine ⟨x.getD m 'a', ?_, hd⟩
    rw [← h, List.getLast?_eq_getElem?, List.length_take, Nat.min_eq_left (by omega),
      List.getElem?_take, if_pos (by omega), List.getD_eq_getElem?_getD,
      List.getElem?_eq_getElem hm]
    simp

theorem isdigit_ofNat (d : Nat) (h : d < 10) : isdigit (Char.ofNat (48 + d)) = true := by
  interval_cases d <;> decide

theorem dec_digits_ends (k n : Nat) :
    ∃ ch, (dec_digits (k + 1) n).getLast? = some ch ∧ isdigit ch = true := by
  unfold dec_digits
  split
  · rename_i h
    exact ⟨_, rfl, isdigit_ofNat n h⟩
  · exact ⟨_, List.getLast?_concat _, isdigit_ofNat _ (Nat.mod_lt _ (by decide))⟩

theorem getLast?_append_of_some {α : Type} (l1 : List α) {l2 : List α} {a : α}
    (h : l2.getLast? = some a) : (l1 ++ l2).getLast? = some a := by
  rw [List.getLast?_append, h]
  rfl

theorem print_long_ends (i : Int) : ends_digit (print_long i) := by
  unfold print_long
  obtain ⟨ch, h1, h2⟩ := dec_digits_ends 19 i.natAbs
  split
  · exact ⟨ch, getLast?_append_of_some ['-'] h1, h2⟩
  · exact ⟨ch, h1, h2⟩

/-- A name made by `inc_name` ends in a digit. -/
theorem inc_name_ends {x y : List Char} (h : inc_name x = some y) : ends_digit y := by
  unfold inc_name at h
  cases hd : drop_digits x with
  | none => rw [hd] at h; cases h
  | some b =>
    rw [hd] at h
    simp only [Option.some.injEq] at h
    rw [← h]
    obtain ⟨ch, h1, h2⟩ := print_long_ends
      (if b.length < x.length then wrap_long ((atol (List.drop b.length x) : Int) + 1) else 1)
    exact ⟨ch, getLast?_append_of_some _ h1, h2⟩

/-- The name the renaming loop returns is not taken; it is the name the loop
started with when that was free, and a name ending in a digit otherwise. -/
theorem unique_name_shape (ids : List (List Char)) : ∀ (fuel : Nat) (last y : List Char),
    unique_name ids fuel last = some y →
    y ∉ ids ∧ (last ∉ ids → y = last) ∧ (last ∈ ids → ends_digit y) := by
  intro fuel
  induction fuel with
  | zero => intro last y h; simp [unique_name] at h
  | succ fuel ih =>
    intro last y h
    unfold unique_name at h
    by_cases hmem : last ∈ ids
    · rw [if_pos hmem] at h
      cases hi : inc_name last with
      | none => rw [hi] at h; cases h
      | some next =>
        rw [hi] at h
        simp only at h
        obtain ⟨h1, h2, h3⟩ := ih next y h
        refine ⟨h1, fun hn => absurd hmem hn, fun _ => ?_⟩
        by_cases hnext : next ∈ ids
        · exact h3 hnext
        · rw [h2 hnext]; exact inc_name_ends hi
    · rw [if_neg hmem] at h
      cases h
      exact ⟨hmem, fun _ => rfl, fun hm => absurd hm hmem⟩

theorem ends_exclusive {x : List Char} (h1 : ends_digit x) (h2 : ends_nondigit x) : False := by
  obtain ⟨c1, e1, d1⟩ := h1
  obtain ⟨c2, e2, d2⟩ := h2
  rw [e1] at e2
  cases e2
  rw [d1] at d2
  cases d2

/-- The prefix of an open set ends in a non-digit and is the prefix of the
set that closes it. -/
theorem open_run_prefix {st : regsets_state} (ho : open_run st) (nm : List Char) :
    prefix_of_set ⟨nm, st.last_type, st.regs_in_set⟩ = some st.last ∧ ends_nondigit st.last := by
  obtain ⟨h1, h2, h3⟩ := ho
  cases hr : st.regs_in_set with
  | nil => exact absurd hr h2
  | cons r rest =>
    have hd := (h3 r (by rw [hr]; exact List.mem_cons_self _ _)).1
    refine ⟨by simp [prefix_of_set, hd], drop_digits_ends hd ?_⟩
    intro h0
    rw [h0] at hd
    simp only [drop_digits, List.length_nil, if_true, Option.some.injEq] at hd
    rw [← hd] at h1
    obtain ⟨ch, hm, -⟩ := h1
    cases hm

/-- Closing a set keeps the names in order. -/
theorem push_regset_names {fuel : Nat} {st st1 : regsets_state} (ho : open_run st)
    (hI : names_inv st.regset_id st.regsets) (h : push_regset fuel st = some st1) :
    names_inv st1.regset_id st1.regsets := by
  unfold push_regset at h
  cases hu : unique_name st.regset_id fuel st.last with
  | none => rw [hu] at h; cases h
  | some nm =>
    rw [hu] at h
    simp only [Option.some.injEq] at h
    rw [← h]
    simp only
    obtain ⟨hids, hnd, hnamed, hfirst⟩ := hI
    obtain ⟨u1, u2, u3⟩ := unique_name_shape _ _ _ _ hu
    obtain ⟨p1, p2⟩ := open_run_prefix ho nm
    refine ⟨?_, ?_, ?_, ?_⟩
    · intro n
      rw [List.map_append, List.mem_append, List.mem_cons, hids n]
      simp only [List.map_cons, List.map_nil, List.mem_singleton]
      tauto
    · rw [List.map_append, List.map_cons, List.map_nil]
      refine List.Nodup.append hnd (List.nodup_singleton _) ?_
      intro a ha hb
      rw [List.mem_singleton.1 hb] at ha
      exact u1 ((hids nm).2 ha)
    · intro s hs
      rcases List.mem_append.1 hs with hs | hs
      · exact hnamed s hs
      · rw [List.mem_singleton.1 hs]
        refine ⟨st.last, p1, p2, ?_⟩
        by_cases hm : st.last ∈ st.regset_id
        · exact Or.inr (u3 hm)
        · exact Or.inl (u2 hm)
    · intro pre s post hdec hpre
      rcases List.eq_nil_or_concat post with hp | ⟨post2, y, hp⟩
      · subst hp
        have := List.append_inj' hdec (by simp)
        obtain ⟨e1, e2⟩ := this
        simp only [List.cons.injEq, and_true] at e2
        subst e1
        rw [← e2, p1]
        by_cases hm : st.last ∈ st.regset_id
        · exfalso
          obtain ⟨t, ht, hname⟩ := List.mem_map.1 ((hids _).1 hm)
          obtain ⟨p, hp1, hp2, hp3⟩ := hnamed t ht
          rcases hp3 with hp3 | hp3
          · apply hpre t ht
            rw [hp1, ← e2, p1, ← hp3, hname]
          · rw [hname] at hp3
            exact ends_exclusive hp3 p2
        · rw [u2 hm]
      · subst hp
        have h2 : st.regsets ++ [⟨nm, st.last_type, st.regs_in_set⟩] =
            (pre ++ s :: post2) ++ [y] := by
          rw [hdec]; simp
        have := List.append_inj' h2 (by simp)
        exact hfirst pre s post2 this.1 hpre

theorem names_inv_nil : names_inv [] [] := by
  refine ⟨fun n => by simp, by simp, ?_, ?_⟩
  · intro s hs; cases hs
  · intro pre s post h; simp at h

/-- The first register of a set opens a run. -/
theorem open_run_start {r : register_info} {x t : List Char} (hr : reg_ok r)
    (hx : drop_digits r.name = some x) (ht : r.type = some t)
    (ids : List (List Char)) (sets : List regset) :
    open_run ⟨ids, x, t, [r], sets⟩ := by
  obtain ⟨y, hy, hyn, -⟩ := drop_digits_some hr.1
  rw [hx] at hy
  cases hy
  exact ⟨hyn, by simp, fun r2 h2 => by rw [List.mem_singleton.1 h2]; exact ⟨hx, ht⟩⟩

/-- The loop of `make_regsets` with a set open keeps the names in order. -/
theorem make_regsets_loop_names (fuel : Nat) : ∀ (l : List register_info)
    (st st2 : regsets_state), (∀ r ∈ l, reg_ok r) → open_run st →
    names_inv st.regset_id st.regsets → make_regsets_loop fuel l st = some st2 →
    open_run st2 ∧ names_inv st2.regset_id st2.regsets := by
  intro l
  induction l with
  | nil =>
    intro st st2 _ ho hI h
    simp only [make_regsets_loop, Option.some.injEq] at h
    rw [← h]
    exact ⟨ho, hI⟩
  | cons r rest ih =>
    intro st st2 hok ho hI h
    have hrest : ∀ r ∈ rest, reg_ok r := fun r h => hok r (List.mem_cons_of_mem _ h)
    have hr := hok r (List.mem_cons_self _ _)
    have hlast : st.last ≠ [] := by
      obtain ⟨ch, hm, -⟩ := ho.1
      intro h0; rw [h0] at hm; cases hm
    obtain ⟨b, hb⟩ := is_pseudo_reg_some hr.1
    unfold make_regsets_loop at h
    rw [hb] at h
    cases b with
    | true => exact ih st st2 hrest ho hI h
    | false =>
      simp only at h
      obtain ⟨x, hx, -, -⟩ := drop_digits_some hr.1
      obtain ⟨t, htype⟩ : ∃ t, r.type = some t := by
        cases h : r.type with
        | none => exact absurd h (hr.2 hb)
        | some t => exact ⟨t, rfl⟩
      rw [hx, htype] at h
      simp only [Option.getD_some] at h
      have hfresh : (if st.last ≠ [] then
            match push_regset fuel st with
            | none => none
            | some st1 => make_regsets_loop fuel rest
                { st1 with last := x, last_type := t, regs_in_set := [r] }
          else make_regsets_loop fuel rest
              { st with last := x, last_type := t, regs_in_set := [r] }) = some st2 →
          open_run st2 ∧ names_inv st2.regset_id st2.regsets := by
        intro h2
        rw [if_pos hlast] at h2
        cases hp : push_regset fuel st with
        | none => rw [hp] at h2; cases h2
        | some st1 =>
          rw [hp] at h2
          simp only at h2
          have hI1 := push_regset_names ho hI hp
          exact ih _ st2 hrest (open_run_start hr hx htype _ _) hI1 h2
      by_cases hc1 : st.last = [] ∨ x ≠ st.last
      · rw [if_pos hc1] at h
        exact hfresh h
      · rw [if_neg hc1] at h
        by_cases hc2 : t ≠ st.last_type
        · rw [if_pos hc2] at h
          exact hfresh h
        · rw [if_neg hc2] at h
          have hxl : x = st.last := by
            by_contra h; exact hc1 (Or.inr h)
          have htl : t = st.last_type := not_not.mp hc2
          refine ih ⟨st.regset_id, st.last, st.last_type, st.regs_in_set ++ [r], st.regsets⟩
            st2 hrest ?_ hI h
          exact ⟨ho.1, by simp, fun r2 h2 => by
            rcases List.mem_append.1 h2 with h | h
            · exact ho.2.2 r2 h
            · rw [List.mem_singleton.1 h, hx, htype, hxl, htl]; exact ⟨rfl, rfl⟩⟩

/-- The loop of `make_regsets` from its initial state keeps the names in
order. -/
theorem make_regsets_loop_names_init (fuel : Nat) : ∀ (l : List register_info)
    (st2 : regsets_state), (∀ r ∈ l, reg_ok r) →
    make_regsets_loop fuel l ⟨[], [], [], [], []⟩ = some st2 →
    st2 = ⟨[], [], [], [], []⟩ ∨ (open_run st2 ∧ names_inv st2.regset_id st2.regsets) := by
  intro l
  induction l with
  | nil =>
    intro st2 _ h
    simp only [make_regsets_loop, Option.some.injEq] at h
    exact Or.inl h.symm
  | cons r rest ih =>
    intro st2 hok h
    have hrest : ∀ r ∈ rest, reg_ok r := fun r h => hok r (List.mem_cons_of_mem _ h)
    have hr := hok r (List.mem_cons_self _ _)
    obtain ⟨b, hb⟩ := is_pseudo_reg_some hr.1
    unfold make_regsets_loop at h
    rw [hb] at h
    cases b with
    | true => exact ih st2 hrest h
    | false =>
      simp only at h
      obtain ⟨x, hx, -, -⟩ := drop_digits_some hr.1
      obtain ⟨t, htype⟩ : ∃ t, r.type = some t := by
        cases h : r.type with
        | none => exact absurd h (hr.2 hb)
        | some t => exact ⟨t, rfl⟩
      rw [hx, htype] at h
      simp only [Option.getD_some, true_or, if_true, ne_eq, not_true_eq_false, if_false] at h
      exact Or.inr (make_regsets_loop_names fuel rest _ st2 hrest
        (open_run_start hr hx htype _ _) names_inv_nil h)

/-- C20: Register-set names are deduplicated. For registers whose names are
not made of digits only (and whose non-pseudo members have a type), with fuel
above their number every renaming loop of `make_regsets` ends and
`make_regsets` returns; the names of its sets are pairwise distinct, and a
set whose prefix no earlier set has is named by the bare prefix. -/
theorem regset_names_deduplicated (fuel : Nat) (regs : List register_info)
    (hok : ∀ r ∈ regs, reg_ok r) (hf : regs.length < fuel) :
    ∃ sets, make_regsets fuel regs = some sets ∧ (sets.map (·.name)).Nodup ∧
      ∀ pre s post, sets = pre ++ s :: post →
        (∀ t ∈ pre, prefix_of_set t ≠ prefix_of_set s) → some s.name = prefix_of_set s := by
  obtain ⟨sets, hsets, -, -⟩ := make_regsets_runs fuel regs hok hf
  refine ⟨sets, hsets, ?_⟩
  unfold make_regsets at hsets
  cases hl : make_regsets_loop fuel regs ⟨[], [], [], [], []⟩ with
  | none => rw [hl] at hsets; cases hsets
  | some st =>
    rw [hl] at hsets
    simp only at hsets
    rcases make_regsets_loop_names_init fuel regs st hok hl with h0 | ⟨ho, hI⟩
    · rw [h0] at hsets
      simp only [ne_eq, not_true_eq_false, if_false, Option.some.injEq] at hsets
      rw [← hsets]
      exact ⟨by simp, fun pre s post h => by simp at h⟩
    · rw [if_pos ho.2.1] at hsets
      cases hp : push_regset fuel st with
      | none => rw [hp] at hsets; cases hsets
      | some st1 =>
        rw [hp] at hsets
        simp only [Option.map_some', Option.some.injEq] at hsets
        have := push_regset_names ho hI hp
        rw [hsets] at this
        exact ⟨this.2.1, this.2.2.2⟩

theorem regset_names_deduplicated_witness :
    (∀ r ∈ [mk_reg "R0" "i32", mk_reg "R1" "i64", mk_reg "SP" "i32", mk_reg "R2" "i32"],
      reg_ok r) ∧
    make_regsets 5 [mk_reg "R0" "i32", mk_reg "R1" "i64", mk_reg "SP" "i32",
        mk_reg "R2" "i32"] =
      some [⟨"R".toList, "i32".toList, [mk_reg "R0" "i32"]⟩,
        ⟨"R1".toList, "i64".toList, [mk_reg "R1" "i64"]⟩,
        ⟨"SP".toList, "i32".toList, [mk_reg "SP" "i32"]⟩,
        ⟨"R12".toList, "i32".toList, [mk_reg "R2" "i32"]⟩] ∧
    ∃ sets, make_regsets 5 [mk_reg "R0" "i32", mk_reg "R1" "i64", mk_reg "SP" "i32",
        mk_reg "R2" "i32"] = some sets ∧ (sets.map (·.name)).Nodup ∧
      ∀ pre s post, sets = pre ++ s :: post →
        (∀ t ∈ pre, prefix_of_set t ≠ prefix_of_set s) → some s.name = prefix_of_set s :=
  ⟨by decide, by decide,
    regset_names_deduplicated 5 _ (by decide) (by decide)⟩

/-! ## Register-file builder: sub-registers -/

/-- A sub-register that `create` never creates makes the loop over the
sub-registers fail or stop. -/
theorem create_subs_not_true
    (create : builder_state → register_info → Nat → Nat → outcome (Option Nat))
    (ri : register_info) (rdef s : Nat)
    (hs : ∀ st st2 r, create st ri rdef s ≠ outcome.ret st2 (some r)) :
    ∀ (l : List Nat) (st st2 : builder_state), s ∈ l →
      create_subs create ri rdef l st ≠ outcome.ret st2 true := by
  intro l
  induction l with
  | nil => intro st st2 h; cases h
  | cons x rest ih =>
    intro st st2 hmem
    unfold create_subs
    cases hc : create st ri rdef x with
    | ret st1 v =>
      cases v with
      | none => simp
      | some r =>
        simp only
        rcases List.mem_cons.1 hmem with h | h
        · subst h; exact absurd hc (hs st st1 r)
        · exact ih st1 st2 h
    | abort => simp
    | out_of_fuel => simp

/-- The loop over the sub-registers stops with `false` at the first one that
`create` refuses. -/
theorem create_subs_stops
    (create : builder_state → register_info → Nat → Nat → outcome (Option Nat))
    (ri : register_info) (rdef s : Nat) (post : List Nat) :
    ∀ (pre : List Nat) (st st1 st2 : builder_state),
      create_subs create ri rdef pre st = outcome.ret st1 true →
      create st1 ri rdef s = outcome.ret st2 none →
      create_subs create ri rdef (pre ++ s :: post) st = outcome.ret st2 false := by
  intro pre
  induction pre with
  | nil =>
    intro st st1 st2 h1 h2
    simp only [create_subs, outcome.ret.injEq, and_true] at h1
    subst h1
    simp only [List.nil_append, create_subs, h2]
  | cons x rest ih =>
    intro st st1 st2 h1 h2
    unfold create_subs at h1
    simp only [List.cons_append]
    unfold create_subs
    cases hc : create st ri rdef x with
    | ret st3 v =>
      rw [hc] at h1
      cases v with
      | none => simp at h1
      | some r =>
        simp only at h1 ⊢
        exact ih st3 st1 st2 h1 h2
    | abort => rw [hc] at h1; simp at h1
    | out_of_fuel => rw [hc] at h1; simp at h1

/-- `create_pseudo_aliased_sub` on a legal flag binding. -/
theorem create_pseudo_ok {env : builder_env} {sub_ri binding_ri : register_info}
    {type : c_type} (hb : sub_ri.binding.bind env.mem = some binding_ri)
    (hok : flag_binding_ok binding_ri type) (st : builder_state) (top_rdef : Nat) :
    ∃ preg, flag_register (binding_ri.name.drop 1) = some preg ∧
      create_pseudo_aliased_sub env st top_rdef type sub_ri =
        outcome.ret
          ⟨st.heap ++ [⟨some top_rdef, sub_ri.name, type, def_kind.bound preg,
            sub_ri.bit_start, 1, none, []⟩], st.g_rdefs⟩ (some st.heap.length) := by
  obtain ⟨hname, hbits⟩ := hok
  unfold create_pseudo_aliased_sub
  rw [hb]
  simp only [List.mem_cons, List.mem_singleton, List.not_mem_nil, or_false] at hname
  simp only [hbits]
  rcases hname with h | h | h | h | h <;> simp only [h]
  · exact ⟨special_register.C, by decide, by rfl⟩
  · exact ⟨special_register.N, by decide, by rfl⟩
  · exact ⟨special_register.P, by decide, by rfl⟩
  · exact ⟨special_register.V, by decide, by rfl⟩
  · exact ⟨special_register.Z, by decide, by rfl⟩

/-- `create_pseudo_aliased_sub` on an illegal flag binding. -/
theorem create_pseudo_fails {env : builder_env} {sub_ri binding_ri : register_info}
    {type : c_type} (hb : sub_ri.binding.bind env.mem = some binding_ri)
    (hok : ¬ flag_binding_ok binding_ri type) (st : builder_state) (top_rdef : Nat) :
    create_pseudo_aliased_sub env st top_rdef type sub_ri = outcome.ret st none := by
  unfold create_pseudo_aliased_sub
  rw [hb]
  simp only
  by_cases hn : binding_ri.name.drop 1 ≠ "C".toList ∧ binding_ri.name.drop 1 ≠ "N".toList ∧
      binding_ri.name.drop 1 ≠ "P".toList ∧ binding_ri.name.drop 1 ≠ "V".toList ∧
      binding_ri.name.drop 1 ≠ "Z".toList
  · rw [if_pos hn]
  · rw [if_neg hn]
    have hbits : type.bits ≠ 1 := by
      intro h1
      apply hok
      refine ⟨?_, h1⟩
      simp only [List.mem_cons, List.mem_singleton, List.not_mem_nil, or_false]
      by_contra hc
      apply hn
      simp only [not_or] at hc
      exact hc
    rw [if_pos hbits]

/-- `create_sub` on a sub-register bound to a pseudo register: what
`create_pseudo_aliased_sub` makes, then the loop over its own
sub-registers. -/
theorem create_sub_pseudo {env : builder_env} {s : Nat} {sub_ri binding_ri : register_info}
    {type : c_type} (hs : env.mem s = some sub_ri) (hhw : sub_ri.hwexpr = none)
    (hbidi : sub_ri.flags &&& BIDIBIND_FLAG = 0)
    (hb : sub_ri.binding.bind env.mem = some binding_ri)
    (hpct : binding_ri.name.head? = some '%')
    (htype : env.convert_type sub_ri.type = some type)
    (fuel : Nat) (st : builder_state) (top_ri : register_info) (top_rdef : Nat) :
    create_sub env (fuel + 1) st top_ri top_rdef s =
      match create_pseudo_aliased_sub env st top_rdef type sub_ri with
      | outcome.ret st1 (some rdef) =>
        (match create_subs (create_sub env fuel) sub_ri rdef sub_ri.subs st1 with
          | outcome.ret st2 true => outcome.ret st2 (some rdef)
          | outcome.ret st2 false => outcome.ret st2 none
          | outcome.abort => outcome.abort
          | outcome.out_of_fuel => outcome.out_of_fuel)
      | r => r := by
  have hsome : sub_ri.binding.isSome = true := by
    cases h : sub_ri.binding with
    | none => rw [h] at hb; cases hb
    | some b => rfl
  unfold create_sub create_rdef
  simp only [hs, htype, hhw, hbidi, hb, hpct, hsome, Option.isSome_none, Bool.false_eq_true,
    if_false, if_true, ne_eq, not_true_eq_false]

/-- `analyze_top` returns `true` only when the loop over the sub-registers
does. -/
theorem analyze_top_true {env : builder_env} {fuel : Nat} {st st2 : builder_state}
    {ri : register_info} (h : analyze_top env fuel st ri = outcome.ret st2 true) :
    ∃ rtype st1, env.convert_type ri.type = some rtype ∧
      create_subs (create_sub env fuel) ri st.heap.length ri.subs
        ⟨st.heap ++ [⟨none, ri.name, rtype, def_kind.top, 0, rtype.bits, none, []⟩],
          st.g_rdefs⟩ = outcome.ret st1 true ∧
      st2 = { st1 with g_rdefs := st1.g_rdefs ++ [st.heap.length] } := by
  unfold analyze_top at h
  split at h
  · cases h
  · cases hc : env.convert_type ri.type with
    | none => rw [hc] at h; simp at h
    | some rtype =>
      rw [hc] at h
      simp only [new_def] at h
      refine ⟨rtype, ?_⟩
      cases hl : create_subs (create_sub env fuel) ri st.heap.length ri.subs
          ⟨st.heap ++ [⟨none, ri.name, rtype, def_kind.top, 0, rtype.bits, none, []⟩],
            st.g_rdefs⟩ with
      | ret st1 b =>
        rw [hl] at h
        cases b with
        | true =>
          simp only [outcome.ret.injEq, and_true] at h
          exact ⟨st1, rfl, rfl, h.symm⟩
        | false => simp at h
      | abort => rw [hl] at h; simp at h
      | out_of_fuel => rw [hl] at h; simp at h

/-- `analyze_top` returns `false` when the loop over the sub-registers
does. -/
theorem analyze_top_false {env : builder_env} {fuel : Nat} {st st1 : builder_state}
    {ri : register_info} {rtype : c_type} (hty : ri.type ≠ none)
    (hc : env.convert_type ri.type = some rtype)
    (hl : create_subs (create_sub env fuel) ri st.heap.length ri.subs
      ⟨st.heap ++ [⟨none, ri.name, rtype, def_kind.top, 0, rtype.bits, none, []⟩],
        st.g_rdefs⟩ = outcome.ret st1 false) :
    analyze_top env fuel st ri = outcome.ret st1 false := by
  unfold analyze_top
  rw [if_neg (by simpa using hty), hc]
  simp only [new_def]
  rw [hl]

/-- C13: Pseudo-flag binding validation. For a sub-register without hardwired
expression and without the `BIDIBIND` flag, bound to a register whose name
starts with `%`: `create_pseudo_aliased_sub` yields a definition exactly when
the name after `%` is one of `C`, `N`, `P`, `V`, `Z` and the type is 1 bit
wide; the definition is then bound to the special register of the letter and
placed at the `bit_start` of the sub-register with width 1, and `create_sub`
returns it when the sub-register has no sub-registers of its own. Otherwise
`create_pseudo_aliased_sub` yields no definition, `create_sub` returns null,
and `analyze_top` of a register that has it among its sub-registers never
returns `true` and returns `false` once the sub-registers before it are
created. -/
theorem pseudo_flag_binding (env : builder_env) (s : Nat) (sub_ri binding_ri : register_info)
    (type : c_type) (hs : env.mem s = some sub_ri) (hhw : sub_ri.hwexpr = none)
    (hbidi : sub_ri.flags &&& BIDIBIND_FLAG = 0)
    (hb : sub_ri.binding.bind env.mem = some binding_ri)
    (hpct : binding_ri.name.head? = some '%')
    (htype : env.convert_type sub_ri.type = some type) :
    (∀ st top_rdef,
      (∃ st2 rdef, create_pseudo_aliased_sub env st top_rdef type sub_ri =
        outcome.ret st2 (some rdef)) ↔ flag_binding_ok binding_ri type) ∧
    (flag_binding_ok binding_ri type →
      ∃ preg, flag_register (binding_ri.name.drop 1) = some preg ∧
        ∀ st top_rdef,
          create_pseudo_aliased_sub env st top_rdef type sub_ri =
            outcome.ret
              ⟨st.heap ++ [⟨some top_rdef, sub_ri.name, type, def_kind.bound preg,
                sub_ri.bit_start, 1, none, []⟩], st.g_rdefs⟩ (some st.heap.length) ∧
          (sub_ri.subs = [] → ∀ fuel top_ri,
            create_sub env (fuel + 1) st top_ri top_rdef s =
              outcome.ret
                ⟨st.heap ++ [⟨some top_rdef, sub_ri.name, type, def_kind.bound preg,
                  sub_ri.bit_start, 1, none, []⟩], st.g_rdefs⟩ (some st.heap.length))) ∧
    (¬ flag_binding_ok binding_ri type →
      (∀ st top_rdef,
        create_pseudo_aliased_sub env st top_rdef type sub_ri = outcome.ret st none) ∧
      (∀ fuel st top_ri top_rdef,
        create_sub env (fuel + 1) st top_ri top_rdef s = outcome.ret st none) ∧
      (∀ fuel st ri st2, s ∈ ri.subs → analyze_top env fuel st ri ≠ outcome.ret st2 true) ∧
      (∀ fuel st ri rtype pre post st1, ri.type ≠ none →
        env.convert_type ri.type = some rtype → ri.subs = pre ++ s :: post →
        create_subs (create_sub env (fuel + 1)) ri st.heap.length pre
          ⟨st.heap ++ [⟨none, ri.name, rtype, def_kind.top, 0, rtype.bits, none, []⟩],
            st.g_rdefs⟩ = outcome.ret st1 true →
        analyze_top env (fuel + 1) st ri = outcome.ret st1 false)) := by
  have hfail : ¬ flag_binding_ok binding_ri type → ∀ fuel st top_ri top_rdef,
      create_sub env (fuel + 1) st top_ri top_rdef s = outcome.ret st none := by
    intro hno fuel st top_ri top_rdef
    rw [create_sub_pseudo hs hhw hbidi hb hpct htype, create_pseudo_fails hb hno]
  refine ⟨?_, ?_, ?_⟩
  · intro st top_rdef
    constructor
    · rintro ⟨st2, rdef, h⟩
      by_contra hno
      rw [create_pseudo_fails hb hno] at h
      simp at h
    · intro hok
      obtain ⟨preg, -, h⟩ := create_pseudo_ok hb hok st top_rdef
      exact ⟨_, _, h⟩
  · intro hok
    obtain ⟨preg, hp, -⟩ := create_pseudo_ok hb hok builder_init 0
    refine ⟨preg, hp, ?_⟩
    intro st top_rdef
    obtain ⟨preg2, hp2, h⟩ := create_pseudo_ok hb hok st top_rdef
    rw [hp] at hp2
    cases hp2
    refine ⟨h, ?_⟩
    intro hsubs fuel top_ri
    rw [create_sub_pseudo hs hhw hbidi hb hpct htype, h]
    simp only [hsubs, create_subs]
  · intro hno
    refine ⟨create_pseudo_fails hb hno, hfail hno, ?_, ?_⟩
    · intro fuel st ri st2 hmem h
      obtain ⟨rtype, st1, -, hl, -⟩ := analyze_top_true h
      refine create_subs_not_true _ ri st.heap.length s ?_ _ _ _ hmem hl
      intro st3 st4 r
      cases fuel with
      | zero => simp [create_sub]
      | succ n => rw [hfail hno]; simp
    · intro fuel st ri rtype pre post st1 hty hc hsubs hpre
      apply analyze_top_false hty hc
      rw [hsubs]
      exact create_subs_stops _ ri _ s post pre _ st1 st1 hpre (hfail hno fuel st1 ri _)

theorem pseudo_flag_binding_witness :
    sample_env.mem 10 =
        some { name := "CF".toList, type := some "i1".toList, binding := some 20,
               bit_start := 3 } ∧
      analyze_top sample_env 1 builder_init
          { name := "PSR".toList, type := some "i8".toList, subs := [10] } =
        outcome.ret
          ⟨[⟨none, "PSR".toList, ⟨8, 0⟩, def_kind.top, 0, 8, none, []⟩,
            ⟨some 0, "CF".toList, ⟨1, 0⟩, def_kind.bound special_register.C, 3, 1, none, []⟩],
            [0]⟩ true ∧
      analyze_top sample_env 1 builder_init
          { name := "PSR".toList, type := some "i8".toList, subs := [10, 11] } =
        outcome.ret
          ⟨[⟨none, "PSR".toList, ⟨8, 0⟩, def_kind.top, 0, 8, none, []⟩,
            ⟨some 0, "CF".toList, ⟨1, 0⟩, def_kind.bound special_register.C, 3, 1, none, []⟩],
            []⟩ false ∧
      (∃ st2 rdef, create_pseudo_aliased_sub sample_env builder_init 0 ⟨1, 0⟩
          { name := "CF".toList, type := some "i1".toList, binding := some 20,
            bit_start := 3 } = outcome.ret st2 (some rdef)) :=
  ⟨by decide, by decide, by decide,
    ((pseudo_flag_binding sample_env 10 _ { name := "%C".toList, type := some "i1".toList }
      ⟨1, 0⟩ (by decide) (by decide) (by decide) (by decide) (by decide) (by decide)).1
      builder_init 0).2 (by decide)⟩

/-! ## Register-file builder: what a call keeps -/

theorem keeps_refl (st : builder_state) : keeps st st :=
  ⟨rfl, le_refl _, fun _ d h => ⟨d, h, rfl⟩⟩

theorem keeps_trans {st1 st2 st3 : builder_state} (h1 : keeps st1 st2) (h2 : keeps st2 st3) :
    keeps st1 st3 := by
  refine ⟨h2.1.trans h1.1, le_trans h1.2.1 h2.2.1, ?_⟩
  intro i d hd
  obtain ⟨d2, hd2, e2⟩ := h1.2.2 i d hd
  obtain ⟨d3, hd3, e3⟩ := h2.2.2 i d2 hd2
  refine ⟨d3, hd3, ?_⟩
  rw [e3, e2]

theorem keeps_new_def (st : builder_state) (d : register_def) :
    keeps st (new_def st d).1 ∧ fresh_ptr st (new_def st d).1 (some (new_def st d).2) := by
  refine ⟨⟨rfl, by simp [new_def], ?_⟩, ?_⟩
  · intro i d0 h
    refine ⟨d0, ?_, rfl⟩
    simp only [new_def]
    have hi : i < st.heap.length := by
      by_contra hc
      rw [List.getElem?_eq_none (by omega)] at h
      cases h
    rw [List.getElem?_append_left hi]
    exact h
  · intro r hr
    cases hr
    simp [new_def]

theorem set_aliasing_range_length (st : builder_state) (r a b : Nat) :
    (set_aliasing_range st r a b).heap.length = st.heap.length := by
  unfold set_aliasing_range
  split
  · rfl
  · simp

theorem keeps_set_aliasing_range {st st1 : builder_state} {r : Nat} (a b : Nat)
    (hr : st.heap.length ≤ r) (h : keeps st st1) : keeps st (set_aliasing_range st1 r a b) := by
  refine ⟨?_, by rw [set_aliasing_range_length]; exact h.2.1, ?_⟩
  · unfold set_aliasing_range
    split
    · exact h.1
    · exact h.1
  · intro i d hd
    have hi : i < st.heap.length := by
      by_contra hc
      rw [List.getElem?_eq_none (by omega)] at hd
      cases hd
    obtain ⟨d2, hd2, e2⟩ := h.2.2 i d hd
    refine ⟨d2, ?_, e2⟩
    unfold set_aliasing_range
    split
    · exact hd2
    · simp only
      rw [List.getElem?_set_ne (by omega)]
      exact hd2

theorem keeps_add_uow {st st2 : builder_state} {b r : Nat} (h : add_uow st b r = some st2) :
    keeps st st2 ∧ st2.heap.length = st.heap.length := by
  unfold add_uow at h
  split at h
  · cases h
  · split at h
    · cases h
      exact ⟨keeps_refl _, rfl⟩
    · rename_i d hd
      cases h
      refine ⟨⟨rfl, by simp, ?_⟩, by simp⟩
      intro i d0 hd0
      simp only
      by_cases hib : b = i
      · subst hib
        rw [hd] at hd0
        cases hd0
        refine ⟨{ d with uow := d.uow ++ [r] }, ?_, rfl⟩
        have hlt : b < st.heap.length := by
          by_contra hc
          rw [List.getElem?_eq_none (by omega)] at hd
          cases hd
        rw [List.getElem?_set_self hlt]
      · rw [List.getElem?_set_ne hib]
        exact ⟨d0, hd0, rfl⟩

theorem fresh_ptr_none (st st2 : builder_state) : fresh_ptr st st2 none :=
  fun _ h => by cases h

theorem create_pseudo_keeps {env : builder_env} {st st2 : builder_state} {top_rdef : Nat}
    {type : c_type} {sub_ri : register_info} {v : Option Nat}
    (h : create_pseudo_aliased_sub env st top_rdef type sub_ri = outcome.ret st2 v) :
    keeps st st2 ∧ fresh_ptr st st2 v := by
  unfold create_pseudo_aliased_sub at h
  split at h
  · cases h
  · simp only at h
    split at h
    · cases h; exact ⟨keeps_refl _, fresh_ptr_none _ _⟩
    · split at h
      · cases h; exact ⟨keeps_refl _, fresh_ptr_none _ _⟩
      · split at h
        · cases h
        · cases h
          exact keeps_new_def _ _

theorem create_subs_keeps
    {create : builder_state → register_info → Nat → Nat → outcome (Option Nat)}
    (hc : create_ok create) (ri : register_info) (rdef : Nat) :
    ∀ (l : List Nat) (st st2 : builder_state) (b : Bool),
      create_subs create ri rdef l st = outcome.ret st2 b → keeps st st2 := by
  intro l
  induction l with
  | nil =>
    intro st st2 b h
    simp only [create_subs, outcome.ret.injEq] at h
    rw [← h.1]
    exact keeps_refl _
  | cons x rest ih =>
    intro st st2 b h
    unfold create_subs at h
    cases hx : create st ri rdef x with
    | ret st1 v =>
      rw [hx] at h
      have k1 := (hc _ _ _ _ _ _ hx).1
      cases v with
      | none =>
        simp only [outcome.ret.injEq] at h
        rw [← h.1]
        exact k1
      | some r => exact keeps_trans k1 (ih st1 st2 b h)
    | abort => rw [hx] at h; cases h
    | out_of_fuel => rw [hx] at h; cases h

theorem create_aliased_sub_keeps
    {create : builder_state → register_info → Nat → Nat → outcome (Option Nat)}
    (hc : create_ok create) {st st2 : builder_state} {top_ri sub_ri : register_info}
    {top_rdef sub alias_to : Nat} {type : c_type} {v : Option Nat}
    (h : create_aliased_sub create st top_ri top_rdef type sub sub_ri alias_to =
      outcome.ret st2 v) : keeps st st2 ∧ fresh_ptr st st2 v := by
  unfold create_aliased_sub at h
  split at h
  · cases h; exact ⟨keeps_refl _, fresh_ptr_none _ _⟩
  · cases hx : create st top_ri top_rdef alias_to with
    | ret st1 w =>
      rw [hx] at h
      obtain ⟨k1, f1⟩ := hc _ _ _ _ _ _ hx
      cases w with
      | none =>
        cases h
        exact ⟨k1, fresh_ptr_none _ _⟩
      | some r =>
        simp only [outcome.ret.injEq] at h
        obtain ⟨h1, h2⟩ := h
        subst h1 h2
        obtain ⟨f2, f3⟩ := f1 r rfl
        refine ⟨keeps_set_aliasing_range _ _ f2 k1, ?_⟩
        intro r2 hr2
        cases hr2
        rw [set_aliasing_range_length]
        exact ⟨f2, f3⟩
    | abort => rw [hx] at h; cases h
    | out_of_fuel => rw [hx] at h; cases h

theorem create_rdef_keeps {env : builder_env}
    {create : builder_state → register_info → Nat → Nat → outcome (Option Nat)}
    (hc : create_ok create) {st st2 : builder_state} {top_ri sub_ri : register_info}
    {top_rdef sub : Nat} {type : c_type} {v : Option Nat}
    (h : create_rdef env create st top_ri top_rdef sub sub_ri type = outcome.ret st2 v) :
    keeps st st2 ∧ fresh_ptr st st2 v := by
  unfold create_rdef at h
  split at h
  · split at h
    · cases h; exact ⟨keeps_refl _, fresh_ptr_none _ _⟩
    · cases h; exact keeps_new_def _ _
  · split at h
    · split at h
      · cases h; exact ⟨keeps_refl _, fresh_ptr_none _ _⟩
      · split at h
        · cases h
        · split at h
          · cases h
          · split at h
            · cases h; exact ⟨keeps_refl _, fresh_ptr_none _ _⟩
            · split at h
              · cases h; exact ⟨keeps_refl _, fresh_ptr_none _ _⟩
              · exact create_aliased_sub_keeps hc h
    · split at h
      · split at h
        · cases h
        · split at h
          · exact create_pseudo_keeps h
          · simp only at h
            split at h
            · split at h
              · cases h
                exact ⟨(keeps_new_def _ _).1, fresh_ptr_none _ _⟩
              · rename_i st3 hu
                cases h
                obtain ⟨k1, f1⟩ := keeps_new_def st
                  ⟨some top_rdef, sub_ri.name, type, def_kind.sub, sub_ri.bit_start, type.bits,
                    none, []⟩
                obtain ⟨k2, l2⟩ := keeps_add_uow hu
                refine ⟨keeps_trans k1 k2, ?_⟩
                intro r hr
                rw [l2]
                exact f1 r hr
            · cases h
      · split at h
        · cases h; exact ⟨keeps_refl _, fresh_ptr_none _ _⟩
        · cases h; exact keeps_new_def _ _

/-- Every call of `create_sub` that returns extends the state, and a pointer
it returns is a definition it created. -/
theorem create_sub_ok (env : builder_env) : ∀ fuel, create_ok (create_sub env fuel) := by
  intro fuel
  induction fuel with
  | zero => intro st ri rdef s st2 v h; simp [create_sub] at h
  | succ n ih =>
    intro st ri rdef s st2 v h
    unfold create_sub at h
    cases hmem : env.mem s with
    | none => rw [hmem] at h; cases h
    | some sub_ri =>
      rw [hmem] at h
      simp only at h
      cases hty : env.convert_type sub_ri.type with
      | none =>
        rw [hty] at h
        cases h
        exact ⟨keeps_refl _, fresh_ptr_none _ _⟩
      | some type =>
        rw [hty] at h
        simp only at h
        cases hm : create_rdef env (create_sub env n) st ri rdef s sub_ri type with
        | ret st1 w =>
          rw [hm] at h
          obtain ⟨k1, f1⟩ := create_rdef_keeps ih hm
          cases w with
          | none =>
            cases h
            exact ⟨k1, fresh_ptr_none _ _⟩
          | some r =>
            simp only at h
            cases hl : create_subs (create_sub env n) sub_ri r sub_ri.subs st1 with
            | ret st3 b =>
              rw [hl] at h
              have k2 := create_subs_keeps ih sub_ri r _ _ _ _ hl
              cases b with
              | true =>
                cases h
                refine ⟨keeps_trans k1 k2, ?_⟩
                intro r2 hr2
                cases hr2
                obtain ⟨f2, f3⟩ := f1 r rfl
                exact ⟨f2, Nat.lt_of_lt_of_le f3 k2.2.1⟩
              | false =>
                cases h
                exact ⟨keeps_trans k1 k2, fresh_ptr_none _ _⟩
            | abort => rw [hl] at h; cases h
            | out_of_fuel => rw [hl] at h; cases h
        | abort => rw [hm] at h; cases h
        | out_of_fuel => rw [hm] at h; cases h

/-! ## Register-file builder: bidirectional bindings -/

/-- `create_sub` on a plain register creates one definition. -/
theorem create_sub_plain {env : builder_env} {a : Nat} {r : register_info} {type : c_type}
    (ha : env.mem a = some r) (hp : plain_reg r) (hty : env.convert_type r.type = some type)
    (fuel : Nat) (st : builder_state) (top_ri : register_info) (top_rdef : Nat) :
    create_sub env (fuel + 1) st top_ri top_rdef a =
      outcome.ret
        ⟨st.heap ++ [⟨some top_rdef, r.name, type, def_kind.sub, r.bit_start, type.bits,
          none, []⟩], st.g_rdefs⟩ (some st.heap.length) := by
  obtain ⟨h1, h2, h3, h4, h5⟩ := hp
  unfold create_sub create_rdef
  simp [ha, hty, h1, h2, h3, h4, h5, new_def, create_subs]

/-- `create_sub` on a bidirectionally bound sub-register: the checks, then
`create_sub` on the bound target, `set_aliasing_range`, and the loop over the
sub-registers. -/
theorem create_sub_bidi {env : builder_env} {s a : Nat} {sub_ri binding_ri : register_info}
    (hs : env.mem s = some sub_ri) (hhw : sub_ri.hwexpr = none)
    (hbidi : sub_ri.flags &&& BIDIBIND_FLAG ≠ 0) (hbind : sub_ri.binding = some a)
    (ha : env.mem a = some binding_ri)
    (fuel : Nat) (st : builder_state) (top_ri : register_info) (top_rdef : Nat) :
    create_sub env (fuel + 1) st top_ri top_rdef s =
      match env.convert_type sub_ri.type with
      | none => outcome.ret st none
      | some type =>
        if sub_ri.bind_copy.isSome then outcome.ret st none
        else if env.convert_type binding_ri.type ≠ some type then outcome.ret st none
        else if a = s then outcome.ret st none
        else
          match create_sub env fuel st top_ri top_rdef a with
          | outcome.ret st1 (some rdef) =>
            (match create_subs (create_sub env fuel) sub_ri rdef sub_ri.subs
                (set_aliasing_range st1 rdef sub_ri.bit_start type.bits) with
              | outcome.ret st2 true => outcome.ret st2 (some rdef)
              | outcome.ret st2 false => outcome.ret st2 none
              | outcome.abort => outcome.abort
              | outcome.out_of_fuel => outcome.out_of_fuel)
          | r => r := by
  conv_lhs => unfold create_sub
  rw [hs]
  simp only
  cases hty : env.convert_type sub_ri.type with
  | none => rfl
  | some type =>
    simp only
    unfold create_rdef
    simp only [hhw, Option.isSome_none, Bool.false_eq_true, if_false, hbidi, ne_eq,
      not_false_eq_true, if_true, hbind, ha]
    by_cases hcopy : sub_ri.bind_copy.isSome = true
    · simp only [hcopy, if_true]
    · simp only [hcopy, Bool.false_eq_true, if_false]
      cases hbt : env.convert_type binding_ri.type with
      | none => simp
      | some bind_type =>
        simp only [Option.some.injEq]
        by_cases hne : bind_type = type
        · subst hne
          simp only [not_true_eq_false, if_false]
          unfold create_aliased_sub
          by_cases has : a = s
          · simp only [has, if_true]
          · simp only [has, if_false]
            cases hc : create_sub env fuel st top_ri top_rdef a with
            | ret st1 w =>
              cases w with
              | none => rfl
              | some r => rfl
            | abort => rfl
            | out_of_fuel => rfl
        · simp only [hne, not_false_eq_true, if_true]

/-- `analyze` returns `false` when `analyze_top` does for the first set. -/
theorem analyze_first_false {env : builder_env} {fuel : Nat}
    {nat_sort : List register_info → List register_info} {st st1 : builder_state}
    {regs : List register_info} {set : regset} {rest : List regset} {ri : register_info}
    (hm : make_regsets fuel (nat_sort regs) = some (set :: rest)) (hset : set.regs = [ri])
    (ht : analyze_top env fuel st ri = outcome.ret st1 false) :
    analyze env fuel nat_sort st regs = outcome.ret st1 false := by
  unfold analyze
  rw [hm]
  simp only [analyze_sets, hset, List.length_singleton, if_true, List.head?_cons, ht]

/-- C14 (amended): Bidirectional binding validation. For a sub-register with
the `BIDIBIND` flag and no hardwired expression whose bound target exists:
unless the converted type of the target equals that of the sub-register and
the target is another register, `create_sub` returns null in the unchanged
state, `analyze_top` of a register that has it among its sub-registers never
returns `true` and returns `false` once the sub-registers before it are
created, and `analyze` returns `false` when that register is the first set.
When `create_sub` returns a definition, the types are equal, the target is
another register, and the definition is the one `create_sub` returns for the
target under the same parent, with its aliasing range set to the `bit_start`
and width of the sub-register. For a plain target it is one new definition,
named after the target. -/
theorem bidirectional_binding (env : builder_env) (s a : Nat)
    (sub_ri binding_ri : register_info) (hs : env.mem s = some sub_ri)
    (hhw : sub_ri.hwexpr = none) (hbidi : sub_ri.flags &&& BIDIBIND_FLAG ≠ 0)
    (hbind : sub_ri.binding = some a) (ha : env.mem a = some binding_ri) :
    (¬ (env.convert_type binding_ri.type = env.convert_type sub_ri.type ∧ a ≠ s) →
      (∀ fuel st top_ri top_rdef,
        create_sub env (fuel + 1) st top_ri top_rdef s = outcome.ret st none) ∧
      (∀ fuel st ri st2, s ∈ ri.subs → analyze_top env fuel st ri ≠ outcome.ret st2 true) ∧
      (∀ fuel st ri rtype pre post st1, ri.type ≠ none →
        env.convert_type ri.type = some rtype → ri.subs = pre ++ s :: post →
        create_subs (create_sub env (fuel + 1)) ri st.heap.length pre
          ⟨st.heap ++ [⟨none, ri.name, rtype, def_kind.top, 0, rtype.bits, none, []⟩],
            st.g_rdefs⟩ = outcome.ret st1 true →
        analyze_top env (fuel + 1) st ri = outcome.ret st1 false ∧
        ∀ nat_sort regs set rest,
          make_regsets (fuel + 1) (nat_sort regs) = some (set :: rest) → set.regs = [ri] →
          analyze env (fuel + 1) nat_sort st regs = outcome.ret st1 false)) ∧
    (∀ fuel st top_ri top_rdef st2 rdef,
      create_sub env (fuel + 1) st top_ri top_rdef s = outcome.ret st2 (some rdef) →
      ∃ type st1 d1 d2, env.convert_type sub_ri.type = some type ∧
        env.convert_type binding_ri.type = some type ∧ a ≠ s ∧
        create_sub env fuel st top_ri top_rdef a = outcome.ret st1 (some rdef) ∧
        create_subs (create_sub env fuel) sub_ri rdef sub_ri.subs
          (set_aliasing_range st1 rdef sub_ri.bit_start type.bits) = outcome.ret st2 true ∧
        st1.heap[rdef]? = some d1 ∧ st2.heap[rdef]? = some d2 ∧
        d2 = { d1 with
          aliasing_range := some (sub_ri.bit_start, type.bits)
          uow := d2.uow }) ∧
    (∀ type, env.convert_type sub_ri.type = some type →
      env.convert_type binding_ri.type = some type → a ≠ s → sub_ri.bind_copy = none →
      sub_ri.subs = [] → plain_reg binding_ri →
      ∀ fuel st top_ri top_rdef,
        create_sub env (fuel + 2) st top_ri top_rdef s =
          outcome.ret
            ⟨st.heap ++ [⟨some top_rdef, binding_ri.name, type, def_kind.sub,
              binding_ri.bit_start, type.bits, some (sub_ri.bit_start, type.bits), []⟩],
              st.g_rdefs⟩ (some st.heap.length)) := by
  have hfail : ¬ (env.convert_type binding_ri.type = env.convert_type sub_ri.type ∧ a ≠ s) →
      ∀ fuel st top_ri top_rdef,
        create_sub env (fuel + 1) st top_ri top_rdef s = outcome.ret st none := by
    intro hno fuel st top_ri top_rdef
    rw [create_sub_bidi hs hhw hbidi hbind ha]
    cases hty : env.convert_type sub_ri.type with
    | none => rfl
    | some type =>
      simp only
      split
      · rfl
      · split
        · rfl
        · rename_i hbt
          split
          · rfl
          · rename_i has
            exfalso
            apply hno
            rw [hty]
            exact ⟨not_not.mp hbt, has⟩
  refine ⟨?_, ?_, ?_⟩
  · intro hno
    refine ⟨hfail hno, ?_, ?_⟩
    · intro fuel st ri st2 hmem h
      obtain ⟨rtype, st1, -, hl, -⟩ := analyze_top_true h
      refine create_subs_not_true _ ri st.heap.length s ?_ _ _ _ hmem hl
      intro st3 st4 r
      cases fuel with
      | zero => simp [create_sub]
      | succ n => rw [hfail hno]; simp
    · intro fuel st ri rtype pre post st1 hty hc hsubs hpre
      have htop : analyze_top env (fuel + 1) st ri = outcome.ret st1 false := by
        apply analyze_top_false hty hc
        rw [hsubs]
        exact create_subs_stops _ ri _ s post pre _ st1 st1 hpre (hfail hno fuel st1 ri _)
      exact ⟨htop, fun nat_sort regs set rest hm hset => analyze_first_false hm hset htop⟩
  · intro fuel st top_ri top_rdef st2 rdef h
    rw [create_sub_bidi hs hhw hbidi hbind ha] at h
    cases hty : env.convert_type sub_ri.type with
    | none => rw [hty] at h; simp at h
    | some type =>
      rw [hty] at h
      simp only at h
      split at h
      · simp at h
      · split at h
        · simp at h
        · rename_i hbt
          split at h
          · simp at h
          · rename_i has
            cases hc : create_sub env fuel st top_ri top_rdef a with
            | ret st1 w =>
              rw [hc] at h
              cases w with
              | none => simp at h
              | some r =>
                simp only at h
                cases hl : create_subs (create_sub env fuel) sub_ri r sub_ri.subs
                    (set_aliasing_range st1 r sub_ri.bit_start type.bits) with
                | ret st3 b =>
                  rw [hl] at h
                  cases b with
                  | false => simp at h
                  | true =>
                    simp only [outcome.ret.injEq, Option.some.injEq] at h
                    obtain ⟨h1, h2⟩ := h
                    subst h1 h2
                    obtain ⟨-, f1⟩ := create_sub_ok env fuel _ _ _ _ _ _ hc
                    obtain ⟨-, f2⟩ := f1 r rfl
                    have hk := create_subs_keeps (create_sub_ok env fuel) sub_ri r _ _ _ _ hl
                    obtain ⟨d1, hd1⟩ : ∃ d1, st1.heap[r]? = some d1 :=
                      ⟨_, List.getElem?_eq_getElem f2⟩
                    have hset : (set_aliasing_range st1 r sub_ri.bit_start type.bits).heap[r]? =
                        some { d1 with aliasing_range := some (sub_ri.bit_start, type.bits) } := by
                      unfold set_aliasing_range
                      rw [hd1]
                      simp only
                      rw [List.getElem?_set_self f2]
                    obtain ⟨d2, hd2, e2⟩ := hk.2.2 r _ hset
                    exact ⟨type, st1, d1, d2, rfl, not_not.mp hbt, has, rfl, hl, hd1, hd2, e2⟩
                | abort => rw [hl] at h; simp at h
                | out_of_fuel => rw [hl] at h; simp at h
            | abort => rw [hc] at h; simp at h
            | out_of_fuel => rw [hc] at h; simp at h
  · intro type hty hbt has hcopy hsubs hplain fuel st top_ri top_rdef
    rw [create_sub_bidi hs hhw hbidi hbind ha, hty]
    simp only [hcopy, Option.isSome_none, Bool.false_eq_true, if_false, hbt, ne_eq,
      not_true_eq_false, has]
    rw [create_sub_plain ha hplain hbt]
    simp only [hsubs, create_subs]
    congr 1
    unfold set_aliasing_range
    simp

theorem bidirectional_binding_witness :
    sample_env.mem 30 =
        some { name := "AX".toList, type := some "i16".toList, flags := BIDIBIND_FLAG,
               binding := some 31, bit_start := 0 } ∧
      sample_env.mem 31 = some { name := "AX".toList, type := some "i16".toList } ∧
      create_sub sample_env 2
          ⟨[⟨none, "EAX".toList, ⟨32, 0⟩, def_kind.top, 0, 32, none, []⟩], []⟩
          { name := "EAX".toList, type := some "i32".toList, subs := [30] } 0 30 =
        outcome.ret
          ⟨[⟨none, "EAX".toList, ⟨32, 0⟩, def_kind.top, 0, 32, none, []⟩,
            ⟨some 0, "AX".toList, ⟨16, 0⟩, def_kind.sub, 0, 16, some (0, 16), []⟩], []⟩
          (some 1) ∧
      analyze_top sample_env 2 builder_init
          { name := "EAX".toList, type := some "i32".toList, subs := [33] } =
        outcome.ret ⟨[⟨none, "EAX".toList, ⟨32, 0⟩, def_kind.top, 0, 32, none, []⟩], []⟩
          false ∧
      analyze_top sample_env 2 builder_init
          { name := "EAX".toList, type := some "i32".toList, subs := [34] } =
        outcome.ret ⟨[⟨none, "EAX".toList, ⟨32, 0⟩, def_kind.top, 0, 32, none, []⟩], []⟩
          false :=
  ⟨by decide, by decide,
    (bidirectional_binding sample_env 30 31
      { name := "AX".toList, type := some "i16".toList, flags := BIDIBIND_FLAG,
        binding := some 31, bit_start := 0 }
      { name := "AX".toList, type := some "i16".toList }
      (by decide) (by decide) (by decide) (by decide) (by decide)).2.2 ⟨16, 0⟩
      (by decide) (by decide) (by decide) (by decide) (by decide) (by decide) 0
      ⟨[⟨none, "EAX".toList, ⟨32, 0⟩, def_kind.top, 0, 32, none, []⟩], []⟩
      { name := "EAX".toList, type := some "i32".toList, subs := [30] } 0,
    by decide, by decide⟩

/-- C14 (as stated) fails in its last part: the register `EAX` with the field
`LOW` bound bidirectionally to the register `AX`. `analyze_top` returns `true`
having created, besides `EAX`, one definition under it, named `AX`; the name
`LOW` of the field is not looked at in that branch and no definition carries
it. -/
theorem bidibind_field_name_not_recorded :
    sample_env.mem 32 =
        some { name := "LOW".toList, type := some "i16".toList, flags := BIDIBIND_FLAG,
               binding := some 31, bit_start := 0 } ∧
      sample_env.mem 31 = some { name := "AX".toList, type := some "i16".toList } ∧
      analyze_top sample_env 2 builder_init
          { name := "EAX".toList, type := some "i32".toList, subs := [32] } =
        outcome.ret
          ⟨[⟨none, "EAX".toList, ⟨32, 0⟩, def_kind.top, 0, 32, none, []⟩,
            ⟨some 0, "AX".toList, ⟨16, 0⟩, def_kind.sub, 0, 16, some (0, 16), []⟩], [0]⟩
          true ∧
      ∀ d ∈ [(⟨none, "EAX".toList, ⟨32, 0⟩, def_kind.top, 0, 32, none, []⟩ : register_def),
          ⟨some 0, "AX".toList, ⟨16, 0⟩, def_kind.sub, 0, 16, some (0, 16), []⟩],
        d.name ≠ "LOW".toList := by
  decide

/-! ## Register-file builder: what `analyze` records -/

theorem recorded_iff (st : builder_state) (name : List Char) :
    recorded st name ↔ ∃ d ∈ st.g_rdefs, ∃ rd, st.heap[d]? = some rd ∧ rd.name = name ∧
      rd.kind = def_kind.top := by
  unfold recorded
  constructor
  · rintro ⟨d, hd, h⟩
    cases hh : st.heap[d]? with
    | none => rw [hh] at h; cases h
    | some rd =>
      rw [hh] at h
      simp only [Option.map_some', Option.some.injEq, Prod.mk.injEq] at h
      exact ⟨d, hd, rd, hh, h.1, h.2⟩
  · rintro ⟨d, hd, rd, h1, h2, h3⟩
    exact ⟨d, hd, by rw [h1, ← h2, ← h3]; rfl⟩

theorem recorded_keeps {st st2 : builder_state} (hk : keeps st st2) {name : List Char}
    (h : recorded st name) : recorded st2 name := by
  rw [recorded_iff] at h ⊢
  obtain ⟨d, hd, rd, h1, h2, h3⟩ := h
  obtain ⟨rd2, e1, e2⟩ := hk.2.2 d rd h1
  refine ⟨d, by rw [hk.1]; exact hd, rd2, e1, ?_, ?_⟩
  · rw [e2]; exact h2
  · rw [e2]; exact h3

/-- A call of `analyze_top` that returns `true` has recorded one definition,
named after the register, and has kept what was recorded. -/
theorem analyze_top_recorded {env : builder_env} {fuel : Nat} {st st2 : builder_state}
    {ri : register_info} (h : analyze_top env fuel st ri = outcome.ret st2 true) :
    recorded st2 ri.name ∧ (∀ n, recorded st n → recorded st2 n) ∧
      st2.g_rdefs.length = st.g_rdefs.length + 1 := by
  obtain ⟨rtype, st1, -, hl, hst2⟩ := analyze_top_true h
  have hk := create_subs_keeps (create_sub_ok env fuel) ri st.heap.length _ _ _ _ hl
  obtain ⟨k0, -⟩ := keeps_new_def st ⟨none, ri.name, rtype, def_kind.top, 0, rtype.bits, none, []⟩
  simp only [new_def] at k0
  have hnew : (⟨st.heap ++ [⟨none, ri.name, rtype, def_kind.top, 0, rtype.bits, none, []⟩],
      st.g_rdefs⟩ : builder_state).heap[st.heap.length]? =
      some ⟨none, ri.name, rtype, def_kind.top, 0, rtype.bits, none, []⟩ := by
    simp
  obtain ⟨rd, e1, e2⟩ := hk.2.2 _ _ hnew
  have hadd : ∀ n, recorded st1 n → recorded st2 n := by
    rintro n ⟨d, hd, h1⟩
    rw [hst2]
    exact ⟨d, List.mem_append_left _ hd, h1⟩
  refine ⟨?_, fun n hn => hadd n (recorded_keeps (keeps_trans k0 hk) hn), ?_⟩
  · rw [hst2, recorded_iff]
    refine ⟨st.heap.length, by simp, rd, e1, ?_, ?_⟩
    · rw [e2]
    · rw [e2]
  · rw [hst2]
    simp only [List.length_append, List.length_singleton]
    rw [hk.1]

/-- The loop of `analyze` records the register of every set of one member and
nothing else. -/
theorem analyze_sets_recorded (env : builder_env) (fuel : Nat) :
    ∀ (sets : List regset) (st st2 : builder_state),
      analyze_sets env fuel sets st = outcome.ret st2 true →
      (∀ n, recorded st n → recorded st2 n) ∧
      (∀ s ∈ sets, ∀ ri, s.regs = [ri] → recorded st2 ri.name) ∧
      st2.g_rdefs.length =
        st.g_rdefs.length + (sets.filter fun s => s.regs.length = 1).length := by
  intro sets
  induction sets with
  | nil =>
    intro st st2 h
    simp only [analyze_sets, outcome.ret.injEq, and_true] at h
    subst h
    refine ⟨fun _ h => h, ?_, by simp⟩
    intro s hs
    cases hs
  | cons s rest ih =>
    intro st st2 h
    unfold analyze_sets at h
    by_cases h1 : s.regs.length = 1
    · rw [if_pos h1] at h
      obtain ⟨ri, hri⟩ := List.length_eq_one.1 h1
      rw [hri] at h
      simp only [List.head?_cons] at h
      cases ht : analyze_top env fuel st ri with
      | ret st1 b =>
        rw [ht] at h
        cases b with
        | false => simp at h
        | true =>
          simp only at h
          obtain ⟨r1, r2, r3⟩ := analyze_top_recorded ht
          obtain ⟨i1, i2, i3⟩ := ih st1 st2 h
          refine ⟨fun n hn => i1 n (r2 n hn), ?_, ?_⟩
          · intro s2 hs2 ri2 hri2
            rcases List.mem_cons.1 hs2 with e | e
            · subst e
              rw [hri] at hri2
              cases hri2
              exact i1 _ r1
            · exact i2 s2 e ri2 hri2
          · rw [i3, r3, List.filter_cons, if_pos (by simpa using h1)]
            simp only [List.length_cons]
            omega
      | abort => rw [ht] at h; simp at h
      | out_of_fuel => rw [ht] at h; simp at h
    · rw [if_neg h1] at h
      obtain ⟨i1, i2, i3⟩ := ih st st2 h
      refine ⟨i1, ?_, ?_⟩
      · intro s2 hs2 ri2 hri2
        rcases List.mem_cons.1 hs2 with e | e
        · subst e
          rw [hri2] at h1
          simp at h1
        · exact i2 s2 e ri2 hri2
      · rw [i3, List.filter_cons, if_neg (by simpa using h1)]

/-- C19 (amended): what `analyze` records. Whenever `analyze` returns `true`,
the register of every register set of one member has a top-level definition of
its own name in `g_rdefs`, what was recorded before is kept, and `g_rdefs` has
grown by the number of sets of one member: for the members of a larger set
nothing is recorded. -/
theorem single_member_sets_recorded (env : builder_env) (fuel : Nat)
    (nat_sort : List register_info → List register_info) (st st2 : builder_state)
    (indep_regs : List register_info)
    (h : analyze env fuel nat_sort st indep_regs = outcome.ret st2 true) :
    ∃ sets, make_regsets fuel (nat_sort indep_regs) = some sets ∧
      (∀ s ∈ sets, ∀ ri, s.regs = [ri] → recorded st2 ri.name) ∧
      (∀ n, recorded st n → recorded st2 n) ∧
      st2.g_rdefs.length =
        st.g_rdefs.length + (sets.filter fun s => s.regs.length = 1).length := by
  unfold analyze at h
  cases hm : make_regsets fuel (nat_sort indep_regs) with
  | none => rw [hm] at h; simp at h
  | some sets =>
    rw [hm] at h
    simp only at h
    obtain ⟨i1, i2, i3⟩ := analyze_sets_recorded env fuel sets st st2 h
    exact ⟨sets, rfl, i2, i1, i3⟩

theorem single_member_sets_recorded_witness :
    analyze sample_env 4 id builder_init
        [mk_reg "PC" "i32", mk_reg "R0" "i32", mk_reg "R1" "i32"] =
      outcome.ret ⟨[⟨none, "PC".toList, ⟨32, 0⟩, def_kind.top, 0, 32, none, []⟩], [0]⟩ true ∧
    ∃ sets, make_regsets 4 [mk_reg "PC" "i32", mk_reg "R0" "i32", mk_reg "R1" "i32"] =
        some sets ∧
      (∀ s ∈ sets, ∀ ri, s.regs = [ri] →
        recorded ⟨[⟨none, "PC".toList, ⟨32, 0⟩, def_kind.top, 0, 32, none, []⟩], [0]⟩
          ri.name) ∧
      (∀ n, recorded builder_init n →
        recorded ⟨[⟨none, "PC".toList, ⟨32, 0⟩, def_kind.top, 0, 32, none, []⟩], [0]⟩ n) ∧
      1 = 0 + (sets.filter fun s => s.regs.length = 1).length :=
  ⟨by decide,
    single_member_sets_recorded sample_env 4 id builder_init
      ⟨[⟨none, "PC".toList, ⟨32, 0⟩, def_kind.top, 0, 32, none, []⟩], [0]⟩
      [mk_reg "PC" "i32", mk_reg "R0" "i32", mk_reg "R1" "i32"] (by decide)⟩

/-- C19 (as stated) fails: the independent registers `R0` and `R1` of one type
form one register set of two members. `analyze` returns `true` and `g_rdefs`
is empty: no definition is recorded under the name `R0` or `R1`. -/
theorem multi_member_set_not_recorded :
    make_regsets 3 [mk_reg "R0" "i32", mk_reg "R1" "i32"] =
        some [⟨"R".toList, "i32".toList, [mk_reg "R0" "i32", mk_reg "R1" "i32"]⟩] ∧
      analyze sample_env 3 id builder_init [mk_reg "R0" "i32", mk_reg "R1" "i32"] =
        outcome.ret ⟨[], []⟩ true ∧
      ¬ recorded ⟨[], []⟩ "R0".toList ∧ ¬ recorded ⟨[], []⟩ "R1".toList := by
  decide

/-! ## Single-step mode, names with digits only, renaming, special evaluators -/

/-- C22: The tagger is a no-op in single-step mode. For a unit whose debug
flags contain `SINGLESTEP`, `cpu_tag(unit, pc)` returns, with any fuel, the
unit as it was: the tag array (absent or present) and the trace of reads,
stores, allocations and front-end queries are unchanged. -/
theorem singlestep_tag_noop (f : arch_func_t) (fuel : Nat) (c : cpu_t) (pc : Nat)
    (hss : c.flags_debug &&& CPU_DEBUG_SINGLESTEP ≠ 0) : cpu_tag f fuel c pc = some c := by
  unfold cpu_tag
  rw [if_pos hss]

theorem singlestep_tag_noop_witness :
    (cpu_set_flags_debug unit_ret CPU_DEBUG_SINGLESTEP).flags_debug &&&
        CPU_DEBUG_SINGLESTEP ≠ 0 ∧
      cpu_tag arch_ret 0 (cpu_set_flags_debug unit_ret CPU_DEBUG_SINGLESTEP) 1 =
        some (cpu_set_flags_debug unit_ret CPU_DEBUG_SINGLESTEP) ∧
      cpu_tag arch_ret 5 ⟨0, 2, 3, none, []⟩ 0 = some ⟨0, 2, 3, none, []⟩ :=
  ⟨by decide,
    singlestep_tag_noop arch_ret 0 (cpu_set_flags_debug unit_ret CPU_DEBUG_SINGLESTEP) 1
      (by decide),
    singlestep_tag_noop arch_ret 5 ⟨0, 2, 3, none, []⟩ 0 (by decide)⟩

theorem drop_digits_scan_all_digits (x : List Char) (h : ∀ ch ∈ x, isdigit ch = true) :
    ∀ n, n ≤ x.length → drop_digits_scan x n = none := by
  intro n
  induction n with
  | zero => intro _; rfl
  | succ n ih =>
    intro hn
    unfold drop_digits_scan
    have hd : isdigit (x.getD n 'a') = true := by
      rw [List.getD_eq_getElem?_getD, List.getElem?_eq_getElem (by omega)]
      exact h _ (List.getElem_mem _)
    rw [if_pos hd]
    exact ih (by omega)

/-- On a non-empty name made of digits only the loop of `drop_digits` runs
through index 0, the decrement wraps and the next read is outside the
string. -/
theorem drop_digits_all_digits (x : List Char) (hne : x ≠ [])
    (h : ∀ ch ∈ x, isdigit ch = true) : drop_digits x = none := by
  unfold drop_digits
  rw [if_neg (by simpa using hne), drop_digits_scan_all_digits x h _ (le_refl _)]
  rfl

/-- On a name with a non-digit `drop_digits` reads inside the string and
returns the name without its maximal suffix of digits. -/
theorem drop_digits_correct {x : List Char} (h : has_nondigit x) :
    ∃ y suffix, drop_digits x = some y ∧ x = y ++ suffix ∧
      (∀ ch ∈ suffix, isdigit ch = true) ∧ ends_nondigit y := by
  have hne : x.length ≠ 0 := by
    obtain ⟨ch, hm, -⟩ := h
    intro h0
    rw [List.length_eq_zero] at h0
    rw [h0] at hm
    cases hm
  obtain ⟨y, hy, -, -⟩ := drop_digits_some h
  have hx : x ≠ [] := by simpa using hne
  refine ⟨y, x.drop y.length, hy, ?_, ?_, drop_digits_ends hy hx⟩
  · unfold drop_digits at hy
    rw [if_neg hne] at hy
    cases hs : drop_digits_scan x x.length with
    | none => rw [hs] at hy; cases hy
    | some m =>
      rw [hs] at hy
      simp only [Option.map_some', Option.some.injEq] at hy
      obtain ⟨hm, -⟩ := drop_digits_scan_spec x _ _ hs
      rw [← hy, List.length_take, Nat.min_eq_left (by omega), List.take_append_drop]
  · unfold drop_digits at hy
    rw [if_neg hne] at hy
    cases hs : drop_digits_scan x x.length with
    | none => rw [hs] at hy; cases hy
    | some m =>
      rw [hs] at hy
      simp only [Option.map_some', Option.some.injEq] at hy
      obtain ⟨hm, -⟩ := drop_digits_scan_spec x _ _ hs
      have key : ∀ n k, drop_digits_scan x n = some k → ∀ i, k < i → i < n →
          isdigit (x.getD i 'a') = true := by
        intro n
        induction n with
        | zero => intro k hk; simp [drop_digits_scan] at hk
        | succ n ih =>
          intro k hk i hki hin
          unfold drop_digits_scan at hk
          by_cases hd : isdigit (x.getD n 'a') = true
          · rw [if_pos hd] at hk
            by_cases hi : i = n
            · rw [hi]; exact hd
            · exact ih k hk i hki (by omega)
          · rw [if_neg hd] at hk
            cases hk
            omega
      intro ch hch
      rw [← hy, List.length_take, Nat.min_eq_left (by omega)] at hch
      obtain ⟨i, hi, hget⟩ := List.getElem_of_mem hch
      rw [List.length_drop] at hi
      rw [List.getElem_drop] at hget
      have := key _ _ hs (m + 1 + i) (by omega) (by omega)
      rw [List.getD_eq_getElem?_getD, List.getElem?_eq_getElem (by omega)] at this
      simpa [hget] using this

/-- C25 (failing input): the name `123`. `drop_digits` tests `x[2]`, `x[1]`
and `x[0]`, all digits, then decrements `n` from 0 and reads `x[n]` outside
the string. On `R12` it returns `R`. -/
theorem drop_digits_reads_outside :
    drop_digits_scan "123".toList 3 = none ∧ drop_digits "123".toList = none ∧
      drop_digits "7".toList = none ∧ drop_digits "R12".toList = some "R".toList ∧
      drop_digits [] = some [] := by
  decide

theorem drop_digits_of_ends_nondigit {x : List Char} (h : ends_nondigit x) :
    drop_digits x = some x := by
  obtain ⟨ch, hl, hd⟩ := h
  have hne : x ≠ [] := by
    intro h0; rw [h0] at hl; cases hl
  obtain ⟨k, hk⟩ : ∃ k, x.length = k + 1 :=
    ⟨x.length - 1, by have := List.length_pos.2 hne; omega⟩
  have hget : x.getD k 'a' = ch := by
    rw [List.getLast?_eq_getElem?, hk] at hl
    simp only [Nat.add_sub_cancel] at hl
    rw [List.getD_eq_getElem?_getD, hl]
    rfl
  unfold drop_digits
  rw [if_neg (by simpa using hne), hk]
  unfold drop_digits_scan
  rw [hget, hd]
  simp only [Bool.false_eq_true, if_false, Option.map_some', Option.some.injEq]
  rw [← hk, List.take_length]

/-- On a name without trailing digits `inc_name` appends `1`. -/
theorem inc_name_first {x : List Char} (h : ends_nondigit x) :
    inc_name x = some (x ++ ['1']) := by
  unfold inc_name
  rw [drop_digits_of_ends_nondigit h]
  simp only [lt_self_iff_false, if_false]
  rfl

/-- C26 (failing input): the name `R1`. `inc_name` computes the base `R` and
the index 2 and then writes the index after the whole name, which gives `R12`
and not `R2`; a third and a fourth set with the prefix `R` are named `R12` and
`R1213`. -/
theorem inc_name_appends_to_name :
    inc_name "R".toList = some "R1".toList ∧ inc_name "R1".toList = some "R12".toList ∧
      inc_name "R1".toList ≠ some "R2".toList ∧
      inc_name "R12".toList = some "R1213".toList ∧
      (make_regsets 5 [mk_reg "R0" "i8", mk_reg "R1" "i16", mk_reg "R2" "i8",
          mk_reg "R3" "i16"]).map (fun sets => sets.map (·.name)) =
        some ["R".toList, "R1".toList, "R12".toList, "R1213".toList] := by
  decide

/-- C21 (amended): Special-evaluated sub-registers are not built. For a
sub-register with a special evaluator and without hardwired expression,
`BIDIBIND` flag and binding, `create_sub` creates no definition and returns
null in the unchanged state, whether its type converts or not; `analyze_top`
of a register that has it among its sub-registers never returns `true` and
returns `false` once the sub-registers before it are created; and when its
type converts, the null result is that of the branch of the classification
for special evaluators, which creates nothing. -/
theorem special_eval_sub_rejected (env : builder_env) (s : Nat) (sub_ri : register_info)
    (hs : env.mem s = some sub_ri) (hhw : sub_ri.hwexpr = none)
    (hbidi : sub_ri.flags &&& BIDIBIND_FLAG = 0) (hbind : sub_ri.binding = none)
    (hse : sub_ri.special_eval ≠ none) :
    (∀ fuel st top_ri top_rdef,
      create_sub env (fuel + 1) st top_ri top_rdef s = outcome.ret st none) ∧
    (∀ fuel st ri st2, s ∈ ri.subs → analyze_top env fuel st ri ≠ outcome.ret st2 true) ∧
    (∀ fuel st ri rtype pre post st1, ri.type ≠ none →
      env.convert_type ri.type = some rtype → ri.subs = pre ++ s :: post →
      create_subs (create_sub env (fuel + 1)) ri st.heap.length pre
        ⟨st.heap ++ [⟨none, ri.name, rtype, def_kind.top, 0, rtype.bits, none, []⟩],
          st.g_rdefs⟩ = outcome.ret st1 true →
      analyze_top env (fuel + 1) st ri = outcome.ret st1 false) ∧
    (∀ create st top_ri top_rdef type,
      create_rdef env create st top_ri top_rdef s sub_ri type = outcome.ret st none) := by
  have hbranch : ∀ create st top_ri top_rdef type,
      create_rdef env create st top_ri top_rdef s sub_ri type = outcome.ret st none := by
    intro create st top_ri top_rdef type
    have hsome : sub_ri.special_eval.isSome = true := by
      cases h : sub_ri.special_eval with
      | none => exact absurd h hse
      | some v => rfl
    unfold create_rdef
    simp only [hhw, hbidi, hbind, hsome, Option.isSome_none, Bool.false_eq_true, if_false,
      if_true, ne_eq, not_true_eq_false]
  have hfail : ∀ fuel st top_ri top_rdef,
      create_sub env (fuel + 1) st top_ri top_rdef s = outcome.ret st none := by
    intro fuel st top_ri top_rdef
    conv_lhs => unfold create_sub
    rw [hs]
    simp only
    cases hty : env.convert_type sub_ri.type with
    | none => rfl
    | some type =>
      simp only
      rw [hbranch]
  refine ⟨hfail, ?_, ?_, hbranch⟩
  · intro fuel st ri st2 hmem h
    obtain ⟨rtype, st1, -, hl, -⟩ := analyze_top_true h
    refine create_subs_not_true _ ri st.heap.length s ?_ _ _ _ hmem hl
    intro st3 st4 r
    cases fuel with
    | zero => simp [create_sub]
    | succ n => rw [hfail]; simp
  · intro fuel st ri rtype pre post st1 hty hc hsubs hpre
    apply analyze_top_false hty hc
    rw [hsubs]
    exact create_subs_stops _ ri _ s post pre _ st1 st1 hpre (hfail fuel st1 ri _)

theorem special_eval_sub_rejected_witness :
    sample_env.mem 40 =
        some { name := "SPECIAL".toList, type := some "i8".toList, special_eval := some 1 } ∧
      create_sub sample_env 1 builder_init
          { name := "ST".toList, type := some "i8".toList, subs := [40] } 0 40 =
        outcome.ret builder_init none :=
  ⟨by decide,
    (special_eval_sub_rejected sample_env 40
      { name := "SPECIAL".toList, type := some "i8".toList, special_eval := some 1 }
      (by decide) (by decide) (by decide) (by decide) (by decide)).1 0 builder_init
      { name := "ST".toList, type := some "i8".toList, subs := [40] } 0⟩

/-- C21 (as stated) fails: the register `ST` whose one sub-register has a
special evaluator and nothing else. `create_sub` returns null for it and
`analyze_top` returns `false`; with the plain sub-register 31 in its place
`analyze_top` returns `true`. -/
theorem special_eval_makes_analyze_top_fail :
    sample_env.mem 40 =
        some { name := "SPECIAL".toList, type := some "i8".toList, special_eval := some 1 } ∧
      analyze_top sample_env 1 builder_init
          { name := "ST".toList, type := some "i8".toList, subs := [40] } =
        outcome.ret ⟨[⟨none, "ST".toList, ⟨8, 0⟩, def_kind.top, 0, 8, none, []⟩], []⟩
          false ∧
      analyze_top sample_env 1 builder_init
          { name := "ST".toList, type := some "i8".toList, subs := [31] } =
        outcome.ret
          ⟨[⟨none, "ST".toList, ⟨8, 0⟩, def_kind.top, 0, 8, none, []⟩,
            ⟨some 0, "AX".toList, ⟨16, 0⟩, def_kind.sub, 0, 16, none, []⟩], [0]⟩ true := by
  decide

/-! ## Termination and the number of front-end queries -/

theorem queries_log (c : cpu_t) (e : event) :
    queries (log c e) = queries c + if is_query e = true then 1 else 0 := by
  unfold queries log
  simp only [List.countP_append, List.countP_cons, List.countP_nil, Nat.zero_add]

theorem queries_or (c : cpu_t) (a t : Nat) : queries (or_tagging_type c a t) = queries c := by
  unfold queries or_tagging_type
  split
  · simp [List.countP_append, List.countP_cons, is_query]
  · rfl

theorem queries_enter (c : cpu_t) (pc : Nat) : queries (enter c pc) = queries c + 1 := by
  unfold enter
  rw [queries_log, queries_or, queries_log]
  simp [is_query]

/-- Every front-end query of a walk is paid by a cell that gets `TYPE_CODE`. -/
theorem walk_queries {f : arch_func_t} {c c2 : cpu_t} {pc : Nat} (h : walk f c pc c2) :
    alloc_ok c → queries c2 + uncoded c2 ≤ queries c + uncoded c := by
  induction h with
  | outside _ => intro _; exact le_refl _
  | @seen c pc _ _ =>
    intro _
    have := uncoded_le_of_ext (ext_log c (event.read (pc - c.code_start)))
    rw [queries_log]
    simp only [is_query, Bool.false_eq_true, if_false, Nat.add_zero]
    omega
  | @stop c pc h1 h2 _ =>
    intro ha
    have := uncoded_enter_lt ha h1 h2
    rw [queries_enter]
    omega
  | @jump c c2 pc h1 h2 _ _ ih =>
    intro ha
    have ha0 := alloc_ok_ext (ext_enter c pc) ha
    have e1 := uncoded_enter_lt ha h1 h2
    have e2 := uncoded_le_of_ext
      (ext_or (enter c pc) (f.tag_instr pc).new_pc TYPE_CODE_TARGET)
    have := ih (alloc_ok_ext (ext_or _ _ _) ha0)
    rw [queries_or, queries_enter] at this
    omega
  | @call_direct c c2 c3 pc h1 h2 _ _ h5 _ ih1 ih2 =>
    intro ha
    have ha0 := alloc_ok_ext (ext_enter c pc) ha
    have ha1 := alloc_ok_ext
      (ext_or (enter c pc) (addr_add pc (f.tag_instr pc).bytes) TYPE_AFTER_CALL) ha0
    have ha2 := alloc_ok_ext (ext_or _ (f.tag_instr pc).new_pc TYPE_CODE_TARGET) ha1
    have e1 := uncoded_enter_lt ha h1 h2
    have e2 := uncoded_le_of_ext
      (ext_or (enter c pc) (addr_add pc (f.tag_instr pc).bytes) TYPE_AFTER_CALL)
    have e3 := uncoded_le_of_ext
      (ext_or (or_tagging_type (enter c pc) (addr_add pc (f.tag_instr pc).bytes)
        TYPE_AFTER_CALL) (f.tag_instr pc).new_pc TYPE_CODE_TARGET)
    have r1 := ih1 ha2
    have r2 := ih2 (alloc_ok_ext (walk_ext h5) ha2)
    rw [queries_or, queries_or, queries_enter] at r1
    omega
  | @call_indirect c c2 pc h1 h2 _ _ _ ih =>
    intro ha
    have ha0 := alloc_ok_ext (ext_enter c pc) ha
    have e1 := uncoded_enter_lt ha h1 h2
    have e2 := uncoded_le_of_ext
      (ext_or (enter c pc) (addr_add pc (f.tag_instr pc).bytes) TYPE_AFTER_CALL)
    have := ih (alloc_ok_ext (ext_or _ _ _) ha0)
    rw [queries_or, queries_enter] at this
    omega
  | @branch c c2 c3 pc h1 h2 _ h4 _ ih1 ih2 =>
    intro ha
    have ha0 := alloc_ok_ext (ext_enter c pc) ha
    have ha1 := alloc_ok_ext (ext_or (enter c pc) (f.tag_instr pc).new_pc TYPE_CODE_TARGET) ha0
    have ha2 := alloc_ok_ext (walk_ext h4) ha1
    have e1 := uncoded_enter_lt ha h1 h2
    have e2 := uncoded_le_of_ext
      (ext_or (enter c pc) (f.tag_instr pc).new_pc TYPE_CODE_TARGET)
    have e3 := uncoded_le_of_ext
      (ext_or c2 (addr_add pc (f.tag_instr pc).bytes) TYPE_AFTER_BRANCH)
    have r1 := ih1 ha1
    have r2 := ih2 (alloc_ok_ext (ext_or _ _ _) ha2)
    rw [queries_or, queries_enter] at r1
    rw [queries_or] at r2
    omega
  | @fallthrough c c2 pc h1 h2 _ _ ih =>
    intro ha
    have e1 := uncoded_enter_lt ha h1 h2
    have := ih (alloc_ok_ext (ext_enter c pc) ha)
    rw [queries_enter] at this
    omega

theorem queries_base (c : cpu_t) : queries (base c) = queries c := by
  unfold base
  split
  · unfold queries init_tagging
    simp [List.countP_append, List.countP_cons, is_query]
  · rfl

theorem countP_range_getD (p : Nat → Bool) : ∀ (arr : List Nat) (cs : Nat),
    (List.range' cs arr.length).countP (fun a => p (arr.getD (a - cs) 0)) = arr.countP p := by
  intro arr
  induction arr with
  | nil => intro cs; rfl
  | cons x xs ih =>
    intro cs
    simp only [List.length_cons, List.range'_succ, List.countP_cons, Nat.sub_self,
      List.getD_cons_zero]
    congr 1
    rw [← ih (cs + 1)]
    apply List.countP_congr
    intro a ha
    rw [List.mem_range'_1] at ha
    have : a - cs = (a - (cs + 1)) + 1 := by omega
    rw [this, List.getD_cons_succ]

/-- The addresses of the window without `TYPE_CODE` are the cells without
`TYPE_CODE` of the array that `cpu_tag` works on. -/
theorem window_uncoded_eq {c : cpu_t} (hw : wf c) : window_uncoded c = uncoded (base c) := by
  obtain ⟨arr, harr, hlen⟩ := alloc_ok_base hw
  have hl := hlen (by simpa using hw.1)
  simp only [base_code_start, base_code_end] at hl
  unfold window_uncoded uncoded
  rw [harr]
  simp only
  rw [← countP_range_getD (fun t => t &&& TYPE_CODE == 0) arr c.code_start, hl]
  apply List.countP_congr
  intro a _
  have : get_tagging_type c a = get_tagging_type (base c) a := (get_base c a).symm
  rw [this]
  unfold get_tagging_type
  rw [harr]
  simp

/-- With instructions of length 0 the walk meets the address it has just
marked and returns after one query. -/
theorem zero_length_walk_returns :
    (cpu_tag arch_zero 2 (fresh_unit 0 2) 0).map (fun c => (c.tagging_type, queries c)) =
      some (some [19, 0], 1) := by
  decide

/-! ## Lifting coverage -/

/-- A run survives the growth of the tags: its end is met from a label-tagged
address of the larger state, possibly a nearer one. -/
theorem run_from_ext {f : arch_func_t} {c c2 : cpu_t} (he : ext c c2) {l a : Nat}
    (h : run_from f c l a) : ∃ l2, run_from f c2 l2 a := by
  induction h with
  | head h1 h2 h3 =>
    exact ⟨l, run_from.head ((inwin_ext he l).2 h1) (has_tag_mono (he.le l) h2)
      (has_tag_mono (he.le l) h3)⟩
  | @next a b _ h2 h3 h4 h5 _ ih =>
    obtain ⟨l2, hr⟩ := ih
    have hin := (inwin_ext he b).2 h4
    have hcode := has_tag_mono (he.le b) h5
    by_cases hl : has_tag (get_tagging_type c2 b) LABEL_MASK
    · exact ⟨b, run_from.head hin hl hcode⟩
    · exact ⟨l2, run_from.next hr h2 h3 hin hcode hl⟩

theorem covered_of {f : arch_func_t} {c c2 : cpu_t} (he : ext c c2)
    (hb : ∀ b, inwin c b → has_tag (get_tagging_type c2 b) TYPE_CODE →
      has_tag (get_tagging_type c b) TYPE_CODE)
    (h : covered f c) : covered f c2 := by
  intro b hin hct
  have hin0 := (inwin_ext he b).1 hin
  obtain ⟨l, hr⟩ := h b hin0 (hb b hin0 hct)
  exact run_from_ext he hr

theorem covered_or {f : arch_func_t} {c : cpu_t} (b : Nat) {t : Nat}
    (ht : t &&& TYPE_CODE = 0) (h : covered f c) : covered f (or_tagging_type c b t) :=
  covered_of (ext_or c b t) (fun _ _ hct => tag_of_or ht hct) h

theorem run_entry_ext {f : arch_func_t} {c c2 : cpu_t} (he : ext c c2) {pc : Nat}
    (h : run_entry f c pc) : run_entry f c2 pc := by
  intro hin
  rcases h ((inwin_ext he pc).1 hin) with h1 | ⟨p, l, hr, h2, h3⟩
  · exact Or.inl (has_tag_mono (he.le pc) h1)
  · obtain ⟨l2, hr2⟩ := run_from_ext he hr
    exact Or.inr ⟨p, l2, hr2, h2, h3⟩

/-- The `TYPE_CODE` mark of the loop on an accounted address keeps the
explored addresses covered. -/
theorem covered_enter {f : arch_func_t} {c : cpu_t} {pc : Nat}
    (hj : run_entry f c pc) (h : covered f c) : covered f (enter c pc) := by
  have he := ext_enter c pc
  intro b hin hc
  have hin0 := (inwin_ext he b).1 hin
  rcases code_of_enter hin0 hc with h1 | h1
  · subst h1
    by_cases hl : has_tag (get_tagging_type (enter c b) b) LABEL_MASK
    · exact ⟨b, run_from.head hin hl hc⟩
    · rcases hj hin0 with h2 | ⟨p, l, hr, h2, h3⟩
      · exact (hl (has_tag_mono (he.le b) h2)).elim
      · obtain ⟨l2, hr2⟩ := run_from_ext he hr
        exact ⟨l2, run_from.next hr2 h2 h3 hin hc hl⟩
  · obtain ⟨l, hr⟩ := h b hin0 h1
    exact run_from_ext he hr

theorem has_tag_label {x t : Nat} (ht : t &&& LABEL_MASK = t) (h : has_tag x t) :
    has_tag x LABEL_MASK := by
  unfold has_tag at h ⊢
  intro h0
  apply h
  rw [← ht, ← Nat.and_assoc, Nat.and_comm x t, Nat.and_assoc, Nat.and_comm t, h0]
  simp

theorem run_entry_mark {f : arch_func_t} {c : cpu_t} (ha : alloc_ok c) (b : Nat) {t : Nat}
    (ht : t &&& LABEL_MASK = t) (ht0 : t ≠ 0) : run_entry f (or_tagging_type c b t) b := by
  intro hin
  have hin0 := (inwin_ext (ext_or c b t) b).1 hin
  left
  rw [get_or_self ha hin0]
  exact has_tag_label ht (has_tag_or _ ht0)

/-- A completed walk keeps the explored addresses covered. -/
theorem walk_covered {f : arch_func_t} {c c2 : cpu_t} {pc : Nat} (h : walk f c pc c2) :
    alloc_ok c → covered f c → run_entry f c pc → covered f c2 := by
  induction h with
  | outside _ => intro _ hC _; exact hC
  | @seen c pc _ _ =>
    intro _ hC _
    exact covered_of (ext_log _ _) (fun b _ h => by rwa [get_log] at h) hC
  | @stop c pc _ _ _ =>
    intro ha hC hj
    exact covered_enter hj hC
  | @jump c c2 pc h1 _ h3 _ ih =>
    intro ha hC hj
    have ha0 := alloc_ok_ext (ext_enter c pc) ha
    have he1 := ext_or (enter c pc) (f.tag_instr pc).new_pc TYPE_CODE_TARGET
    exact ih (alloc_ok_ext he1 ha0) (covered_or _ (by decide) (covered_enter hj hC))
      (run_entry_mark ha0 _ (by decide) (by decide))
  | @call_direct c c2 c3 pc h1 _ h3 _ h5 _ ih1 ih2 =>
    intro ha hC hj
    have ha0 := alloc_ok_ext (ext_enter c pc) ha
    have he1 := ext_or (enter c pc) (addr_add pc (f.tag_instr pc).bytes) TYPE_AFTER_CALL
    have ha1 := alloc_ok_ext he1 ha0
    have he2 := ext_or (or_tagging_type (enter c pc) (addr_add pc (f.tag_instr pc).bytes)
        TYPE_AFTER_CALL) (f.tag_instr pc).new_pc TYPE_CODE_TARGET
    have ha2 := alloc_ok_ext he2 ha1
    have r1 := ih1 ha2
      (covered_or _ (by decide) (covered_or _ (by decide) (covered_enter hj hC)))
      (run_entry_mark ha1 _ (by decide) (by decide))
    refine ih2 (alloc_ok_ext (walk_ext h5) ha2) r1 ?_
    exact run_entry_ext (ext_trans he2 (walk_ext h5))
      (run_entry_mark ha0 _ (by decide) (by decide))
  | @call_indirect c c2 pc h1 _ h3 _ _ ih =>
    intro ha hC hj
    have ha0 := alloc_ok_ext (ext_enter c pc) ha
    have he1 := ext_or (enter c pc) (addr_add pc (f.tag_instr pc).bytes) TYPE_AFTER_CALL
    exact ih (alloc_ok_ext he1 ha0) (covered_or _ (by decide) (covered_enter hj hC))
      (run_entry_mark ha0 _ (by decide) (by decide))
  | @branch c c2 c3 pc h1 _ h3 h4 _ ih1 ih2 =>
    intro ha hC hj
    have ha0 := alloc_ok_ext (ext_enter c pc) ha
    have he1 := ext_or (enter c pc) (f.tag_instr pc).new_pc TYPE_CODE_TARGET
    have ha1 := alloc_ok_ext he1 ha0
    have ha2 := alloc_ok_ext (walk_ext h4) ha1
    have r1 := ih1 ha1 (covered_or _ (by decide) (covered_enter hj hC))
      (run_entry_mark ha0 _ (by decide) (by decide))
    exact ih2 (alloc_ok_ext (ext_or _ _ _) ha2) (covered_or _ (by decide) r1)
      (run_entry_mark ha2 _ (by decide) (by decide))
  | @fallthrough c c2 pc h1 _ h3 _ ih =>
    intro ha hC hj
    have ha0 := alloc_ok_ext (ext_enter c pc) ha
    have hC0 := covered_enter hj hC
    refine ih ha0 hC0 ?_
    intro _
    have := explored_at ha h1 (ext_refl _)
    obtain ⟨l, hr⟩ := hC0 pc this.1 this.2
    exact Or.inr ⟨pc, l, hr, h3, rfl⟩

theorem covered_base {f : arch_func_t} {c : cpu_t} (h : covered f c) : covered f (base c) := by
  intro b hin hct
  simp only [get_base, inwin_base] at hin hct
  obtain ⟨l, hr⟩ := h b hin hct
  clear hin hct
  induction hr with
  | head h1 h2 h3 =>
    exact ⟨l, run_from.head ((inwin_base c l).2 h1) (by rw [get_base]; exact h2)
      (by rw [get_base]; exact h3)⟩
  | @next a b _ h2 h3 h4 h5 h6 ih =>
    obtain ⟨l2, hr2⟩ := ih
    exact ⟨l2, run_from.next hr2 h2 h3 ((inwin_base c b).2 h4) (by rw [get_base]; exact h5)
      (by rw [get_base]; exact h6)⟩

theorem cpu_tag_covered {f : arch_func_t} {fuel : Nat} {c c2 : cpu_t} {pc : Nat}
    (h : cpu_tag f fuel c pc = some c2) (hw : wf c) (hC : covered f c) : covered f c2 := by
  rcases cpu_tag_cases h with ⟨-, h1⟩ | ⟨-, h1⟩
  · rw [h1]; exact hC
  · have ha := alloc_ok_base hw
    have he1 := ext_or (base c) pc TYPE_ENTRY
    have ha1 := alloc_ok_ext he1 ha
    have he2 := ext_or (or_tagging_type (base c) pc TYPE_ENTRY) pc TYPE_CODE_TARGET
    exact walk_covered h1 (alloc_ok_ext he2 ha1)
      (covered_or _ (by decide) (covered_or _ (by decide) (covered_base hC)))
      (run_entry_mark ha1 _ (by decide) (by decide))

/-- In every unit reached from a fresh one each explored address of the window
is met from a label-tagged address. -/
theorem tagged_covered {f : arch_func_t} {c : cpu_t} (h : tagged f c) : covered f c := by
  induction h with
  | fresh cs ce fl hle hce =>
    intro a _ hc; exact (hc (Nat.zero_and _)).elim
  | tag c c2 fuel pc h1 h2 ih => exact cpu_tag_covered h2 (tagged_inv h1).1 ih
  | set_flags fl _ ih =>
    intro a hin hc
    obtain ⟨l, hr⟩ := ih a hin hc
    clear hin hc
    induction hr with
    | head h1 h2 h3 => exact ⟨l, run_from.head h1 h2 h3⟩
    | @next a b _ h2 h3 h4 h5 h6 ih2 =>
      obtain ⟨l2, hr2⟩ := ih2
      exact ⟨l2, run_from.next hr2 h2 h3 h4 h5 h6⟩

theorem run_from_head {f : arch_func_t} {c : cpu_t} {l a : Nat} (h : run_from f c l a) :
    inwin c l ∧ has_tag (get_tagging_type c l) LABEL_MASK := by
  induction h with
  | head h1 h2 _ => exact ⟨h1, h2⟩
  | next _ _ _ _ _ _ ih => exact ih

/-- The addresses that the lifting loop passes to `recompile_instr` start with
`pc` and are closed under the test of the loop: after a lifted address, an
explored `pc+len` of the window without a label tag is lifted too. -/
theorem lift_loop_closed (f : arch_func_t) (c : cpu_t) : ∀ (fuel pc : Nat)
    (pcs pcs2 : List Nat) (last pc2 : Nat),
    lift_loop f c fuel pc pcs = lift_result.ok pcs2 last pc2 →
    ∃ v, pcs2 = pcs ++ v ∧ pc ∈ v ∧
      ∀ a ∈ v, inwin c (addr_add a (f.recompile_instr a)) →
        has_tag (get_tagging_type c (addr_add a (f.recompile_instr a))) TYPE_CODE →
        ¬ has_tag (get_tagging_type c (addr_add a (f.recompile_instr a))) LABEL_MASK →
        addr_add a (f.recompile_instr a) ∈ v := by
  intro fuel
  induction fuel with
  | zero => intro pc pcs pcs2 last pc2 h; simp [lift_loop] at h
  | succ fuel ih =>
    intro pc pcs pcs2 last pc2 h
    unfold lift_loop at h
    simp only at h
    by_cases h1 : addr_add pc (f.recompile_instr pc) < c.code_end
    · rw [if_pos h1] at h
      by_cases h2 : addr_add pc (f.recompile_instr pc) < c.code_start
      · rw [if_pos h2] at h; cases h
      · rw [if_neg h2] at h
        by_cases h3 : get_tagging_type c (addr_add pc (f.recompile_instr pc)) &&& TYPE_CODE ≠ 0 ∧
            ¬ (get_tagging_type c (addr_add pc (f.recompile_instr pc)) &&& LABEL_MASK ≠ 0)
        · rw [if_pos h3] at h
          obtain ⟨v, hv1, hv2, hv3⟩ := ih _ _ _ _ _ h
          refine ⟨pc :: v, ?_, List.mem_cons_self _ _, ?_⟩
          · rw [hv1, List.append_assoc]; rfl
          · intro a ha hin hcode hlab
            rcases List.mem_cons.1 ha with e | e
            · rw [e]; exact List.mem_cons_of_mem _ hv2
            · exact List.mem_cons_of_mem _ (hv3 a e hin hcode hlab)
        · rw [if_neg h3] at h
          cases h
          refine ⟨[pc], rfl, List.mem_singleton.2 rfl, ?_⟩
          intro a ha _ hcode hlab
          rw [List.mem_singleton.1 ha] at hcode hlab
          exact (h3 ⟨hcode, hlab⟩).elim
    · rw [if_neg h1] at h
      cases h
      refine ⟨[pc], rfl, List.mem_singleton.2 rfl, ?_⟩
      intro a ha hin _ _
      rw [List.mem_singleton.1 ha] at hin
      exact (h1 hin.2).elim

/-- A list of addresses that holds `l` and is closed under the test of the
lifting loop holds every address met from `l`. -/
theorem run_from_mem {f : arch_func_t} {c : cpu_t}
    (hlen : ∀ pc, f.recompile_instr pc = (f.tag_instr pc).bytes) {v : List Nat} {l a : Nat}
    (hl : l ∈ v)
    (hv : ∀ a ∈ v, inwin c (addr_add a (f.recompile_instr a)) →
      has_tag (get_tagging_type c (addr_add a (f.recompile_instr a))) TYPE_CODE →
      ¬ has_tag (get_tagging_type c (addr_add a (f.recompile_instr a))) LABEL_MASK →
      addr_add a (f.recompile_instr a) ∈ v)
    (h : run_from f c l a) : a ∈ v := by
  induction h with
  | head _ _ _ => exact hl
  | @next a b _ _ h3 h4 h5 h6 ih =>
    have := hv a ih
    rw [hlen, h3] at this
    exact this h4 h5 h6

/-- The lifting loop over block names: every lifted block holds the addresses
met from its label, and a normal return has lifted every `L`-named block. -/
theorem lift_blocks_cover {f : arch_func_t} {c : cpu_t} (fuel : Nat)
    (h60 : c.code_end ≤ 2 ^ 60)
    (hlen : ∀ pc, f.recompile_instr pc = (f.tag_instr pc).bytes)
    {B : List (List Char)} (hs : blocks_sound c B) :
    ∀ (names : List (List Char)) (jit : jit_t), (∀ n ∈ names, n ∈ B) →
      (∀ e ∈ jit.lifted, block_covers f c e) →
      (∀ e ∈ (lift_blocks f c fuel names jit).jit.lifted, block_covers f c e) ∧
        ∀ jit2, lift_blocks f c fuel names jit = recompile_result.done jit2 →
          (∀ e ∈ jit.lifted, e ∈ jit2.lifted) ∧
          ∀ n ∈ names, n.head? = some LABEL_PREFIX → ∃ pcs, (n, pcs) ∈ jit2.lifted := by
  intro names
  induction names with
  | nil =>
    intro jit _ hl
    refine ⟨hl, fun jit2 h => ?_⟩
    simp only [lift_blocks, recompile_result.done.injEq] at h
    subst h
    exact ⟨fun e he => he, fun n hn => by cases hn⟩
  | cons name rest ih =>
    intro jit hn hl
    have hrest : ∀ n ∈ rest, n ∈ B := fun n h => hn n (List.mem_cons_of_mem _ h)
    unfold lift_blocks
    by_cases hh : name.head? ≠ some LABEL_PREFIX
    · rw [if_pos hh]
      obtain ⟨i1, i2⟩ := ih jit hrest hl
      refine ⟨i1, fun jit2 h => ?_⟩
      obtain ⟨j1, j2⟩ := i2 jit2 h
      refine ⟨j1, fun n hn2 hp => ?_⟩
      rcases List.mem_cons.1 hn2 with e | e
      · rw [e] at hp; exact (hh hp).elim
      · exact j2 n e hp
    · rw [if_neg hh]
      obtain ⟨a0, ha0, hla, hname⟩ := hs name (hn name (List.mem_cons_self _ _)) (not_not.mp hh)
      have hparse : strtol16 name.tail = a0 := by
        rw [hname]; exact strtol16_create_label (Nat.lt_of_lt_of_le ha0.2 h60)
      rw [hparse]
      cases hres : lift_loop f c fuel a0 [] with
      | out_of_fuel => exact ⟨hl, fun jit2 h => by cases h⟩
      | fault => exact ⟨hl, fun jit2 h => by cases h⟩
      | ok pcs last pc2 =>
        simp only
        obtain ⟨v, hv1, hv2, hv3⟩ := lift_loop_closed f c fuel a0 [] pcs last pc2 hres
        rw [List.nil_append] at hv1
        have hnew : block_covers f c (name, pcs) := by
          intro l a hl1 hr
          have hl60 : l < 2 ^ 60 := Nat.lt_of_lt_of_le (run_from_head hr).1.2 h60
          have hla0 : l = a0 := by
            rw [← strtol16_create_label hl60, ← hl1]; exact hparse
          rw [hla0] at hr
          show a ∈ pcs
          rw [hv1]
          exact run_from_mem hlen hv2 hv3 hr
        have hl1 : ∀ e ∈ jit.lifted ++ [(name, pcs)], block_covers f c e := by
          intro e he
          rcases List.mem_append.1 he with h | h
          · exact hl e h
          · rw [List.mem_singleton.1 h]; exact hnew
        have hfin : ∀ (r : recompile_result),
            ((∀ e ∈ r.jit.lifted, block_covers f c e) ∧
              ∀ jit2, r = recompile_result.done jit2 →
                (∀ e ∈ jit.lifted ++ [(name, pcs)], e ∈ jit2.lifted) ∧
                ∀ n ∈ rest, n.head? = some LABEL_PREFIX → ∃ pcs, (n, pcs) ∈ jit2.lifted) →
            ((∀ e ∈ r.jit.lifted, block_covers f c e) ∧
              ∀ jit2, r = recompile_result.done jit2 →
                (∀ e ∈ jit.lifted, e ∈ jit2.lifted) ∧
                ∀ n ∈ name :: rest, n.head? = some LABEL_PREFIX →
                  ∃ pcs, (n, pcs) ∈ jit2.lifted) := by
          intro r hr
          refine ⟨hr.1, fun jit2 h => ?_⟩
          obtain ⟨j1, j2⟩ := hr.2 jit2 h
          refine ⟨fun e he => j1 e (List.mem_append_left _ he), fun n hn2 hp => ?_⟩
          rcases List.mem_cons.1 hn2 with e | e
          · rw [e]; exact ⟨pcs, j1 _ (List.mem_append_right _ (List.mem_singleton.2 rfl))⟩
          · exact j2 n e hp
        by_cases hflow : (f.tag_instr last).flow_type = flow_type_t.CONTINUE
        · rw [if_pos hflow]
          cases hlk : lookup_basicblock jit.blocks pc2 with
          | none => exact ⟨hl1, fun jit2 h => by cases h⟩
          | some target => exact hfin _ (ih _ hrest hl1)
        · rw [if_neg hflow]
          exact hfin _ (ih _ hrest hl1)

/-- The lifting loop returns: started on an explored address of the window,
with every explored instruction followed by a higher address, it ends within
`code_end - pc` iterations and reads no tag below `code_start`. -/
theorem lift_loop_returns (f : arch_func_t) (c : cpu_t)
    (hlen : ∀ pc, f.recompile_instr pc = (f.tag_instr pc).bytes)
    (hup : ∀ a, inwin c a → has_tag (get_tagging_type c a) TYPE_CODE →
      a < addr_add a (f.tag_instr a).bytes) :
    ∀ (fuel pc : Nat) (pcs : List Nat), inwin c pc →
      has_tag (get_tagging_type c pc) TYPE_CODE → c.code_end - pc ≤ fuel →
      ∃ pcs2 last pc2, lift_loop f c fuel pc pcs = lift_result.ok pcs2 last pc2 := by
  intro fuel
  induction fuel with
  | zero =>
    intro pc pcs hin _ hf
    unfold inwin at hin
    omega
  | succ fuel ih =>
    intro pc pcs hin hcode hf
    have hgt := hup pc hin hcode
    rw [← hlen] at hgt
    unfold lift_loop
    simp only
    by_cases h1 : addr_add pc (f.recompile_instr pc) < c.code_end
    · rw [if_pos h1]
      have h2 : ¬ addr_add pc (f.recompile_instr pc) < c.code_start := by
        unfold inwin at hin
        omega
      rw [if_neg h2]
      by_cases h3 : get_tagging_type c (addr_add pc (f.recompile_instr pc)) &&& TYPE_CODE ≠ 0 ∧
          ¬ (get_tagging_type c (addr_add pc (f.recompile_instr pc)) &&& LABEL_MASK ≠ 0)
      · rw [if_pos h3]
        exact ih _ _ ⟨Nat.le_of_not_lt h2, h1⟩ h3.1 (by omega)
      · rw [if_neg h3]
        exact ⟨_, _, _, rfl⟩
    · rw [if_neg h1]
      exact ⟨_, _, _, rfl⟩

/-- The lifting loop over block names returns normally when every explored
instruction is followed by a higher address and no explored `CONTINUE`
instruction has its `pc+len` outside the window. -/
theorem lift_blocks_returns {f : arch_func_t} {c : cpu_t} (fuel : Nat)
    (h60 : c.code_end ≤ 2 ^ 60)
    (hlen : ∀ pc, f.recompile_instr pc = (f.tag_instr pc).bytes)
    (hserved : served f (fun _ => False) c) (hlc : labels_coded (fun _ => False) c)
    {B : List (List Char)} (hs : blocks_sound c B) (hc : blocks_complete c B)
    (hup : ∀ a, inwin c a → has_tag (get_tagging_type c a) TYPE_CODE →
      a < addr_add a (f.tag_instr a).bytes)
    (hstay : ∀ a, inwin c a → has_tag (get_tagging_type c a) TYPE_CODE →
      (f.tag_instr a).flow_type = flow_type_t.CONTINUE →
      inwin c (addr_add a (f.tag_instr a).bytes))
    (hfuel : c.code_end - c.code_start ≤ fuel) :
    ∀ (names : List (List Char)) (jit : jit_t), (∀ n ∈ names, n ∈ B) → jit.blocks = B →
      ∃ jit2, lift_blocks f c fuel names jit = recompile_result.done jit2 := by
  intro names
  induction names with
  | nil => intro jit _ _; exact ⟨jit, rfl⟩
  | cons name rest ih =>
    intro jit hn hB
    have hrest : ∀ n ∈ rest, n ∈ B := fun n h => hn n (List.mem_cons_of_mem _ h)
    unfold lift_blocks
    by_cases hh : name.head? ≠ some LABEL_PREFIX
    · rw [if_pos hh]; exact ih jit hrest hB
    · rw [if_neg hh]
      obtain ⟨a, ha, hla, hname⟩ := hs name (hn name (List.mem_cons_self _ _)) (not_not.mp hh)
      have hparse : strtol16 name.tail = a := by
        rw [hname]; exact strtol16_create_label (Nat.lt_of_lt_of_le ha.2 h60)
      have hcode : has_tag (get_tagging_type c a) TYPE_CODE := hlc a ha hla (fun h => h)
      rw [hparse]
      obtain ⟨pcs, last, pc2, hres⟩ := lift_loop_returns f c hlen hup fuel a [] ha hcode
        (by unfold inwin at ha; omega)
      rw [hres]
      obtain ⟨hlin, hlcode, hpc2, hstop⟩ := lift_loop_spec f c fuel a [] pcs last pc2 ha hcode hres
      simp only
      by_cases hflow : (f.tag_instr last).flow_type = flow_type_t.CONTINUE
      · rw [if_pos hflow]
        have hin2 : inwin c pc2 := by
          rw [hpc2, hlen]; exact hstay last hlin hlcode hflow
        have hnode := hserved last hlin hlcode (fun h => h)
        unfold node_ok at hnode
        rw [hflow] at hnode
        simp only at hnode
        rw [← hlen, ← hpc2] at hnode
        have hl2 := hstop hin2 (hnode hin2).1
        rw [hB, lookup_inwin h60 hs hc hin2 hl2]
        exact ih _ hrest rfl
      · rw [if_neg hflow]
        exact ih _ hrest hB

theorem create_label_inj {a b : Nat} (ha : a < 2 ^ 60) (hb : b < 2 ^ 60)
    (h : create_label a = create_label b) : a = b := by
  rw [← strtol16_create_label ha, ← strtol16_create_label hb, h]

/-- C24 (amended): Lifting coverage on a normal return, for windows below
`2 ^ 60`. For a unit reached from a fresh one by `cpu_tag` calls and a
front-end whose `recompile_instr` length equals its `tag_instr` length: every
address of the window tagged `CODE` is met from a label-tagged address `l` by
`CONTINUE` instructions over explored addresses without a label tag; every
`L<l>` block that `cpu_recompile` lifts passes each address met from `l` to
`recompile_instr`; a normal return of `cpu_recompile` has lifted the block of
every such `l`; and `cpu_recompile` returns normally, within
`code_end - code_start` iterations of each lifting loop, when the tag array is
allocated, every explored instruction is followed by a higher address and no
explored `CONTINUE` instruction has its `pc+len` outside the window. -/
theorem lifting_coverage (f : arch_func_t) (c : cpu_t) (bb_ret : List Char) (ht : tagged f c)
    (hlen : ∀ pc, f.recompile_instr pc = (f.tag_instr pc).bytes)
    (h60 : c.code_end ≤ 2 ^ 60) :
    (∀ a, inwin c a → has_tag (get_tagging_type c a) TYPE_CODE → ∃ l, run_from f c l a) ∧
      (∀ fuel l a, run_from f c l a →
        (∀ pcs, (create_label l, pcs) ∈ (cpu_recompile f fuel c bb_ret jit_shell).jit.lifted →
          a ∈ pcs) ∧
        ∀ jit, cpu_recompile f fuel c bb_ret jit_shell = recompile_result.done jit →
          ∃ pcs, (create_label l, pcs) ∈ jit.lifted ∧ a ∈ pcs) ∧
      (c.tagging_type ≠ none →
        (∀ a, inwin c a → has_tag (get_tagging_type c a) TYPE_CODE →
          a < addr_add a (f.tag_instr a).bytes) →
        (∀ a, inwin c a → has_tag (get_tagging_type c a) TYPE_CODE →
          (f.tag_instr a).flow_type = flow_type_t.CONTINUE →
          inwin c (addr_add a (f.tag_instr a).bytes)) →
        ∀ fuel, c.code_end - c.code_start ≤ fuel →
          ∃ jit, cpu_recompile f fuel c bb_ret jit_shell = recompile_result.done jit) := by
  obtain ⟨-, hserved, hlc⟩ := tagged_inv ht
  obtain ⟨hs, hc⟩ := blocks_after_create c jit_shell (by decide)
  have hcov : ∀ fuel,
      (∀ e ∈ (cpu_recompile f fuel c bb_ret jit_shell).jit.lifted, block_covers f c e) ∧
      ∀ jit, cpu_recompile f fuel c bb_ret jit_shell = recompile_result.done jit →
        ∀ l, inwin c l → has_tag (get_tagging_type c l) LABEL_MASK →
          ∃ pcs, (create_label l, pcs) ∈ jit.lifted := by
    intro fuel
    unfold cpu_recompile
    simp only
    split
    · exact ⟨fun e he => by simp [recompile_result.jit, jit_shell] at he,
        fun jit h => by cases h⟩
    · rw [add_cases_spec c h60 _ _ (fun a ha => (mem_window c a).1 ha) hs hc]
      simp only
      obtain ⟨k1, k2⟩ := lift_blocks_cover (f := f) fuel h60 hlen hs _
        { blocks := (create_blocks c (List.range' c.code_start (c.code_end - c.code_start))
            jit_shell).blocks ++ ["dispatch".toList]
          switch_default := some bb_ret
          cases := (create_blocks c (List.range' c.code_start (c.code_end - c.code_start))
            jit_shell).cases ++
            ((List.range' c.code_start (c.code_end - c.code_start)).filter (fun pc =>
              decide (get_tagging_type c pc &&& (TYPE_ENTRY ||| TYPE_AFTER_CALL) ≠ 0))).map
              (fun pc => (pc, create_label pc))
          lifted := (create_blocks c (List.range' c.code_start (c.code_end - c.code_start))
            jit_shell).lifted
          links := (create_blocks c (List.range' c.code_start (c.code_end - c.code_start))
            jit_shell).links
          lookups := (create_blocks c (List.range' c.code_start (c.code_end - c.code_start))
            jit_shell).lookups ++
            (List.range' c.code_start (c.code_end - c.code_start)).filter (fun pc =>
              decide (get_tagging_type c pc &&& (TYPE_ENTRY ||| TYPE_AFTER_CALL) ≠ 0)) }
        (fun n hn => hn)
        (fun e he => by
          rw [create_blocks_spec] at he
          simp [jit_shell] at he)
      refine ⟨k1, fun jit h l hl1 hl2 => ?_⟩
      exact (k2 jit h).2 _ (hc l hl1 hl2) (create_label_head l)
  refine ⟨tagged_covered ht, fun fuel l a hr => ⟨fun pcs hm => ?_, fun jit h => ?_⟩, ?_⟩
  · exact (hcov fuel).1 _ hm l a rfl hr
  · obtain ⟨pcs, hm⟩ := (hcov fuel).2 jit h l (run_from_head hr).1 (run_from_head hr).2
    refine ⟨pcs, hm, ?_⟩
    have := (hcov fuel).1 (create_label l, pcs) (by rw [h]; exact hm)
    exact this l a rfl hr
  · intro harr hup hstay fuel hfuel
    unfold cpu_recompile
    simp only
    rw [if_neg (fun h => harr (Option.isNone_iff_eq_none.1 h.1)),
      add_cases_spec c h60 _ _ (fun a ha => (mem_window c a).1 ha) hs hc]
    simp only
    exact lift_blocks_returns fuel h60 hlen hserved hlc hs hc hup hstay hfuel _ _
      (fun n hn => hn) rfl

theorem lifting_coverage_witness :
    tagged arch_branch unit_branch ∧
      (∀ pc, arch_branch.recompile_instr pc = (arch_branch.tag_instr pc).bytes) ∧
      unit_branch.code_end ≤ 2 ^ 60 ∧
      (∃ l, run_from arch_branch unit_branch l 3) ∧
      (∃ jit, cpu_recompile arch_branch 5 unit_branch "ret".toList jit_shell =
        recompile_result.done jit) ∧
      (cpu_recompile arch_branch 5 unit_branch "ret".toList jit_shell).jit.lifted =
        [("L00000000".toList, [0]), ("L00000002".toList, [2, 3]), ("L00000004".toList, [4])] :=
  have ht : tagged arch_branch unit_branch :=
    tagged.tag (fresh_unit 0 5) unit_branch 5 0 (tagged.fresh 0 5 0 (by decide) (by decide)) (by decide)
  have hlen : ∀ pc, arch_branch.recompile_instr pc = (arch_branch.tag_instr pc).bytes := by
    intro pc
    simp only [arch_branch]
    split_ifs <;> rfl
  have hup : ∀ a, inwin unit_branch a → has_tag (get_tagging_type unit_branch a) TYPE_CODE →
      a < addr_add a (arch_branch.tag_instr a).bytes := by
    intro a hin _
    have h5 : a < 5 := hin.2
    interval_cases a <;> decide
  have hstay : ∀ a, inwin unit_branch a → has_tag (get_tagging_type unit_branch a) TYPE_CODE →
      (arch_branch.tag_instr a).flow_type = flow_type_t.CONTINUE →
      inwin unit_branch (addr_add a (arch_branch.tag_instr a).bytes) := by
    intro a hin _
    have h5 : a < 5 := hin.2
    interval_cases a <;> decide
  ⟨ht, hlen, by decide,
    (lifting_coverage arch_branch unit_branch "ret".toList ht hlen (by decide)).1 3
      (by decide) (by decide),
    (lifting_coverage arch_branch unit_branch "ret".toList ht hlen (by decide)).2.2
      (by decide) hup hstay 5 (by decide),
    by decide⟩

/-- C24 (as stated) fails: window `[0, 3)` with a three-byte `CONTINUE` at 0
whose last byte, at 2, is a one-byte `RET`, tagged from 0 and from 2. Both
addresses are tagged `CODE` and have a label; `cpu_recompile` lifts the block
`L00000000`, whose last instruction has flow `CONTINUE` and is followed by 3,
outside the window, and ends in the "unknown continue" exit before it reaches
the block `L00000002`: the address 2 is not passed to `recompile_instr`,
whatever the bound on the lifting loop. -/
theorem overlap_block_not_lifted :
    tagged arch_overlap unit_overlap ∧
      (∀ pc, arch_overlap.recompile_instr pc = (arch_overlap.tag_instr pc).bytes) ∧
      inwin unit_overlap 2 ∧ has_tag (get_tagging_type unit_overlap 2) TYPE_CODE ∧
      has_tag (get_tagging_type unit_overlap 2) LABEL_MASK ∧
      cpu_recompile arch_overlap 3 unit_overlap "ret".toList jit_shell =
        recompile_result.unknown_continue 3
          { blocks := ["entry".toList, "ret".toList, "L00000000".toList, "L00000002".toList,
              "dispatch".toList]
            switch_default := some "ret".toList
            cases := [(0, "L00000000".toList), (2, "L00000002".toList)]
            lifted := [("L00000000".toList, [0])]
            links := []
            lookups := [0, 2, 3] } ∧
      ∀ fuel, ∀ e ∈ (cpu_recompile arch_overlap fuel unit_overlap "ret".toList jit_shell).jit.lifted,
        2 ∉ e.2 := by
  refine ⟨tagged.tag
      ⟨0, 3, 0, some [19, 0, 0],
        [event.alloc 3, event.write 0 16, event.write 0 2, event.read 0, event.write 0 1,
          event.query 0]⟩
      unit_overlap 3 2
      (tagged.tag (fresh_unit 0 3) _ 3 0 (tagged.fresh 0 3 0 (by decide) (by decide))
        (by decide))
      (by decide), ?_, by decide, by decide, by decide, by decide, ?_⟩
  · intro pc
    simp only [arch_overlap]
    split_ifs <;> rfl
  · intro fuel
    cases fuel with
    | zero => decide
    | succ n =>
      have h : cpu_recompile arch_overlap (n + 1) unit_overlap "ret".toList jit_shell =
          cpu_recompile arch_overlap 1 unit_overlap "ret".toList jit_shell := rfl
      rw [h]
      decide

end Libcpu
